import Mathlib

/-!
# Verification of the `myu` μ-calculus model checker

Shallow embedding of the `myu` repository (a model checker for labeled
transition systems against modal μ-calculus formulas) and proofs about it.

Source files embedded:
* `src/mu_calculus.rs` — formula AST, subformula iterator, variable analysis,
  the three depth metrics, and the (nom-based) `Formula::from_str` parser.
* `src/lts.rs` — the LTS store and its Aldebaran-format parser.
* `src/naive.rs` — the naive nested-fixed-point evaluator.
* `src/improved.rs` — the Emerson–Lei evaluator with selective resets.
* `src/main.rs` — the process-global `ITERATIONS` counter (modelled as
  explicitly threaded state).

Machine integers: Rust `u32` state identifiers and `u16` depth values are
modelled as `Nat`; no claim under verification depends on wrap-around
behaviour (depths and iteration counts stay far below `2^16`/`2^32` on all
inputs considered, and the state-id arithmetic never overflows because the
code only moves parsed identifiers around).
-/

/-! ## Formula AST (`src/mu_calculus.rs`, `enum Formula`) -/

/-- `enum Formula` from `src/mu_calculus.rs`.  Variable names are `char`
(`VarName`), modal steps are strings. -/
inductive Formula where
  | False : Formula
  | True : Formula
  | Var (name : Char) : Formula
  | And (f1 f2 : Formula) : Formula
  | Or (f1 f2 : Formula) : Formula
  | Diamond (step : String) (f : Formula) : Formula
  | Box (step : String) (f : Formula) : Formula
  | Mu (var : Char) (f : Formula) : Formula
  | Nu (var : Char) (f : Formula) : Formula
  deriving DecidableEq, Repr

/-- Explicit size measure on formulas, used only for termination. -/
def fsize : Formula → Nat
  | .And f1 f2 => fsize f1 + fsize f2 + 1
  | .Or f1 f2 => fsize f1 + fsize f2 + 1
  | .Diamond _ g => fsize g + 1
  | .Box _ g => fsize g + 1
  | .Mu _ g => fsize g + 2
  | .Nu _ g => fsize g + 2
  | _ => 1

theorem fsize_pos (f : Formula) : 0 < fsize f := by
  cases f <;> simp [fsize]

/-- `Formula::subformulas` (`impl Iterator for Subformulas`): pre-order walk
with an explicit work stack.  The stack pops the last pushed child first, so
for binary nodes the right subtree is yielded before the left one; this list
is the exact yield order of the Rust iterator. -/
def subformulas : Formula → List Formula
  | .And f1 f2 => .And f1 f2 :: (subformulas f2 ++ subformulas f1)
  | .Or f1 f2 => .Or f1 f2 :: (subformulas f2 ++ subformulas f1)
  | .Diamond step g => .Diamond step g :: subformulas g
  | .Box step g => .Box step g :: subformulas g
  | .Mu var g => .Mu var g :: subformulas g
  | .Nu var g => .Nu var g :: subformulas g
  | f => [f]

theorem self_mem_subformulas (f : Formula) : f ∈ subformulas f := by
  cases f <;> simp [subformulas]

theorem fsize_le_of_mem_subformulas :
    ∀ f g : Formula, g ∈ subformulas f → fsize g ≤ fsize f := by
  intro f
  induction f with
  | False => intro g hg; simp [subformulas] at hg; simp [hg]
  | True => intro g hg; simp [subformulas] at hg; simp [hg]
  | Var name => intro g hg; simp [subformulas] at hg; simp [hg]
  | And f1 f2 ih1 ih2 =>
      intro g hg
      simp only [subformulas, List.mem_cons, List.mem_append] at hg
      rcases hg with h | h | h
      · simp [h]
      · have := ih2 g h; simp [fsize]; omega
      · have := ih1 g h; simp [fsize]; omega
  | Or f1 f2 ih1 ih2 =>
      intro g hg
      simp only [subformulas, List.mem_cons, List.mem_append] at hg
      rcases hg with h | h | h
      · simp [h]
      · have := ih2 g h; simp [fsize]; omega
      · have := ih1 g h; simp [fsize]; omega
  | Diamond step f ih =>
      intro g hg
      simp only [subformulas, List.mem_cons] at hg
      rcases hg with h | h
      · simp [h]
      · have := ih g h; simp [fsize]; omega
  | Box step f ih =>
      intro g hg
      simp only [subformulas, List.mem_cons] at hg
      rcases hg with h | h
      · simp [h]
      · have := ih g h; simp [fsize]; omega
  | Mu var f ih =>
      intro g hg
      simp only [subformulas, List.mem_cons] at hg
      rcases hg with h | h
      · simp [h]
      · have := ih g h; simp [fsize]; omega
  | Nu var f ih =>
      intro g hg
      simp only [subformulas, List.mem_cons] at hg
      rcases hg with h | h
      · simp [h]
      · have := ih g h; simp [fsize]; omega

/-- `struct Variables` from `src/mu_calculus.rs`: the `declared` and `used`
variable sets of a subformula. -/
structure Variables where
  declared : Finset Char
  used : Finset Char
  deriving DecidableEq

/-- `Formula::variablesOf` (private helper in `src/mu_calculus.rs`). -/
def variablesOf : Formula → Variables
  | .Var name => ⟨∅, {name}⟩
  | .And f1 f2 =>
      ⟨(variablesOf f1).declared ∪ (variablesOf f2).declared,
       (variablesOf f1).used ∪ (variablesOf f2).used⟩
  | .Or f1 f2 =>
      ⟨(variablesOf f1).declared ∪ (variablesOf f2).declared,
       (variablesOf f1).used ∪ (variablesOf f2).used⟩
  | .Diamond _ g => variablesOf g
  | .Box _ g => variablesOf g
  | .Mu var g => ⟨insert var (variablesOf g).declared, (variablesOf g).used⟩
  | .Nu var g => ⟨insert var (variablesOf g).declared, (variablesOf g).used⟩
  | _ => ⟨∅, ∅⟩

/-- `Formula::is_mu`. -/
def Formula.is_mu : Formula → Bool
  | .Mu _ _ => true
  | _ => false

/-- `Formula::is_nu`. -/
def Formula.is_nu : Formula → Bool
  | .Nu _ _ => true
  | _ => false

/-- `Formula::is_open`: `used ⊄ declared`. -/
def Formula.is_open (f : Formula) : Bool :=
  decide (¬ (variablesOf f).used ⊆ (variablesOf f).declared)

/-! ## Formula metrics (`nesting_depth`, `alternation_depth`, `dependent_ad`)

The Rust functions return `u16`; all claims about them concern the recursion
itself and the values involved stay far below `2^16`, so they are modelled
on `Nat`. -/

/-- `Iterator::max().unwrap_or(0)` over a list of `Nat`. -/
def listMax (l : List Nat) : Nat := l.foldr max 0

theorem le_listMax {l : List Nat} {x : Nat} (hx : x ∈ l) : x ≤ listMax l := by
  induction l with
  | nil => cases hx
  | cons a l ih =>
      rcases List.mem_cons.1 hx with h | h
      · simp [listMax, h]
      · have := ih h
        simp only [listMax, List.foldr] at *
        omega

theorem listMax_le {l : List Nat} {b : Nat} (h : ∀ x ∈ l, x ≤ b) :
    listMax l ≤ b := by
  induction l with
  | nil => simp [listMax]
  | cons a l ih =>
      simp only [listMax, List.foldr] at *
      have h1 := h a (by simp)
      have h2 := ih (fun x hx => h x (by simp [hx]))
      omega

/-- `Formula::nesting_depth`. -/
def nesting_depth : Formula → Nat
  | .True | .False | .Var _ => 0
  | .Box _ f => nesting_depth f
  | .Diamond _ f => nesting_depth f
  | .And f1 f2 => max (nesting_depth f1) (nesting_depth f2)
  | .Or f1 f2 => max (nesting_depth f1) (nesting_depth f2)
  | .Mu _ f => 1 + nesting_depth f
  | .Nu _ f => 1 + nesting_depth f

/-- `Formula::alternation_depth`.  The `attach` is a termination artifact;
`alternation_depth_Mu`/`_Nu` below restate the equations in source form. -/
def alternation_depth : Formula → Nat
  | .True | .False | .Var _ => 0
  | .Box _ f => alternation_depth f
  | .Diamond _ f => alternation_depth f
  | .And f1 f2 => max (alternation_depth f1) (alternation_depth f2)
  | .Or f1 f2 => max (alternation_depth f1) (alternation_depth f2)
  | .Mu _ f =>
      max (max 1 (alternation_depth f))
        (1 + listMax (((subformulas f).filter (fun g => g.is_nu)).attach.map
          (fun g => alternation_depth g.1)))
  | .Nu _ f =>
      max (max 1 (alternation_depth f))
        (1 + listMax (((subformulas f).filter (fun g => g.is_mu)).attach.map
          (fun g => alternation_depth g.1)))
termination_by f => fsize f
decreasing_by
  all_goals simp only [fsize]
  all_goals first
    | omega
    | (rename_i hmem
       have h1 : g.1 ∈ subformulas f := List.mem_of_mem_filter g.2
       have h2 := fsize_le_of_mem_subformulas f g.1 h1
       omega)

/-- `Formula::dependent_ad`. -/
def dependent_ad : Formula → Nat
  | .True | .False | .Var _ => 0
  | .Box _ f => dependent_ad f
  | .Diamond _ f => dependent_ad f
  | .And f1 f2 => max (dependent_ad f1) (dependent_ad f2)
  | .Or f1 f2 => max (dependent_ad f1) (dependent_ad f2)
  | .Mu var f =>
      max (max 1 (dependent_ad f))
        (1 + listMax (((subformulas f).filter
            (fun g => g.is_nu && decide (var ∈ (variablesOf g).used))).attach.map
          (fun g => dependent_ad g.1)))
  | .Nu var f =>
      max (max 1 (dependent_ad f))
        (1 + listMax (((subformulas f).filter
            (fun g => g.is_mu && decide (var ∈ (variablesOf g).used))).attach.map
          (fun g => dependent_ad g.1)))
termination_by f => fsize f
decreasing_by
  all_goals simp only [fsize]
  all_goals first
    | omega
    | (rename_i hmem
       have h1 : g.1 ∈ subformulas f := List.mem_of_mem_filter g.2
       have h2 := fsize_le_of_mem_subformulas f g.1 h1
       omega)

theorem attach_map_eq {α β : Type _} (l : List α) (f : α → β) :
    l.attach.map (fun x => f x.1) = l.map f := by
  rw [← List.attach_map_coe l f]

theorem alternation_depth_Mu (var : Char) (f : Formula) :
    alternation_depth (.Mu var f) =
      max (max 1 (alternation_depth f))
        (1 + listMax (((subformulas f).filter (fun g => g.is_nu)).map
          alternation_depth)) := by
  rw [alternation_depth, attach_map_eq]

theorem alternation_depth_Nu (var : Char) (f : Formula) :
    alternation_depth (.Nu var f) =
      max (max 1 (alternation_depth f))
        (1 + listMax (((subformulas f).filter (fun g => g.is_mu)).map
          alternation_depth)) := by
  rw [alternation_depth, attach_map_eq]

theorem dependent_ad_Mu (var : Char) (f : Formula) :
    dependent_ad (.Mu var f) =
      max (max 1 (dependent_ad f))
        (1 + listMax (((subformulas f).filter
            (fun g => g.is_nu && decide (var ∈ (variablesOf g).used))).map
          dependent_ad)) := by
  rw [dependent_ad, attach_map_eq]

theorem dependent_ad_Nu (var : Char) (f : Formula) :
    dependent_ad (.Nu var f) =
      max (max 1 (dependent_ad f))
        (1 + listMax (((subformulas f).filter
            (fun g => g.is_mu && decide (var ∈ (variablesOf g).used))).map
          dependent_ad)) := by
  rw [dependent_ad, attach_map_eq]

/-! ### `ND ≥ AD ≥ dAD` (claim C9) -/

theorem nesting_depth_mono_sub :
    ∀ f g : Formula, g ∈ subformulas f → nesting_depth g ≤ nesting_depth f := by
  intro f
  induction f with
  | False => intro g hg; simp [subformulas] at hg; simp [hg]
  | True => intro g hg; simp [subformulas] at hg; simp [hg]
  | Var name => intro g hg; simp [subformulas] at hg; simp [hg]
  | And f1 f2 ih1 ih2 =>
      intro g hg
      simp only [subformulas, List.mem_cons, List.mem_append] at hg
      rcases hg with h | h | h
      · simp [h]
      · have := ih2 g h; simp [nesting_depth]; omega
      · have := ih1 g h; simp [nesting_depth]; omega
  | Or f1 f2 ih1 ih2 =>
      intro g hg
      simp only [subformulas, List.mem_cons, List.mem_append] at hg
      rcases hg with h | h | h
      · simp [h]
      · have := ih2 g h; simp [nesting_depth]; omega
      · have := ih1 g h; simp [nesting_depth]; omega
  | Diamond step f ih =>
      intro g hg
      simp only [subformulas, List.mem_cons] at hg
      rcases hg with h | h
      · simp [h]
      · have := ih g h; simpa [nesting_depth] using this
  | Box step f ih =>
      intro g hg
      simp only [subformulas, List.mem_cons] at hg
      rcases hg with h | h
      · simp [h]
      · have := ih g h; simpa [nesting_depth] using this
  | Mu var f ih =>
      intro g hg
      simp only [subformulas, List.mem_cons] at hg
      rcases hg with h | h
      · simp [h]
      · have := ih g h; simp [nesting_depth]; omega
  | Nu var f ih =>
      intro g hg
      simp only [subformulas, List.mem_cons] at hg
      rcases hg with h | h
      · simp [h]
      · have := ih g h; simp [nesting_depth]; omega

theorem ad_le_nd_sub :
    ∀ f : Formula, ∀ g ∈ subformulas f,
      alternation_depth g ≤ nesting_depth g := by
  intro f
  induction f with
  | False =>
      intro g hg; simp [subformulas] at hg; simp [hg, alternation_depth, nesting_depth]
  | True =>
      intro g hg; simp [subformulas] at hg; simp [hg, alternation_depth, nesting_depth]
  | Var name =>
      intro g hg; simp [subformulas] at hg; simp [hg, alternation_depth, nesting_depth]
  | And f1 f2 ih1 ih2 =>
      intro g hg
      simp only [subformulas, List.mem_cons, List.mem_append] at hg
      rcases hg with h | h | h
      · subst h
        have h1 := ih1 f1 (self_mem_subformulas f1)
        have h2 := ih2 f2 (self_mem_subformulas f2)
        simp [alternation_depth, nesting_depth]; omega
      · exact ih2 g h
      · exact ih1 g h
  | Or f1 f2 ih1 ih2 =>
      intro g hg
      simp only [subformulas, List.mem_cons, List.mem_append] at hg
      rcases hg with h | h | h
      · subst h
        have h1 := ih1 f1 (self_mem_subformulas f1)
        have h2 := ih2 f2 (self_mem_subformulas f2)
        simp [alternation_depth, nesting_depth]; omega
      · exact ih2 g h
      · exact ih1 g h
  | Diamond step f ih =>
      intro g hg
      simp only [subformulas, List.mem_cons] at hg
      rcases hg with h | h
      · subst h
        have := ih f (self_mem_subformulas f)
        simpa [alternation_depth, nesting_depth] using this
      · exact ih g h
  | Box step f ih =>
      intro g hg
      simp only [subformulas, List.mem_cons] at hg
      rcases hg with h | h
      · subst h
        have := ih f (self_mem_subformulas f)
        simpa [alternation_depth, nesting_depth] using this
      · exact ih g h
  | Mu var f ih =>
      intro g hg
      simp only [subformulas, List.mem_cons] at hg
      rcases hg with h | h
      · subst h
        rw [alternation_depth_Mu]
        have hf := ih f (self_mem_subformulas f)
        have hnd := nesting_depth_mono_sub f
        have hmax : listMax (((subformulas f).filter (fun g => g.is_nu)).map
            alternation_depth) ≤ nesting_depth f := by
          apply listMax_le
          intro x hx
          rcases List.mem_map.1 hx with ⟨h', hh', rfl⟩
          have hsub : h' ∈ subformulas f := List.mem_of_mem_filter hh'
          exact le_trans (ih h' hsub) (hnd h' hsub)
        simp only [nesting_depth]
        omega
      · exact ih g h
  | Nu var f ih =>
      intro g hg
      simp only [subformulas, List.mem_cons] at hg
      rcases hg with h | h
      · subst h
        rw [alternation_depth_Nu]
        have hf := ih f (self_mem_subformulas f)
        have hnd := nesting_depth_mono_sub f
        have hmax : listMax (((subformulas f).filter (fun g => g.is_mu)).map
            alternation_depth) ≤ nesting_depth f := by
          apply listMax_le
          intro x hx
          rcases List.mem_map.1 hx with ⟨h', hh', rfl⟩
          have hsub : h' ∈ subformulas f := List.mem_of_mem_filter hh'
          exact le_trans (ih h' hsub) (hnd h' hsub)
        simp only [nesting_depth]
        omega
      · exact ih g h

theorem dad_le_ad_sub :
    ∀ f : Formula, ∀ g ∈ subformulas f,
      dependent_ad g ≤ alternation_depth g := by
  intro f
  induction f with
  | False =>
      intro g hg; simp [subformulas] at hg; simp [hg, alternation_depth, dependent_ad]
  | True =>
      intro g hg; simp [subformulas] at hg; simp [hg, alternation_depth, dependent_ad]
  | Var name =>
      intro g hg; simp [subformulas] at hg; simp [hg, alternation_depth, dependent_ad]
  | And f1 f2 ih1 ih2 =>
      intro g hg
      simp only [subformulas, List.mem_cons, List.mem_append] at hg
      rcases hg with h | h | h
      · subst h
        have h1 := ih1 f1 (self_mem_subformulas f1)
        have h2 := ih2 f2 (self_mem_subformulas f2)
        simp [alternation_depth, dependent_ad]; omega
      · exact ih2 g h
      · exact ih1 g h
  | Or f1 f2 ih1 ih2 =>
      intro g hg
      simp only [subformulas, List.mem_cons, List.mem_append] at hg
      rcases hg with h | h | h
      · subst h
        have h1 := ih1 f1 (self_mem_subformulas f1)
        have h2 := ih2 f2 (self_mem_subformulas f2)
        simp [alternation_depth, dependent_ad]; omega
      · exact ih2 g h
      · exact ih1 g h
  | Diamond step f ih =>
      intro g hg
      simp only [subformulas, List.mem_cons] at hg
      rcases hg with h | h
      · subst h
        have := ih f (self_mem_subformulas f)
        simpa [alternation_depth, dependent_ad] using this
      · exact ih g h
  | Box step f ih =>
      intro g hg
      simp only [subformulas, List.mem_cons] at hg
      rcases hg with h | h
      · subst h
        have := ih f (self_mem_subformulas f)
        simpa [alternation_depth, dependent_ad] using this
      · exact ih g h
  | Mu var f ih =>
      intro g hg
      simp only [subformulas, List.mem_cons] at hg
      rcases hg with h | h
      · subst h
        rw [alternation_depth_Mu, dependent_ad_Mu]
        have hf := ih f (self_mem_subformulas f)
        have hmax : listMax (((subformulas f).filter
              (fun g => g.is_nu && decide (var ∈ (variablesOf g).used))).map
            dependent_ad) ≤
            listMax (((subformulas f).filter (fun g => g.is_nu)).map
              alternation_depth) := by
          apply listMax_le
          intro x hx
          rcases List.mem_map.1 hx with ⟨h', hh', rfl⟩
          have hsub : h' ∈ subformulas f := List.mem_of_mem_filter hh'
          have hnu : h'.is_nu = true := by
            have := List.of_mem_filter hh'
            simp only [Bool.and_eq_true] at this
            exact this.1
          have hmem2 : alternation_depth h' ∈
              ((subformulas f).filter (fun g => g.is_nu)).map alternation_depth := by
            exact List.mem_map_of_mem _ (List.mem_filter.2 ⟨hsub, hnu⟩)
          exact le_trans (ih h' hsub) (le_listMax hmem2)
        omega
      · exact ih g h
  | Nu var f ih =>
      intro g hg
      simp only [subformulas, List.mem_cons] at hg
      rcases hg with h | h
      · subst h
        rw [alternation_depth_Nu, dependent_ad_Nu]
        have hf := ih f (self_mem_subformulas f)
        have hmax : listMax (((subformulas f).filter
              (fun g => g.is_mu && decide (var ∈ (variablesOf g).used))).map
            dependent_ad) ≤
            listMax (((subformulas f).filter (fun g => g.is_mu)).map
              alternation_depth) := by
          apply listMax_le
          intro x hx
          rcases List.mem_map.1 hx with ⟨h', hh', rfl⟩
          have hsub : h' ∈ subformulas f := List.mem_of_mem_filter hh'
          have hmu : h'.is_mu = true := by
            have := List.of_mem_filter hh'
            simp only [Bool.and_eq_true] at this
            exact this.1
          have hmem2 : alternation_depth h' ∈
              ((subformulas f).filter (fun g => g.is_mu)).map alternation_depth := by
            exact List.mem_map_of_mem _ (List.mem_filter.2 ⟨hsub, hmu⟩)
          exact le_trans (ih h' hsub) (le_listMax hmem2)
        omega
      · exact ih g h

/-- **C9.** For every formula, `nesting_depth ≥ alternation_depth ≥
dependent_ad`, and for the constants `True` and `False` and every `Var` node
all three metrics are `0`. -/
theorem C9_metric_inequalities :
    (∀ f : Formula,
      dependent_ad f ≤ alternation_depth f ∧
      alternation_depth f ≤ nesting_depth f) ∧
    (nesting_depth .True = 0 ∧ alternation_depth .True = 0 ∧
      dependent_ad .True = 0) ∧
    (nesting_depth .False = 0 ∧ alternation_depth .False = 0 ∧
      dependent_ad .False = 0) ∧
    (∀ name : Char, nesting_depth (.Var name) = 0 ∧
      alternation_depth (.Var name) = 0 ∧ dependent_ad (.Var name) = 0) := by
  refine ⟨fun f => ⟨?_, ?_⟩, ?_, ?_, ?_⟩
  · exact dad_le_ad_sub f f (self_mem_subformulas f)
  · exact ad_le_nd_sub f f (self_mem_subformulas f)
  · exact ⟨rfl, by rw [alternation_depth], by rw [dependent_ad]⟩
  · exact ⟨rfl, by rw [alternation_depth], by rw [dependent_ad]⟩
  · intro name; exact ⟨rfl, by rw [alternation_depth], by rw [dependent_ad]⟩

/-! ## LTS store (`src/lts.rs`)

Rust `State` is `u32`; state identifiers are only parsed, stored and
compared, never computed with, so they are modelled as `Nat`.  The
`HashMap<(State, Label), Vec<State>>` is modelled as an association list
(the map is only ever accessed through `get`, for which bucket order is
irrelevant). -/

abbrev State := Nat

abbrev Label := String

structure Lts where
  init : State
  states : Finset State
  trans : List ((State × Label) × List State)
  deriving DecidableEq

/-- `HashMap::get(&(s, a))` on the transition map. -/
def Lts.transGet (lts : Lts) (k : State × Label) : Option (List State) :=
  (lts.trans.find? (fun p => p.1 == k)).map (fun p => p.2)

/-- `HashMap::entry(k).or_insert_with(Vec::new).push(v)`. -/
def transPush (l : List ((State × Label) × List State)) (k : State × Label)
    (v : State) : List ((State × Label) × List State) :=
  match l with
  | [] => [(k, [v])]
  | e :: rest =>
      if e.1 == k then (e.1, e.2 ++ [v]) :: rest else e :: transPush rest k v

/-- `Lts::add_edge`: inserts both endpoints into the state set and appends
the target to the `(start, label)` bucket. -/
def Lts.add_edge (lts : Lts) (start : State) (label : Label) (stop : State) :
    Lts :=
  { init := lts.init
    states := insert stop (insert start lts.states)
    trans := transPush lts.trans (start, label) stop }

/-- `Lts::step_transitions`: for each state (in `BTreeSet` order), the pair
`(s, Tₛ)` where `Tₛ` is the target list of `(s, a)`, or `[]` when the key is
absent from the map. -/
def Lts.step_transitions (lts : Lts) (step : Label) :
    List (State × List State) :=
  (lts.states.sort (· ≤ ·)).map (fun s =>
    match lts.transGet (s, step) with
    | some ts => (s, ts)
    | none => (s, []))

/-! ## Environments and process state -/

/-- `HashMap<VarName, BTreeSet<State>>`: the environment, modelled as a
partial map.  A `none` lookup corresponds to Rust's panicking `env[&name]`
index on a missing key. -/
abbrev Env := Char → Option (Finset State)

def emptyEnv : Env := fun _ => none

/-- `HashMap::insert` (the previous binding, when the caller reads it, is
taken from the map before the update). -/
def updE (env : Env) (x : Char) (v : Finset State) : Env :=
  fun y => if y = x then some v else env y

/-- Process-global and ghost state threaded through evaluation:
`cnt` is the value of the `ITERATIONS` atomic counter (`main.rs:21`);
`loops` is a ghost instrumentation counting executed fixed-point loop
iterations (it is not part of the source; it changes no result). -/
structure PState where
  cnt : Nat
  loops : Nat
  deriving DecidableEq, Repr

/-- The set computed for `Diamond { step, f }` from the satisfying set of
`f`: states with some `step`-successor in `sat`.  `naive.rs` builds it by
mapping `transitions().get` over `states()` with `unwrap_or(vec![])` and
filtering with `any`; `improved.rs` filters `step_transitions(step)` with
`any`; both collect exactly this set into a `BTreeSet`. -/
def diamondSet (lts : Lts) (step : Label) (sat : Finset State) :
    Finset State :=
  lts.states.filter (fun s => ∃ t ∈ (lts.transGet (s, step)).getD [], t ∈ sat)

/-- The set computed for `Box { step, f }`: states all of whose
`step`-successors are in `sat` (states without the key get `[]`, hence
pass).  Mirrors the `all` filters of `naive.rs`/`improved.rs`. -/
def boxSet (lts : Lts) (step : Label) (sat : Finset State) : Finset State :=
  lts.states.filter (fun s => ∀ t ∈ (lts.transGet (s, step)).getD [], t ∈ sat)

/-- The fixed-point loop shared by the four `Mu`/`Nu` branches
(`naive.rs:64-82`, `improved.rs:60-81`):
`loop { tick; new ← body; prev ← env.insert(var, new).unwrap(); if prev ==
env[var] { break prev } }`.  `tick` performs what the loop head does to the
process state (`improved.rs` increments `ITERATIONS`; `naive.rs` does not).
The Rust loop is unbounded; the embedding bounds it by a budget, returning
`none` when the budget is exhausted, so "the loop terminates with value
`v`" corresponds to "for some (equivalently, all sufficiently large)
budget the embedding returns `some v`". -/
def fixIter (tick : PState → PState)
    (body : Env → PState → Option (Finset State × Env × PState))
    (var : Char) : Nat → Env → PState → Option (Finset State × Env × PState)
  | 0, _, _ => none
  | budget + 1, env, st =>
      match body env (tick st) with
      | none => none
      | some (new, env1, st1) =>
          match env1 var with
          | none => none
          | some prevv =>
              let env2 := updE env1 var new
              if prevv = new then some (prevv, env2, st1)
              else fixIter tick body var budget env2 st1

/-! ## Naive evaluator (`src/naive.rs`)

The recursion is fuelled: every recursive descent and every loop iteration
consumes fuel, and `none` is returned when fuel runs out, when an unbound
variable is read (Rust panic), or when a loop fails to stabilize within the
budget.  For every terminating Rust run there is a fuel above which the
embedding returns `some` of the same result. -/

/-- What the naive loop head does to the process state: `naive.rs` contains
no `ITERATIONS.fetch_add`, so the counter is untouched; only the ghost
iteration count advances. -/
def Naive.tick (st : PState) : PState := { st with loops := st.loops + 1 }

def Naive.eval_inner (lts : Lts) :
    Nat → Formula → Env → PState → Option (Finset State × Env × PState)
  | 0, _, _, _ => none
  | fuel + 1, f, env, st =>
      match f with
      | .Var name =>
          match env name with
          | some v => some (v, env, st)
          | none => none
      | .True => some (lts.states, env, st)
      | .False => some (∅, env, st)
      | .And f1 f2 =>
          match Naive.eval_inner lts fuel f1 env st with
          | none => none
          | some (v1, env1, st1) =>
              match Naive.eval_inner lts fuel f2 env1 st1 with
              | none => none
              | some (v2, env2, st2) => some (v1 ∩ v2, env2, st2)
      | .Or f1 f2 =>
          match Naive.eval_inner lts fuel f1 env st with
          | none => none
          | some (v1, env1, st1) =>
              match Naive.eval_inner lts fuel f2 env1 st1 with
              | none => none
              | some (v2, env2, st2) => some (v1 ∪ v2, env2, st2)
      | .Diamond step g =>
          match Naive.eval_inner lts fuel g env st with
          | none => none
          | some (sat, env1, st1) => some (diamondSet lts step sat, env1, st1)
      | .Box step g =>
          match Naive.eval_inner lts fuel g env st with
          | none => none
          | some (sat, env1, st1) => some (boxSet lts step sat, env1, st1)
      | .Mu var g =>
          fixIter Naive.tick (fun e s => Naive.eval_inner lts fuel g e s) var
            fuel (updE env var ∅) st
      | .Nu var g =>
          fixIter Naive.tick (fun e s => Naive.eval_inner lts fuel g e s) var
            fuel (updE env var lts.states) st

/-- `naive::eval`: fresh empty environment. -/
def Naive.eval (lts : Lts) (f : Formula) (st : PState) (fuel : Nat) :
    Option (Finset State × Env × PState) :=
  Naive.eval_inner lts fuel f emptyEnv st

/-! ## Improved (Emerson–Lei) evaluator (`src/improved.rs`) -/

/-- The improved loop head: `ITERATIONS.fetch_add(1, Ordering::SeqCst)`
(`improved.rs:62,76`), plus the ghost iteration count. -/
def Improved.tick (st : PState) : PState :=
  { cnt := st.cnt + 1, loops := st.loops + 1 }

/-- `improved::reset_fixpoints`: on a μ-binder, re-initialize every *open*
μ-binder in the subtree (the node itself included) to `∅`; dually for ν
with the full state set; on a non-fixpoint node the Rust code panics,
modelled as `none`. -/
def Improved.reset_fixpoints (lts : Lts) (f : Formula) (env : Env) :
    Option Env :=
  match f with
  | .Mu _ _ => some ((subformulas f).foldl (fun e g =>
      match g with
      | .Mu var _ => if g.is_open then updE e var ∅ else e
      | _ => e) env)
  | .Nu _ _ => some ((subformulas f).foldl (fun e g =>
      match g with
      | .Nu var _ => if g.is_open then updE e var lts.states else e
      | _ => e) env)
  | _ => none

/-- The pre-seeding walk of `improved::eval`: μ-bound variables to `∅`,
ν-bound variables to the full state set. -/
def Improved.preSeed (lts : Lts) (f : Formula) : Env :=
  (subformulas f).foldl (fun env g =>
    match g with
    | .Mu var _ => updE env var ∅
    | .Nu var _ => updE env var lts.states
    | _ => env) emptyEnv

def Improved.eval_inner (lts : Lts) :
    Nat → Formula → Option Formula → Env → PState →
      Option (Finset State × Env × PState)
  | 0, _, _, _, _ => none
  | fuel + 1, f, prev, env, st =>
      match f with
      | .Var name =>
          match env name with
          | some v => some (v, env, st)
          | none => none
      | .True => some (lts.states, env, st)
      | .False => some (∅, env, st)
      | .And f1 f2 =>
          match Improved.eval_inner lts fuel f1 prev env st with
          | none => none
          | some (v1, env1, st1) =>
              match Improved.eval_inner lts fuel f2 prev env1 st1 with
              | none => none
              | some (v2, env2, st2) => some (v1 ∩ v2, env2, st2)
      | .Or f1 f2 =>
          match Improved.eval_inner lts fuel f1 prev env st with
          | none => none
          | some (v1, env1, st1) =>
              match Improved.eval_inner lts fuel f2 prev env1 st1 with
              | none => none
              | some (v2, env2, st2) => some (v1 ∪ v2, env2, st2)
      | .Diamond step g =>
          match Improved.eval_inner lts fuel g prev env st with
          | none => none
          | some (sat, env1, st1) => some (diamondSet lts step sat, env1, st1)
      | .Box step g =>
          match Improved.eval_inner lts fuel g prev env st with
          | none => none
          | some (sat, env1, st1) => some (boxSet lts step sat, env1, st1)
      | .Mu var g =>
          match (match prev with
            | some (.Nu _ _) => Improved.reset_fixpoints lts (.Mu var g) env
            | _ => some env) with
          | none => none
          | some env1 =>
              fixIter Improved.tick
                (fun e s =>
                  Improved.eval_inner lts fuel g (some (.Mu var g)) e s)
                var fuel env1 st
      | .Nu var g =>
          match (match prev with
            | some (.Mu _ _) => Improved.reset_fixpoints lts (.Nu var g) env
            | _ => some env) with
          | none => none
          | some env1 =>
              fixIter Improved.tick
                (fun e s =>
                  Improved.eval_inner lts fuel g (some (.Nu var g)) e s)
                var fuel env1 st

/-- `improved::eval`: pre-seed every binder variable, then descend with no
enclosing fixed point. -/
def Improved.eval (lts : Lts) (f : Formula) (st : PState) (fuel : Nat) :
    Option (Finset State × Env × PState) :=
  Improved.eval_inner lts fuel f none (Improved.preSeed lts f) st

/-! ## The concrete LTS `L₀` and the scenario formulas (§8, `src/tests.rs`) -/

def L0edges : List (State × Label × State) :=
  [(0, "tau", 1), (0, "tau", 2), (1, "tau", 3), (1, "tau", 4),
   (2, "tau", 5), (2, "tau", 4), (3, "b", 0), (3, "a", 6),
   (4, "tau", 7), (4, "tau", 6), (5, "a", 0), (5, "a", 7),
   (6, "tau", 2), (7, "b", 1)]

/-- The 8-state LTS of `src/tests.rs` / spec §8, built with `Lts::default()`
followed by the `add_edge` calls the parser performs (initial state from the
header `des (0,14,8)`). -/
def L0 : Lts :=
  L0edges.foldl (fun lts e => lts.add_edge e.1 e.2.1 e.2.2)
    { init := 0, states := ∅, trans := [] }

def phi1 : Formula := .Box "tau" .True
def phi2 : Formula := .Diamond "tau" .False
def phi3 : Formula := .Nu 'X' (.Var 'X')
def phi4 : Formula := .Mu 'Y' (.Var 'Y')
def phi5 : Formula := .Nu 'X' (.Mu 'Y' (.Or (.Var 'X') (.Var 'Y')))
def phi6 : Formula := .Nu 'X' (.And (.Var 'X') (.Mu 'Y' (.Var 'Y')))
def phi7 : Formula :=
  .Nu 'X' (.And (.Diamond "tau" (.Var 'X'))
    (.Mu 'Y' (.Or (.Diamond "tau" (.Var 'Y')) (.Box "a" .False))))
def phi8 : Formula :=
  .Mu 'X' (.And (.Box "tau" (.Var 'X'))
    (.Or (.Diamond "tau" .True) (.Diamond "a" .True)))

/-- **C2.** For the 8-state LTS `L₀` of §8 and each of the eight scenario
formulas, the satisfying set computed by evaluation contains state `0`
exactly when the table's expected column is true. -/
theorem C2_scenario_table :
    ((Naive.eval L0 phi1 ⟨0, 0⟩ 20).map (fun r => decide ((0 : State) ∈ r.1))
        = some true) ∧
    ((Naive.eval L0 phi2 ⟨0, 0⟩ 20).map (fun r => decide ((0 : State) ∈ r.1))
        = some false) ∧
    ((Naive.eval L0 phi3 ⟨0, 0⟩ 20).map (fun r => decide ((0 : State) ∈ r.1))
        = some true) ∧
    ((Naive.eval L0 phi4 ⟨0, 0⟩ 20).map (fun r => decide ((0 : State) ∈ r.1))
        = some false) ∧
    ((Naive.eval L0 phi5 ⟨0, 0⟩ 20).map (fun r => decide ((0 : State) ∈ r.1))
        = some true) ∧
    ((Naive.eval L0 phi6 ⟨0, 0⟩ 20).map (fun r => decide ((0 : State) ∈ r.1))
        = some false) ∧
    ((Naive.eval L0 phi7 ⟨0, 0⟩ 20).map (fun r => decide ((0 : State) ∈ r.1))
        = some true) ∧
    ((Naive.eval L0 phi8 ⟨0, 0⟩ 20).map (fun r => decide ((0 : State) ∈ r.1))
        = some false) := by
  refine ⟨?_, ?_, ?_, ?_, ?_, ?_, ?_, ?_⟩ <;> decide

/-! ## The `ITERATIONS` counter (claims C4 and C5)

`naive.rs` contains no `ITERATIONS.fetch_add` at all: the naive evaluator
leaves the process-global counter untouched no matter how many loop
iterations it executes, while `improved.rs` increments it once per loop
iteration. -/

theorem fixIter_cnt_unchanged (tick : PState → PState)
    (body : Env → PState → Option (Finset State × Env × PState)) (var : Char)
    (htick : ∀ st, (tick st).cnt = st.cnt)
    (hbody : ∀ env st r, body env st = some r → r.2.2.cnt = st.cnt) :
    ∀ budget env st r, fixIter tick body var budget env st = some r →
      r.2.2.cnt = st.cnt := by
  intro budget
  induction budget with
  | zero => intro env st r h; simp [fixIter] at h
  | succ n ih =>
      intro env st r h
      simp only [fixIter] at h
      cases hb : body env (tick st) with
      | none => rw [hb] at h; simp at h
      | some w =>
          rw [hb] at h
          obtain ⟨new, env1, st1⟩ := w
          have h1 : st1.cnt = st.cnt := by
            have := hbody env (tick st) (new, env1, st1) hb
            simp at this
            rw [this, htick]
          simp only at h
          cases hv : env1 var with
          | none => rw [hv] at h; simp at h
          | some prevv =>
              rw [hv] at h
              simp only at h
              by_cases heq : prevv = new
              · simp [heq] at h
                subst h
                exact h1
              · simp [heq] at h
                have h2 : r.2.2.cnt = st1.cnt := ih _ _ _ h
                rw [h2, h1]

/-- The naive evaluator never changes the `ITERATIONS` counter: `naive.rs`
has no `fetch_add`. -/
theorem naive_cnt_unchanged (lts : Lts) :
    ∀ fuel f env st r, Naive.eval_inner lts fuel f env st = some r →
      r.2.2.cnt = st.cnt := by
  intro fuel
  induction fuel with
  | zero => intro f env st r h; simp [Naive.eval_inner] at h
  | succ n ih =>
      intro f env st r h
      cases f with
      | Var name =>
          simp only [Naive.eval_inner] at h
          cases hv : env name with
          | none => rw [hv] at h; simp at h
          | some v => rw [hv] at h; simp at h; subst h; rfl
      | True => simp only [Naive.eval_inner] at h; simp at h; subst h; rfl
      | False => simp only [Naive.eval_inner] at h; simp at h; subst h; rfl
      | And f1 f2 =>
          simp only [Naive.eval_inner] at h
          cases h1 : Naive.eval_inner lts n f1 env st with
          | none => rw [h1] at h; simp at h
          | some w1 =>
              rw [h1] at h
              obtain ⟨v1, env1, st1⟩ := w1
              dsimp only at h
              cases h2 : Naive.eval_inner lts n f2 env1 st1 with
              | none => rw [h2] at h; simp at h
              | some w2 =>
                  rw [h2] at h
                  obtain ⟨v2, env2, st2⟩ := w2
                  simp at h
                  subst h
                  have e2 : st2.cnt = st1.cnt := ih f2 env1 st1 _ h2
                  have e1 : st1.cnt = st.cnt := ih f1 env st _ h1
                  exact e2.trans e1
      | Or f1 f2 =>
          simp only [Naive.eval_inner] at h
          cases h1 : Naive.eval_inner lts n f1 env st with
          | none => rw [h1] at h; simp at h
          | some w1 =>
              rw [h1] at h
              obtain ⟨v1, env1, st1⟩ := w1
              dsimp only at h
              cases h2 : Naive.eval_inner lts n f2 env1 st1 with
              | none => rw [h2] at h; simp at h
              | some w2 =>
                  rw [h2] at h
                  obtain ⟨v2, env2, st2⟩ := w2
                  simp at h
                  subst h
                  have e2 : st2.cnt = st1.cnt := ih f2 env1 st1 _ h2
                  have e1 : st1.cnt = st.cnt := ih f1 env st _ h1
                  exact e2.trans e1
      | Diamond step g =>
          simp only [Naive.eval_inner] at h
          cases h1 : Naive.eval_inner lts n g env st with
          | none => rw [h1] at h; simp at h
          | some w1 =>
              rw [h1] at h
              obtain ⟨v1, env1, st1⟩ := w1
              dsimp only at h
              simp at h
              subst h
              exact ih g env st (v1, env1, st1) h1
      | Box step g =>
          simp only [Naive.eval_inner] at h
          cases h1 : Naive.eval_inner lts n g env st with
          | none => rw [h1] at h; simp at h
          | some w1 =>
              rw [h1] at h
              obtain ⟨v1, env1, st1⟩ := w1
              dsimp only at h
              simp at h
              subst h
              exact ih g env st (v1, env1, st1) h1
      | Mu var g =>
          simp only [Naive.eval_inner] at h
          exact fixIter_cnt_unchanged Naive.tick _ var (fun st => rfl)
            (fun e s r hr => ih g e s r hr) n _ st r h
      | Nu var g =>
          simp only [Naive.eval_inner] at h
          exact fixIter_cnt_unchanged Naive.tick _ var (fun st => rfl)
            (fun e s r hr => ih g e s r hr) n _ st r h

/-- **C4 (refuting evaluation).** On `L₀` and the well-formed closed formula
`mu X. X`, the naive evaluator executes one fixed-point loop iteration
(ghost count `loops = 1`) yet the `ITERATIONS` counter stays at `0`: the
naive loop never increments the global counter. -/
theorem C4_naive_loop_does_not_count :
    (Naive.eval L0 (.Mu 'X' (.Var 'X')) ⟨0, 0⟩ 10).map
        (fun r => (r.1, r.2.2)) = some (∅, ⟨0, 1⟩) := by decide

/-- **C5 (refuting evaluation).** On `L₀` and `mu X. X`, the improved
evaluator reports `ITERATIONS = 1` while the naive evaluator reports
`ITERATIONS = 0`: the improved count exceeds the naive count, because the
naive loop never increments the counter. -/
theorem C5_improved_count_exceeds_naive :
    ((Improved.eval L0 (.Mu 'X' (.Var 'X')) ⟨0, 0⟩ 10).map
        (fun r => r.2.2.cnt) = some 1) ∧
    ((Naive.eval L0 (.Mu 'X' (.Var 'X')) ⟨0, 0⟩ 10).map
        (fun r => r.2.2.cnt) = some 0) := by
  exact ⟨by decide, by decide⟩

/-! ## The active formula parser (`Formula::from_str`, `src/mu_calculus.rs`)

`mu_calculus.rs` wires a nom-based recursive-descent parser into
`FromStr for Formula`; the combine parser in `mu_calculus/parser.rs` is not
referenced by any `mod` declaration and is dead code.  `from_str` calls
`.unwrap()` on the nom result, so a parse failure panics.

The embedding is fuelled (`none` = fuel exhausted; for every input some
fuel suffices) and distinguishes nom's `Err` as `some none` — the case in
which the source's `.unwrap()` aborts the process.

Character classes: nom's `space0`/`space1` match only `' '` and `'\t'`;
`alphanumeric1` uses Rust `char::is_alphanumeric` and the uppercase check is
`char::is_ascii_uppercase` — modelled with `Char.isAlphanum`/`Char.isUpper`,
which agree on all ASCII inputs (the only ones the claims exercise). -/

/-- nom `space0`: drop leading spaces and tabs. -/
def dropSpaceTab : List Char → List Char
  | c :: rest => if c = ' ' ∨ c = '\t' then dropSpaceTab rest else c :: rest
  | [] => []

/-- nom `tag`: match a literal prefix, returning the remaining input. -/
def nomTag : List Char → List Char → Option (List Char)
  | [], s => some s
  | p :: ps, c :: cs => if c = p then nomTag ps cs else none
  | _ :: _, [] => none

/-- nom `space1` followed by further `space0`-style skipping, as used by
`skip_many1(space())`-style combinators: here it models `space1` (at least
one space or tab, consuming the whole run). -/
def spaceTab1 : List Char → Option (List Char)
  | c :: rest => if c = ' ' ∨ c = '\t' then some (dropSpaceTab rest) else none
  | [] => none

/-- `alt` over parsers returning fuel-aware results: `none` (fuel exhausted)
aborts, `some none` (nom `Err`) tries the next alternative. -/
def orP {α : Type} (a : Option (Option α)) (b : Unit → Option (Option α)) :
    Option (Option α) :=
  match a with
  | none => none
  | some none => b ()
  | some (some r) => some (some r)

/-- `binary_operator(op)` + wrapping constructor (`parse_and`/`parse_or`):
`tag("(")`, `separated_pair(parse_formula, tag(op), parse_formula)`,
`tag(")")`.  `pF` is the recursive `parse_formula` call. -/
def pBinary (pF : List Char → Option (Option (List Char × Formula)))
    (op : List Char) (mk : Formula → Formula → Formula) (s : List Char) :
    Option (Option (List Char × Formula)) :=
  match nomTag ['('] s with
  | none => some none
  | some s2 =>
      match pF s2 with
      | none => none
      | some none => some none
      | some (some (s3, f1)) =>
          match nomTag op s3 with
          | none => some none
          | some s4 =>
              match pF s4 with
              | none => none
              | some none => some none
              | some (some (s5, f2)) =>
                  match nomTag [')'] s5 with
                  | none => some none
                  | some s6 => some (some (s6, mk f1 f2))

/-- `parse_diamond`/`parse_box`: `delimited(tag(open), alphanumeric1,
tag(close))` then `parse_formula`. -/
def pModal (pF : List Char → Option (Option (List Char × Formula)))
    (opn cls : Char) (mk : String → Formula → Formula) (s : List Char) :
    Option (Option (List Char × Formula)) :=
  match nomTag [opn] s with
  | none => some none
  | some s2 =>
      let (step, s3) := s2.span (fun c => c.isAlphanum)
      if step = [] then some none
      else
        match nomTag [cls] s3 with
        | none => some none
        | some s4 =>
            match pF s4 with
            | none => none
            | some none => some none
            | some (some (s5, f1)) => some (some (s5, mk ⟨step⟩ f1))

/-- `fixpoint(sigma)` + wrapping constructor (`parse_mu`/`parse_nu`):
`tag(sigma)`, `space1`, uppercase variable, `tag(".")`, `parse_formula`. -/
def pFix (pF : List Char → Option (Option (List Char × Formula)))
    (sigma : List Char) (mk : Char → Formula → Formula) (s : List Char) :
    Option (Option (List Char × Formula)) :=
  match nomTag sigma s with
  | none => some none
  | some s2 =>
      match spaceTab1 s2 with
      | none => some none
      | some s3 =>
          match s3 with
          | c :: s4 =>
              if c.isUpper then
                match nomTag ['.'] s4 with
                | none => some none
                | some s5 =>
                    match pF s5 with
                    | none => none
                    | some none => some none
                    | some (some (s6, f1)) => some (some (s6, mk c f1))
              else some none
          | [] => some none

/-- `parse_formula` from `src/mu_calculus.rs`: `delimited(space0, alt((
parse_true, parse_false, parse_var, parse_and, parse_or, parse_diamond,
parse_box, parse_mu, parse_nu)), space0)`. -/
def pFormula : Nat → List Char → Option (Option (List Char × Formula))
  | 0, _ => none
  | fuel + 1, s =>
      let s1 := dropSpaceTab s
      let res :=
        orP (match nomTag "true".toList s1 with
          | some rest => some (some (rest, Formula.True))
          | none => some none) (fun _ =>
        orP (match nomTag "false".toList s1 with
          | some rest => some (some (rest, Formula.False))
          | none => some none) (fun _ =>
        orP (match s1 with
          | c :: rest =>
              if c.isUpper then some (some (rest, Formula.Var c))
              else some none
          | [] => some none) (fun _ =>
        orP (pBinary (pFormula fuel) "&&".toList Formula.And s1) (fun _ =>
        orP (pBinary (pFormula fuel) "||".toList Formula.Or s1) (fun _ =>
        orP (pModal (pFormula fuel) '<' '>' Formula.Diamond s1) (fun _ =>
        orP (pModal (pFormula fuel) '[' ']' Formula.Box s1) (fun _ =>
        orP (pFix (pFormula fuel) "mu".toList Formula.Mu s1) (fun _ =>
        pFix (pFormula fuel) "nu".toList Formula.Nu s1))))))))
      match res with
      | some (some (rest, f)) => some (some (dropSpaceTab rest, f))
      | x => x

/-- Rust `str::trim` (whitespace from both ends; the ASCII whitespace
characters, the only ones occurring in the inputs considered). -/
def trimWs (s : List Char) : List Char :=
  ((s.dropWhile Char.isWhitespace).reverse.dropWhile Char.isWhitespace).reverse

/-- `Formula::from_str`: `all_consuming(parse_formula)(s.trim()).unwrap()`.
`some none` is the case where the nom parser fails (directly or through
left-over input rejected by `all_consuming`) and the source's `.unwrap()`
panics, aborting the process instead of returning an error value. -/
def Formula.from_str (fuel : Nat) (s : String) : Option (Option Formula) :=
  match pFormula fuel (trimWs s.toList) with
  | none => none
  | some none => some none
  | some (some (rest, f)) => if rest = [] then some (some f) else some none

/-- **C7 (refuting evaluation).** The active parser aborts (nom `Err`
reaches `.unwrap()`, modelled `some none`) on a mismatching input `"("`,
on a `%` line comment, and on an action containing `_` — the latter two
conform to the §6.2 grammar.  A well-formed input parses. -/
theorem C7_from_str_aborts_on_mismatch :
    (Formula.from_str 100 "(") = some none ∧
    (Formula.from_str 100 "% note\ntrue") = some none ∧
    (Formula.from_str 100 "<a_b>true") = some none ∧
    (Formula.from_str 100 "<tau>true") =
      some (some (.Diamond "tau" .True)) := by
  refine ⟨?_, ?_, ?_, ?_⟩ <;> decide

/-! ## The LTS parser (`Lts::from_str`, `src/lts.rs`)

The combine-based parser.  `some none` models `Err(LtsParseError)` (which
`from_str` returns properly — no panic here).  combine's `space()` accepts
any whitespace character; `newline()` is exactly `'\n'`;
`non_newline_spaces` is `skip_many(char(' ').or(char('\t')))`. -/

/-- `from_str(take_while1(is_digit))` into `u32`: at least one decimal
digit, value below `2^32` (a larger value makes `u32::from_str` fail, which
combine's `from_str` combinator turns into a parse error). -/
def pInt (s : List Char) : Option (Nat × List Char) :=
  let (ds, rest) := s.span (fun c => c.isDigit)
  if ds = [] then none
  else
    let n := ds.foldl (fun acc c => acc * 10 + (c.toNat - '0'.toNat)) 0
    if n < 2 ^ 32 then some (n, rest) else none

/-- `aut_header()`: `des`, one-or-more whitespace, `(init,n_trans,n_states)`. -/
def pHeader (s : List Char) : Option (Nat × Nat × Nat × List Char) :=
  match nomTag "des".toList s with
  | none => none
  | some s1 =>
      match s1 with
      | c :: rest =>
          if c.isWhitespace then
            let s2 := rest.dropWhile Char.isWhitespace
            match nomTag ['('] s2 with
            | none => none
            | some s3 =>
                match pInt s3 with
                | none => none
                | some (i, s4) =>
                    match nomTag [','] s4 with
                    | none => none
                    | some s5 =>
                        match pInt s5 with
                        | none => none
                        | some (t, s6) =>
                            match nomTag [','] s6 with
                            | none => none
                            | some s7 =>
                                match pInt s7 with
                                | none => none
                                | some (m, s8) =>
                                    match nomTag [')'] s8 with
                                    | none => none
                                    | some s9 => some (i, t, m, s9)
          else none
      | [] => none

/-- `aut_edge()`: `(src,"label",dst)` with a non-empty label free of `"`. -/
def pEdge (s : List Char) : Option ((Nat × String × Nat) × List Char) :=
  match nomTag ['('] s with
  | none => none
  | some s1 =>
      match pInt s1 with
      | none => none
      | some (a, s2) =>
          match nomTag [',', '"'] s2 with
          | none => none
          | some s3 =>
              let (lbl, s4) := s3.span (fun c => ¬ c = '"')
              if lbl = [] then none
              else
                match nomTag ['"', ','] s4 with
                | none => none
                | some s5 =>
                    match pInt s5 with
                    | none => none
                    | some (b, s6) =>
                        match nomTag [')'] s6 with
                        | none => none
                        | some s7 => some ((a, ⟨lbl⟩, b), s7)

/-- The edge loop of `Lts::from_str`: while `non_newline_spaces · newline ·
spaces` parses, either stop at end of input (`eof` ⇒ `Ok`) or parse one edge
(failure ⇒ `Err(LtsParseError)`, modelled `some none`) and continue; if the
newline search fails the loop breaks with `Ok` (trailing garbage after an
edge, or a header line with no following newline, is silently ignored). -/
def pEdges : Nat → Lts → List Char → Option (Option Lts)
  | 0, _, _ => none
  | fuel + 1, lts, s =>
      match dropSpaceTab s with
      | '\n' :: s2 =>
          let s3 := s2.dropWhile Char.isWhitespace
          if s3 = [] then some (some lts)
          else
            match pEdge s3 with
            | none => some none
            | some ((a, lbl, b), rest) =>
                pEdges fuel (lts.add_edge a lbl b) rest
      | _ => some (some lts)

/-- `Lts::from_str`: parse the header (`Err(LtsParseError)` on failure,
modelled `some none`), set the initial state, then run the edge loop on a
`Lts::default()` with that initial state.  `n_transitions` is only a
capacity hint (`reserve`) and `n_states` is unused, as in the source. -/
def Lts.from_str (fuel : Nat) (s : String) : Option (Option Lts) :=
  match pHeader s.toList with
  | none => some none
  | some (initial, _nTrans, _nStates, rest) =>
      pEdges fuel { init := initial, states := ∅, trans := [] } rest

/-! ### Invariants of parsed LTS values (claim C8) -/

/-- The data-model invariant on the transition map: every source and every
target state appearing in it is in the state set. -/
def TransWf (lts : Lts) : Prop :=
  ∀ p ∈ lts.trans, p.1.1 ∈ lts.states ∧ ∀ t ∈ p.2, t ∈ lts.states

theorem transPush_mem {l : List ((State × Label) × List State)}
    {k : State × Label} {v : State} {p : (State × Label) × List State}
    (hp : p ∈ transPush l k v) :
    p ∈ l ∨ (∃ q ∈ l, q.1 = k ∧ p = (q.1, q.2 ++ [v])) ∨ p = (k, [v]) := by
  induction l with
  | nil =>
      simp [transPush] at hp
      right; right; exact hp
  | cons e rest ih =>
      simp only [transPush] at hp
      by_cases he : e.1 == k
      · rw [if_pos he] at hp
        rcases List.mem_cons.1 hp with h | h
        · right; left
          exact ⟨e, by simp, by simpa using he, h⟩
        · left; simp [h]
      · rw [if_neg he] at hp
        rcases List.mem_cons.1 hp with h | h
        · left; simp [h]
        · rcases ih h with h1 | h1 | h1
          · left; simp [h1]
          · right; left
            obtain ⟨q, hq, hqk, hpq⟩ := h1
            exact ⟨q, by simp [hq], hqk, hpq⟩
          · right; right; exact h1

theorem add_edge_TransWf {lts : Lts} (hw : TransWf lts) (a : State)
    (lbl : Label) (b : State) : TransWf (lts.add_edge a lbl b) := by
  intro p hp
  have hsub : lts.states ⊆ (lts.add_edge a lbl b).states := by
    intro x hx
    simp [Lts.add_edge]
    tauto
  rcases transPush_mem hp with h | h | h
  · obtain ⟨h1, h2⟩ := hw p h
    exact ⟨hsub h1, fun t ht => hsub (h2 t ht)⟩
  · obtain ⟨q, hq, hqk, hpq⟩ := h
    obtain ⟨h1, h2⟩ := hw q hq
    subst hpq
    refine ⟨hsub h1, fun t ht => ?_⟩
    rcases List.mem_append.1 ht with ht1 | ht1
    · exact hsub (h2 t ht1)
    · simp at ht1
      subst ht1
      simp [Lts.add_edge]
  · subst h
    constructor
    · simp [Lts.add_edge]
    · intro t ht
      simp at ht
      subst ht
      simp [Lts.add_edge]

theorem pEdges_TransWf :
    ∀ fuel (lts : Lts) s r, TransWf lts →
      pEdges fuel lts s = some (some r) → TransWf r := by
  intro fuel
  induction fuel with
  | zero => intro lts s r hw h; simp [pEdges] at h
  | succ n ih =>
      intro lts s r hw h
      simp only [pEdges] at h
      split at h
      · next s2 =>
          split at h
          · simp at h; rwa [← h]
          · split at h
            · simp at h
            · next a lbl b rest he =>
                exact ih _ rest r (add_edge_TransWf hw a lbl b) h
      · simp at h; rwa [← h]

theorem step_transitions_spec (lts : Lts) (a : Label) :
    (∀ st ∈ lts.states,
        (st, (lts.transGet (st, a)).getD []) ∈ lts.step_transitions a) ∧
    (∀ p ∈ lts.step_transitions a,
        p.1 ∈ lts.states ∧ p.2 = (lts.transGet (p.1, a)).getD []) := by
  have key : ∀ st : State, (match lts.transGet (st, a) with
      | some ts => (st, ts)
      | none => (st, ([] : List State))) =
        (st, (lts.transGet (st, a)).getD []) := by
    intro st
    cases lts.transGet (st, a) <;> simp
  constructor
  · intro st hst
    unfold Lts.step_transitions
    rw [← key st]
    exact List.mem_map_of_mem _ ((Finset.mem_sort _).2 hst)
  · intro p hp
    unfold Lts.step_transitions at hp
    rcases List.mem_map.1 hp with ⟨st, hst, hfs⟩
    rw [key st] at hfs
    cases hfs
    exact ⟨(Finset.mem_sort _).1 hst, rfl⟩

/-- **C8 (counterexample).** The input `des (5,0,1)` parses successfully,
but the resulting LTS has initial state `5` and empty state set: the parser
never inserts the header's initial state into `S`, so `s₀ ∈ S` fails. -/
theorem C8_initial_state_not_in_states :
    (Lts.from_str 10 "des (5,0,1)").map
      (fun r => r.map (fun l => (l.init, decide (l.init ∈ l.states)))) =
      some (some (5, false)) := by decide

/-- **C8 (amended).** Every `Lts` produced by parsing satisfies: every state
appearing as a source or target of a transition is in `S`, and
`step_transitions(a)` yields a pair `(s, Ts)` for every `s ∈ S`, with `Ts`
empty whenever `(s, a)` is absent from the transition mapping.  (The claim's
remaining conjunct `s₀ ∈ S` is false — see the counterexample — because the
parser records the header's initial state without adding it to the state
set.) -/
theorem C8_parsed_lts_invariants :
    ∀ fuel (s : String) (lts : Lts), Lts.from_str fuel s = some (some lts) →
      (∀ p ∈ lts.trans, p.1.1 ∈ lts.states ∧ ∀ t ∈ p.2, t ∈ lts.states) ∧
      ∀ a : Label,
        (∀ st ∈ lts.states,
          (st, (lts.transGet (st, a)).getD []) ∈ lts.step_transitions a) ∧
        (∀ p ∈ lts.step_transitions a,
          p.1 ∈ lts.states ∧ p.2 = (lts.transGet (p.1, a)).getD []) := by
  intro fuel s lts h
  have hw : TransWf lts := by
    unfold Lts.from_str at h
    split at h
    · simp at h
    · exact pEdges_TransWf fuel _ _ lts (by intro p hp; simp at hp) h
  exact ⟨hw, fun a => step_transitions_spec lts a⟩

def L1 : Lts := (Lts.mk 0 ∅ []).add_edge 1 "a" 2

theorem C8_parsed_lts_invariants_witness :
    (∀ p ∈ L1.trans, p.1.1 ∈ L1.states ∧ ∀ t ∈ p.2, t ∈ L1.states) ∧
    ∀ a : Label,
      (∀ st ∈ L1.states,
        (st, (L1.transGet (st, a)).getD []) ∈ L1.step_transitions a) ∧
      (∀ p ∈ L1.step_transitions a,
        p.1 ∈ L1.states ∧ p.2 = (L1.transGet (p.1, a)).getD []) :=
  C8_parsed_lts_invariants 10 "des (0,1,2)\n(1,\"a\",2)" L1 (by decide)

/-! ## State-set containment invariant (claim C10)

Every state-set value the evaluators produce or bind in the environment is
a subset of the LTS's state set. -/

/-- All values bound in the environment are subsets of the state set. -/
def EnvVS (lts : Lts) (env : Env) : Prop :=
  ∀ X v, env X = some v → v ⊆ lts.states

theorem EnvVS_updE {lts : Lts} {env : Env} (h : EnvVS lts env) {x : Char}
    {v : Finset State} (hv : v ⊆ lts.states) : EnvVS lts (updE env x v) := by
  intro Y w hw
  unfold updE at hw
  by_cases hY : Y = x
  · rw [if_pos hY] at hw
    cases hw
    exact hv
  · rw [if_neg hY] at hw
    exact h Y w hw

theorem foldl_EnvVS {α : Type} (lts : Lts) (step : Env → α → Env)
    (hstep : ∀ e a, EnvVS lts e → EnvVS lts (step e a)) :
    ∀ (l : List α) (env : Env), EnvVS lts env → EnvVS lts (l.foldl step env) := by
  intro l
  induction l with
  | nil => intro env h; exact h
  | cons a l ih => intro env h; exact ih (step env a) (hstep env a h)

theorem fixIter_EnvVS (lts : Lts) (tick : PState → PState)
    (body : Env → PState → Option (Finset State × Env × PState)) (var : Char)
    (hbody : ∀ env st r, EnvVS lts env → body env st = some r →
      r.1 ⊆ lts.states ∧ EnvVS lts r.2.1) :
    ∀ budget env st r, EnvVS lts env →
      fixIter tick body var budget env st = some r →
      r.1 ⊆ lts.states ∧ EnvVS lts r.2.1 := by
  intro budget
  induction budget with
  | zero => intro env st r hv h; simp [fixIter] at h
  | succ n ih =>
      intro env st r hv h
      simp only [fixIter] at h
      cases hb : body env (tick st) with
      | none => rw [hb] at h; simp at h
      | some w =>
          rw [hb] at h
          obtain ⟨new, env1, st1⟩ := w
          obtain ⟨hnew, henv1⟩ := hbody env (tick st) (new, env1, st1) hv hb
          dsimp only at h
          cases hvv : env1 var with
          | none => rw [hvv] at h; simp at h
          | some prevv =>
              rw [hvv] at h
              dsimp only at h
              by_cases heq : prevv = new
              · rw [if_pos heq] at h
                cases h
                exact ⟨henv1 var prevv hvv, EnvVS_updE henv1 hnew⟩
              · rw [if_neg heq] at h
                exact ih _ st1 r (EnvVS_updE henv1 hnew) h

theorem naive_EnvVS (lts : Lts) :
    ∀ fuel f env st r, EnvVS lts env →
      Naive.eval_inner lts fuel f env st = some r →
      r.1 ⊆ lts.states ∧ EnvVS lts r.2.1 := by
  intro fuel
  induction fuel with
  | zero => intro f env st r hv h; simp [Naive.eval_inner] at h
  | succ n ih =>
      intro f env st r hv h
      cases f with
      | Var name =>
          simp only [Naive.eval_inner] at h
          cases he : env name with
          | none => rw [he] at h; simp at h
          | some v =>
              rw [he] at h
              simp at h
              subst h
              exact ⟨hv name v he, hv⟩
      | True =>
          simp only [Naive.eval_inner] at h; simp at h; subst h
          exact ⟨Finset.Subset.refl _, hv⟩
      | False =>
          simp only [Naive.eval_inner] at h; simp at h; subst h
          exact ⟨Finset.empty_subset _, hv⟩
      | And f1 f2 =>
          simp only [Naive.eval_inner] at h
          cases h1 : Naive.eval_inner lts n f1 env st with
          | none => rw [h1] at h; simp at h
          | some w1 =>
              rw [h1] at h
              obtain ⟨v1, env1, st1⟩ := w1
              dsimp only at h
              obtain ⟨hv1, henv1⟩ := ih f1 env st _ hv h1
              cases h2 : Naive.eval_inner lts n f2 env1 st1 with
              | none => rw [h2] at h; simp at h
              | some w2 =>
                  rw [h2] at h
                  obtain ⟨v2, env2, st2⟩ := w2
                  simp at h
                  subst h
                  obtain ⟨hv2, henv2⟩ := ih f2 env1 st1 _ henv1 h2
                  exact ⟨(Finset.inter_subset_left).trans hv1, henv2⟩
      | Or f1 f2 =>
          simp only [Naive.eval_inner] at h
          cases h1 : Naive.eval_inner lts n f1 env st with
          | none => rw [h1] at h; simp at h
          | some w1 =>
              rw [h1] at h
              obtain ⟨v1, env1, st1⟩ := w1
              dsimp only at h
              obtain ⟨hv1, henv1⟩ := ih f1 env st _ hv h1
              cases h2 : Naive.eval_inner lts n f2 env1 st1 with
              | none => rw [h2] at h; simp at h
              | some w2 =>
                  rw [h2] at h
                  obtain ⟨v2, env2, st2⟩ := w2
                  simp at h
                  subst h
                  obtain ⟨hv2, henv2⟩ := ih f2 env1 st1 _ henv1 h2
                  exact ⟨Finset.union_subset hv1 hv2, henv2⟩
      | Diamond step g =>
          simp only [Naive.eval_inner] at h
          cases h1 : Naive.eval_inner lts n g env st with
          | none => rw [h1] at h; simp at h
          | some w1 =>
              rw [h1] at h
              obtain ⟨v1, env1, st1⟩ := w1
              simp at h
              subst h
              obtain ⟨hv1, henv1⟩ := ih g env st _ hv h1
              exact ⟨Finset.filter_subset _ _, henv1⟩
      | Box step g =>
          simp only [Naive.eval_inner] at h
          cases h1 : Naive.eval_inner lts n g env st with
          | none => rw [h1] at h; simp at h
          | some w1 =>
              rw [h1] at h
              obtain ⟨v1, env1, st1⟩ := w1
              simp at h
              subst h
              obtain ⟨hv1, henv1⟩ := ih g env st _ hv h1
              exact ⟨Finset.filter_subset _ _, henv1⟩
      | Mu var g =>
          simp only [Naive.eval_inner] at h
          exact fixIter_EnvVS lts Naive.tick _ var
            (fun e s r hve hr => ih g e s r hve hr) n _ st r
            (EnvVS_updE hv (Finset.empty_subset _)) h
      | Nu var g =>
          simp only [Naive.eval_inner] at h
          exact fixIter_EnvVS lts Naive.tick _ var
            (fun e s r hve hr => ih g e s r hve hr) n _ st r
            (EnvVS_updE hv (Finset.Subset.refl _)) h

theorem reset_fixpoints_EnvVS {lts : Lts} {f : Formula} {env env' : Env}
    (hv : EnvVS lts env)
    (h : Improved.reset_fixpoints lts f env = some env') : EnvVS lts env' := by
  unfold Improved.reset_fixpoints at h
  split at h
  · simp at h
    subst h
    refine foldl_EnvVS lts _ ?_ _ env hv
    intro e a he
    cases a <;> simp only
    all_goals try exact he
    split
    · exact EnvVS_updE he (Finset.empty_subset _)
    · exact he
  · simp at h
    subst h
    refine foldl_EnvVS lts _ ?_ _ env hv
    intro e a he
    cases a <;> simp only
    all_goals try exact he
    split
    · exact EnvVS_updE he (Finset.Subset.refl _)
    · exact he
  · simp at h

theorem preSeed_EnvVS (lts : Lts) (f : Formula) :
    EnvVS lts (Improved.preSeed lts f) := by
  unfold Improved.preSeed
  refine foldl_EnvVS lts _ ?_ _ emptyEnv ?_
  · intro e a he
    cases a <;> simp only
    all_goals try exact he
    · exact EnvVS_updE he (Finset.empty_subset _)
    · exact EnvVS_updE he (Finset.Subset.refl _)
  · intro X v h
    simp [emptyEnv] at h

theorem improved_EnvVS (lts : Lts) :
    ∀ fuel f prev env st r, EnvVS lts env →
      Improved.eval_inner lts fuel f prev env st = some r →
      r.1 ⊆ lts.states ∧ EnvVS lts r.2.1 := by
  intro fuel
  induction fuel with
  | zero => intro f prev env st r hv h; simp [Improved.eval_inner] at h
  | succ n ih =>
      intro f prev env st r hv h
      cases f with
      | Var name =>
          simp only [Improved.eval_inner] at h
          cases he : env name with
          | none => rw [he] at h; simp at h
          | some v =>
              rw [he] at h
              simp at h
              subst h
              exact ⟨hv name v he, hv⟩
      | True =>
          simp only [Improved.eval_inner] at h; simp at h; subst h
          exact ⟨Finset.Subset.refl _, hv⟩
      | False =>
          simp only [Improved.eval_inner] at h; simp at h; subst h
          exact ⟨Finset.empty_subset _, hv⟩
      | And f1 f2 =>
          simp only [Improved.eval_inner] at h
          cases h1 : Improved.eval_inner lts n f1 prev env st with
          | none => rw [h1] at h; simp at h
          | some w1 =>
              rw [h1] at h
              obtain ⟨v1, env1, st1⟩ := w1
              dsimp only at h
              obtain ⟨hv1, henv1⟩ := ih f1 prev env st _ hv h1
              cases h2 : Improved.eval_inner lts n f2 prev env1 st1 with
              | none => rw [h2] at h; simp at h
              | some w2 =>
                  rw [h2] at h
                  obtain ⟨v2, env2, st2⟩ := w2
                  simp at h
                  subst h
                  obtain ⟨hv2, henv2⟩ := ih f2 prev env1 st1 _ henv1 h2
                  exact ⟨(Finset.inter_subset_left).trans hv1, henv2⟩
      | Or f1 f2 =>
          simp only [Improved.eval_inner] at h
          cases h1 : Improved.eval_inner lts n f1 prev env st with
          | none => rw [h1] at h; simp at h
          | some w1 =>
              rw [h1] at h
              obtain ⟨v1, env1, st1⟩ := w1
              dsimp only at h
              obtain ⟨hv1, henv1⟩ := ih f1 prev env st _ hv h1
              cases h2 : Improved.eval_inner lts n f2 prev env1 st1 with
              | none => rw [h2] at h; simp at h
              | some w2 =>
                  rw [h2] at h
                  obtain ⟨v2, env2, st2⟩ := w2
                  simp at h
                  subst h
                  obtain ⟨hv2, henv2⟩ := ih f2 prev env1 st1 _ henv1 h2
                  exact ⟨Finset.union_subset hv1 hv2, henv2⟩
      | Diamond step g =>
          simp only [Improved.eval_inner] at h
          cases h1 : Improved.eval_inner lts n g prev env st with
          | none => rw [h1] at h; simp at h
          | some w1 =>
              rw [h1] at h
              obtain ⟨v1, env1, st1⟩ := w1
              simp at h
              subst h
              obtain ⟨hv1, henv1⟩ := ih g prev env st _ hv h1
              exact ⟨Finset.filter_subset _ _, henv1⟩
      | Box step g =>
          simp only [Improved.eval_inner] at h
          cases h1 : Improved.eval_inner lts n g prev env st with
          | none => rw [h1] at h; simp at h
          | some w1 =>
              rw [h1] at h
              obtain ⟨v1, env1, st1⟩ := w1
              simp at h
              subst h
              obtain ⟨hv1, henv1⟩ := ih g prev env st _ hv h1
              exact ⟨Finset.filter_subset _ _, henv1⟩
      | Mu var g =>
          simp only [Improved.eval_inner] at h
          cases hr : (match prev with
            | some (.Nu _ _) => Improved.reset_fixpoints lts (.Mu var g) env
            | _ => some env) with
          | none => rw [hr] at h; simp at h
          | some env1 =>
              rw [hr] at h
              dsimp only at h
              have henv1 : EnvVS lts env1 := by
                rcases prev with _ | pf
                · simp at hr; rwa [← hr]
                · cases pf <;> simp at hr
                  all_goals try (rw [← hr]; exact hv)
                  exact reset_fixpoints_EnvVS hv hr
              exact fixIter_EnvVS lts Improved.tick _ var
                (fun e s r hve hrr => ih g (some (.Mu var g)) e s r hve hrr)
                n env1 st r henv1 h
      | Nu var g =>
          simp only [Improved.eval_inner] at h
          cases hr : (match prev with
            | some (.Mu _ _) => Improved.reset_fixpoints lts (.Nu var g) env
            | _ => some env) with
          | none => rw [hr] at h; simp at h
          | some env1 =>
              rw [hr] at h
              dsimp only at h
              have henv1 : EnvVS lts env1 := by
                rcases prev with _ | pf
                · simp at hr; rwa [← hr]
                · cases pf <;> simp at hr
                  all_goals try (rw [← hr]; exact hv)
                  exact reset_fixpoints_EnvVS hv hr
              exact fixIter_EnvVS lts Improved.tick _ var
                (fun e s r hve hrr => ih g (some (.Nu var g)) e s r hve hrr)
                n env1 st r henv1 h

/-- **C10.** Every state-set value an evaluator returns or binds in the
environment is a subset of the LTS's state set `S`: the invariant holds at
every evaluation step of either evaluator (first two conjuncts, quantified
over every subformula evaluation), and in particular for the top-level
entry points with their initial environments (last two conjuncts). -/
theorem C10_state_sets_within_S :
    (∀ (lts : Lts) fuel f env st r, EnvVS lts env →
        Naive.eval_inner lts fuel f env st = some r →
        r.1 ⊆ lts.states ∧ EnvVS lts r.2.1) ∧
    (∀ (lts : Lts) fuel f prev env st r, EnvVS lts env →
        Improved.eval_inner lts fuel f prev env st = some r →
        r.1 ⊆ lts.states ∧ EnvVS lts r.2.1) ∧
    (∀ (lts : Lts) f st fuel r, Naive.eval lts f st fuel = some r →
        r.1 ⊆ lts.states ∧ EnvVS lts r.2.1) ∧
    (∀ (lts : Lts) f st fuel r, Improved.eval lts f st fuel = some r →
        r.1 ⊆ lts.states ∧ EnvVS lts r.2.1) := by
  refine ⟨fun lts fuel f env st r => naive_EnvVS lts fuel f env st r,
    fun lts fuel f prev env st r => improved_EnvVS lts fuel f prev env st r,
    ?_, ?_⟩
  · intro lts f st fuel r h
    exact naive_EnvVS lts fuel f emptyEnv st r
      (fun X v hx => by simp [emptyEnv] at hx) h
  · intro lts f st fuel r h
    exact improved_EnvVS lts fuel f none _ st r (preSeed_EnvVS lts f) h

theorem C10_state_sets_within_S_witness :
    L0.states ⊆ L0.states ∧ EnvVS L0 emptyEnv :=
  C10_state_sets_within_S.2.2.1 L0 .True ⟨0, 0⟩ 2
    (L0.states, emptyEnv, ⟨0, 0⟩) rfl

/-! ## Denotational semantics

The reference semantics `⟦·⟧σ` of §4.5, over total environments.  Fixed
points are computed as `|S| + 1`-fold iteration of the body functional from
`∅` (μ) or `S` (ν); the lattice lemmas below show this is the least
(greatest) fixed point whenever the functional is monotone and
`S`-bounded — which `sem` always is. -/

abbrev TEnv := Char → Finset State

def upd (σ : TEnv) (x : Char) (v : Finset State) : TEnv :=
  fun y => if y = x then v else σ y

/-- Read a partial environment as a total one (the `∅` default is never
exercised in any theorem: lookups are always on defined variables). -/
def readE (env : Env) : TEnv := fun X => (env X).getD ∅

/-- `|S| + 1`-fold iterate from `∅`: the least fixed point of a monotone
`S`-bounded `F`. -/
def muIter (F : Finset State → Finset State) (S : Finset State) :
    Finset State :=
  F^[S.card + 1] ∅

/-- `|S| + 1`-fold iterate from `S`: the greatest fixed point of a monotone
`S`-bounded `F`. -/
def nuIter (F : Finset State → Finset State) (S : Finset State) :
    Finset State :=
  F^[S.card + 1] S

def sem (lts : Lts) : Formula → TEnv → Finset State
  | .False, _ => ∅
  | .True, _ => lts.states
  | .Var name, σ => σ name
  | .And f1 f2, σ => sem lts f1 σ ∩ sem lts f2 σ
  | .Or f1 f2, σ => sem lts f1 σ ∪ sem lts f2 σ
  | .Diamond step g, σ => diamondSet lts step (sem lts g σ)
  | .Box step g, σ => boxSet lts step (sem lts g σ)
  | .Mu var g, σ => muIter (fun v => sem lts g (upd σ var v)) lts.states
  | .Nu var g, σ => nuIter (fun v => sem lts g (upd σ var v)) lts.states

/-! ### Fixed-point iteration lemmas -/

section FixLattice

variable {F : Finset State → Finset State} {S : Finset State}

theorem iter_subset_S (hS : ∀ a, a ⊆ S → F a ⊆ S) {base : Finset State}
    (hbase : base ⊆ S) : ∀ n, F^[n] base ⊆ S := by
  intro n
  induction n with
  | zero => simpa using hbase
  | succ n ih => rw [Function.iterate_succ_apply']; exact hS _ ih

theorem iter_incr (hmono : ∀ a b : Finset State, a ⊆ b → F a ⊆ F b)
    {base : Finset State} (hbase : base ⊆ F base) :
    ∀ n, F^[n] base ⊆ F^[n + 1] base := by
  intro n
  induction n with
  | zero => simpa using hbase
  | succ n ih =>
      rw [Function.iterate_succ_apply', Function.iterate_succ_apply']
      exact hmono _ _ ih

theorem iter_decr (hmono : ∀ a b : Finset State, a ⊆ b → F a ⊆ F b)
    {base : Finset State} (hbase : F base ⊆ base) :
    ∀ n, F^[n + 1] base ⊆ F^[n] base := by
  intro n
  induction n with
  | zero => simpa using hbase
  | succ n ih =>
      have h2 : F (F^[n + 1] base) ⊆ F (F^[n] base) := hmono _ _ ih
      rw [← Function.iterate_succ_apply' F (n + 1) base,
        ← Function.iterate_succ_apply' F n base] at h2
      exact h2

theorem iter_stable {base : Finset State} {n : Nat}
    (h : F^[n] base = F^[n + 1] base) :
    ∀ m, n ≤ m → F^[m] base = F^[n] base := by
  intro m hm
  induction m with
  | zero => cases Nat.le_zero.1 hm; rfl
  | succ m ih =>
      rcases Nat.lt_or_ge n (m + 1) with hlt | hge
      · have hnm : n ≤ m := Nat.lt_succ_iff.1 hlt
        rw [Function.iterate_succ_apply', ih hnm,
          ← Function.iterate_succ_apply' F n base, ← h]
      · have : n = m + 1 := Nat.le_antisymm hm hge
        rw [this]

/-- An increasing `S`-bounded chain stabilizes within `S.card` steps. -/
theorem incr_chain_stab (hmono : ∀ a b : Finset State, a ⊆ b → F a ⊆ F b)
    (hS : ∀ a, a ⊆ S → F a ⊆ S) {base : Finset State} (hbase0 : base ⊆ S)
    (hbase : base ⊆ F base) :
    ∃ n, n ≤ S.card ∧ F^[n] base = F^[n + 1] base := by
  by_contra hcon
  push_neg at hcon
  have key : ∀ n, n ≤ S.card + 1 → n ≤ (F^[n] base).card := by
    intro n hn
    induction n with
    | zero => simp
    | succ n ih =>
        have hlt : (F^[n] base).card < (F^[n + 1] base).card := by
          apply Finset.card_lt_card
          refine Finset.ssubset_iff_subset_ne.2 ⟨iter_incr hmono hbase n, ?_⟩
          exact hcon n (by omega)
        have := ih (by omega)
        omega
  have h1 := key (S.card + 1) le_rfl
  have h2 := Finset.card_le_card (iter_subset_S hS hbase0 (S.card + 1))
  omega

/-- A decreasing `S`-bounded chain stabilizes within `S.card` steps. -/
theorem decr_chain_stab (hmono : ∀ a b : Finset State, a ⊆ b → F a ⊆ F b)
    {base : Finset State} (hbase0 : base ⊆ S) (hbase : F base ⊆ base) :
    ∃ n, n ≤ S.card ∧ F^[n] base = F^[n + 1] base := by
  by_contra hcon
  push_neg at hcon
  have key : ∀ n, n ≤ S.card + 1 → (F^[n] base).card + n ≤ S.card := by
    intro n hn
    induction n with
    | zero =>
        simpa using Finset.card_le_card hbase0
    | succ n ih =>
        have hlt : (F^[n + 1] base).card < (F^[n] base).card := by
          apply Finset.card_lt_card
          refine Finset.ssubset_iff_subset_ne.2 ⟨iter_decr hmono hbase n, ?_⟩
          exact fun he => hcon n (by omega) he.symm
        have := ih (by omega)
        omega
  have := key (S.card + 1) le_rfl
  omega

theorem muIter_fixed (hmono : ∀ a b : Finset State, a ⊆ b → F a ⊆ F b)
    (hS : ∀ a, a ⊆ S → F a ⊆ S) : F (muIter F S) = muIter F S := by
  obtain ⟨n, hn, hstab⟩ :=
    incr_chain_stab hmono hS (Finset.empty_subset S) (Finset.empty_subset _)
  have h1 : F^[S.card + 1] ∅ = F^[n] ∅ := iter_stable hstab _ (by omega)
  unfold muIter
  rw [h1, ← Function.iterate_succ_apply' F n ∅, ← hstab]

theorem muIter_le_fixed (hmono : ∀ a b : Finset State, a ⊆ b → F a ⊆ F b)
    (q : Finset State) (hq : F q ⊆ q) : muIter F S ⊆ q := by
  unfold muIter
  have key : ∀ n, F^[n] ∅ ⊆ q := by
    intro n
    induction n with
    | zero => simp
    | succ n ih =>
        rw [Function.iterate_succ_apply']
        exact (hmono _ _ ih).trans hq
  exact key _

theorem muIter_subset_S (hS : ∀ a, a ⊆ S → F a ⊆ S) : muIter F S ⊆ S :=
  iter_subset_S hS (Finset.empty_subset S) _

theorem nuIter_fixed (hmono : ∀ a b : Finset State, a ⊆ b → F a ⊆ F b)
    (hS : ∀ a, a ⊆ S → F a ⊆ S) : F (nuIter F S) = nuIter F S := by
  obtain ⟨n, hn, hstab⟩ :=
    decr_chain_stab hmono (Finset.Subset.refl S) (hS S (Finset.Subset.refl S))
  have h1 : F^[S.card + 1] S = F^[n] S := iter_stable hstab _ (by omega)
  unfold nuIter
  rw [h1, ← Function.iterate_succ_apply' F n S, ← hstab]

theorem nuIter_ge_fixed (hmono : ∀ a b : Finset State, a ⊆ b → F a ⊆ F b)
    (q : Finset State) (hq : q ⊆ F q) (hqS : q ⊆ S) : q ⊆ nuIter F S := by
  unfold nuIter
  have key : ∀ n, q ⊆ F^[n] S := by
    intro n
    induction n with
    | zero => simpa using hqS
    | succ n ih =>
        rw [Function.iterate_succ_apply']
        exact hq.trans (hmono _ _ ih)
  exact key _

theorem nuIter_subset_S (hS : ∀ a, a ⊆ S → F a ⊆ S) : nuIter F S ⊆ S :=
  iter_subset_S hS (Finset.Subset.refl S) _

end FixLattice

/-! ### Loop correctness: `fixIter` computes `muIter`/`nuIter`

Generic specifications of the fixed-point loop, abstracted over the loop
body.  `P` is an invariant on the environments fed to the body (it carries
the well-formedness facts of the concrete evaluator), `Q` collects facts
true of every body output. -/

theorem fixIter_mu_spec (lts : Lts) (tick : PState → PState)
    (body : Env → PState → Option (Finset State × Env × PState)) (var : Char)
    (F : Finset State → Finset State) (P Q : Env → Prop)
    (hmono : ∀ a b : Finset State, a ⊆ b → F a ⊆ F b)
    (hS : ∀ a, a ⊆ lts.states → F a ⊆ lts.states)
    (hQupd : ∀ e v, Q e → Q (updE e var v))
    (hbody : ∀ e s vX, P e → e var = some vX → vX ⊆ lts.states →
      vX ⊆ F vX → vX ⊆ muIter F lts.states →
      ∃ e' s', body e s = some (F vX, e', s') ∧ e' var = some vX ∧
        P (updE e' var (F vX)) ∧ Q e') :
    ∀ budget e s v0, P e → e var = some v0 → v0 ⊆ lts.states →
      v0 ⊆ F v0 → v0 ⊆ muIter F lts.states →
      lts.states.card + 1 - v0.card ≤ budget →
      ∃ eF sF, fixIter tick body var budget e s =
          some (muIter F lts.states, eF, sF) ∧
        P eF ∧ Q eF ∧ eF var = some (muIter F lts.states) := by
  intro budget
  induction budget with
  | zero =>
      intro e s v0 hP hv hvS hpre hle hbud
      exfalso
      have := Finset.card_le_card hvS
      omega
  | succ n ih =>
      intro e s v0 hP hv hvS hpre hle hbud
      obtain ⟨e', s', hbe, hev, hPn, hQ⟩ :=
        hbody e (tick s) v0 hP hv hvS hpre hle
      simp only [fixIter]
      rw [hbe]
      dsimp only
      rw [hev]
      dsimp only
      by_cases heq : v0 = F v0
      · rw [if_pos heq]
        have hfix : F v0 ⊆ v0 := le_of_eq heq.symm
        have h2 : v0 = muIter F lts.states :=
          Finset.Subset.antisymm hle (muIter_le_fixed hmono v0 hfix)
        refine ⟨updE e' var (F v0), s', ?_, hPn, hQupd e' (F v0) hQ, ?_⟩
        · rw [← h2]
        · rw [← h2, ← heq]
          simp [updE]
      · rw [if_neg heq]
        have hs1 : F v0 ⊆ lts.states := hS v0 hvS
        have hcard : v0.card < (F v0).card :=
          Finset.card_lt_card (Finset.ssubset_iff_subset_ne.2 ⟨hpre, heq⟩)
        have hfixp : muIter F lts.states = F (muIter F lts.states) :=
          (muIter_fixed hmono hS).symm
        refine ih (updE e' var (F v0)) s' (F v0) hPn ?_ hs1
          (hmono _ _ hpre) ?_ (by omega)
        · simp [updE]
        · refine (hmono _ _ hle).trans ?_
          rw [← hfixp]

theorem fixIter_nu_spec (lts : Lts) (tick : PState → PState)
    (body : Env → PState → Option (Finset State × Env × PState)) (var : Char)
    (F : Finset State → Finset State) (P Q : Env → Prop)
    (hmono : ∀ a b : Finset State, a ⊆ b → F a ⊆ F b)
    (hS : ∀ a, a ⊆ lts.states → F a ⊆ lts.states)
    (hQupd : ∀ e v, Q e → Q (updE e var v))
    (hbody : ∀ e s vX, P e → e var = some vX → vX ⊆ lts.states →
      F vX ⊆ vX → nuIter F lts.states ⊆ vX →
      ∃ e' s', body e s = some (F vX, e', s') ∧ e' var = some vX ∧
        P (updE e' var (F vX)) ∧ Q e') :
    ∀ budget e s v0, P e → e var = some v0 → v0 ⊆ lts.states →
      F v0 ⊆ v0 → nuIter F lts.states ⊆ v0 →
      v0.card + 1 - (nuIter F lts.states).card ≤ budget →
      ∃ eF sF, fixIter tick body var budget e s =
          some (nuIter F lts.states, eF, sF) ∧
        P eF ∧ Q eF ∧ eF var = some (nuIter F lts.states) := by
  intro budget
  induction budget with
  | zero =>
      intro e s v0 hP hv hvS hpre hle hbud
      exfalso
      have := Finset.card_le_card hle
      omega
  | succ n ih =>
      intro e s v0 hP hv hvS hpre hle hbud
      obtain ⟨e', s', hbe, hev, hPn, hQ⟩ :=
        hbody e (tick s) v0 hP hv hvS hpre hle
      simp only [fixIter]
      rw [hbe]
      dsimp only
      rw [hev]
      dsimp only
      by_cases heq : v0 = F v0
      · rw [if_pos heq]
        have h2 : v0 = nuIter F lts.states :=
          Finset.Subset.antisymm
            (nuIter_ge_fixed hmono v0 (le_of_eq heq) hvS) hle
        refine ⟨updE e' var (F v0), s', ?_, hPn, hQupd e' (F v0) hQ, ?_⟩
        · rw [← h2]
        · rw [← h2, ← heq]
          simp [updE]
      · rw [if_neg heq]
        have hs1 : F v0 ⊆ lts.states := (hpre.trans hvS)
        have hcard : (F v0).card < v0.card :=
          Finset.card_lt_card
            (Finset.ssubset_iff_subset_ne.2 ⟨hpre, fun h => heq h.symm⟩)
        have hfixp : nuIter F lts.states = F (nuIter F lts.states) :=
          (nuIter_fixed hmono hS).symm
        refine ih (updE e' var (F v0)) s' (F v0) hPn ?_ hs1
          (hmono _ _ hpre) ?_ (by omega)
        · simp [updE]
        · rw [hfixp]
          exact hmono _ _ hle

/-! ## Well-formedness of formulas

The structural constraints of §3 that the evaluator correctness theorems
assume: every `Var(X)` occurs under a binder of `X` (up to an ambient set
`bv` of already-bound variables) and binder names are not shadowed (the
list of bound names has no duplicates). -/

/-- The list of binder variables of a formula, in syntactic order. -/
def binderList : Formula → List Char
  | .And f1 f2 => binderList f1 ++ binderList f2
  | .Or f1 f2 => binderList f1 ++ binderList f2
  | .Diamond _ g => binderList g
  | .Box _ g => binderList g
  | .Mu var g => var :: binderList g
  | .Nu var g => var :: binderList g
  | _ => []

/-- Every `Var` is bound by an enclosing binder or by the ambient `bv`. -/
def wellScoped (bv : Finset Char) : Formula → Bool
  | .Var name => decide (name ∈ bv)
  | .And f1 f2 => wellScoped bv f1 && wellScoped bv f2
  | .Or f1 f2 => wellScoped bv f1 && wellScoped bv f2
  | .Diamond _ g => wellScoped bv g
  | .Box _ g => wellScoped bv g
  | .Mu var g => wellScoped (insert var bv) g
  | .Nu var g => wellScoped (insert var bv) g
  | _ => true

/-- Well-formed closed formula: closed, and no variable shadowing. -/
def WF (f : Formula) : Prop :=
  wellScoped ∅ f = true ∧ (binderList f).Nodup

theorem mem_binderList_iff :
    ∀ (f : Formula) (x : Char),
      x ∈ binderList f ↔ x ∈ (variablesOf f).declared := by
  intro f
  induction f with
  | False => intro x; simp [binderList, variablesOf]
  | True => intro x; simp [binderList, variablesOf]
  | Var name => intro x; simp [binderList, variablesOf]
  | And f1 f2 ih1 ih2 =>
      intro x; simp [binderList, variablesOf, ih1, ih2]
  | Or f1 f2 ih1 ih2 =>
      intro x; simp [binderList, variablesOf, ih1, ih2]
  | Diamond step g ih => intro x; simp [binderList, variablesOf, ih]
  | Box step g ih => intro x; simp [binderList, variablesOf, ih]
  | Mu var g ih => intro x; simp [binderList, variablesOf, ih]
  | Nu var g ih => intro x; simp [binderList, variablesOf, ih]

theorem used_subset_scoped :
    ∀ (f : Formula) (bv : Finset Char), wellScoped bv f = true →
      (variablesOf f).used ⊆ bv ∪ (variablesOf f).declared := by
  intro f
  induction f with
  | False => intro bv h; simp [variablesOf]
  | True => intro bv h; simp [variablesOf]
  | Var name =>
      intro bv h
      simp [wellScoped] at h
      intro x hx
      simp [variablesOf] at hx
      subst hx
      simp [h]
  | And f1 f2 ih1 ih2 =>
      intro bv h
      simp [wellScoped] at h
      have h1 := ih1 bv h.1
      have h2 := ih2 bv h.2
      simp only [variablesOf]
      intro x hx
      simp at hx ⊢
      rcases hx with hx | hx
      · have h3 := h1 hx
        simp at h3
        tauto
      · have h3 := h2 hx
        simp at h3
        tauto
  | Or f1 f2 ih1 ih2 =>
      intro bv h
      simp [wellScoped] at h
      have h1 := ih1 bv h.1
      have h2 := ih2 bv h.2
      simp only [variablesOf]
      intro x hx
      simp at hx ⊢
      rcases hx with hx | hx
      · have h3 := h1 hx
        simp at h3
        tauto
      · have h3 := h2 hx
        simp at h3
        tauto
  | Diamond step g ih =>
      intro bv h
      simp only [wellScoped] at h
      simpa [variablesOf] using ih bv h
  | Box step g ih =>
      intro bv h
      simp only [wellScoped] at h
      simpa [variablesOf] using ih bv h
  | Mu var g ih =>
      intro bv h
      simp only [wellScoped] at h
      have h1 := ih (insert var bv) h
      simp only [variablesOf]
      intro x hx
      have := h1 hx
      simp at this ⊢
      tauto
  | Nu var g ih =>
      intro bv h
      simp only [wellScoped] at h
      have h1 := ih (insert var bv) h
      simp only [variablesOf]
      intro x hx
      have := h1 hx
      simp at this ⊢
      tauto

theorem used_sub_of_mem :
    ∀ (h b : Formula), b ∈ subformulas h →
      (variablesOf b).used ⊆ (variablesOf h).used := by
  intro h
  induction h with
  | False => intro b hb; simp [subformulas] at hb; simp [hb]
  | True => intro b hb; simp [subformulas] at hb; simp [hb]
  | Var name => intro b hb; simp [subformulas] at hb; simp [hb]
  | And f1 f2 ih1 ih2 =>
      intro b hb
      simp only [subformulas, List.mem_cons, List.mem_append] at hb
      rcases hb with hb | hb | hb
      · simp [hb]
      · exact (ih2 b hb).trans (by simp [variablesOf])
      · exact (ih1 b hb).trans (by simp [variablesOf])
  | Or f1 f2 ih1 ih2 =>
      intro b hb
      simp only [subformulas, List.mem_cons, List.mem_append] at hb
      rcases hb with hb | hb | hb
      · simp [hb]
      · exact (ih2 b hb).trans (by simp [variablesOf])
      · exact (ih1 b hb).trans (by simp [variablesOf])
  | Diamond step g ih =>
      intro b hb
      simp only [subformulas, List.mem_cons] at hb
      rcases hb with hb | hb
      · simp [hb]
      · exact (ih b hb).trans (by simp [variablesOf])
  | Box step g ih =>
      intro b hb
      simp only [subformulas, List.mem_cons] at hb
      rcases hb with hb | hb
      · simp [hb]
      · exact (ih b hb).trans (by simp [variablesOf])
  | Mu var g ih =>
      intro b hb
      simp only [subformulas, List.mem_cons] at hb
      rcases hb with hb | hb
      · simp [hb]
      · exact (ih b hb).trans (by simp [variablesOf])
  | Nu var g ih =>
      intro b hb
      simp only [subformulas, List.mem_cons] at hb
      rcases hb with hb | hb
      · simp [hb]
      · exact (ih b hb).trans (by simp [variablesOf])

theorem declared_sub_of_mem :
    ∀ (h b : Formula), b ∈ subformulas h →
      (variablesOf b).declared ⊆ (variablesOf h).declared := by
  intro h
  induction h with
  | False => intro b hb; simp [subformulas] at hb; simp [hb]
  | True => intro b hb; simp [subformulas] at hb; simp [hb]
  | Var name => intro b hb; simp [subformulas] at hb; simp [hb]
  | And f1 f2 ih1 ih2 =>
      intro b hb
      simp only [subformulas, List.mem_cons, List.mem_append] at hb
      rcases hb with hb | hb | hb
      · simp [hb]
      · exact (ih2 b hb).trans (by simp [variablesOf])
      · exact (ih1 b hb).trans (by simp [variablesOf])
  | Or f1 f2 ih1 ih2 =>
      intro b hb
      simp only [subformulas, List.mem_cons, List.mem_append] at hb
      rcases hb with hb | hb | hb
      · simp [hb]
      · exact (ih2 b hb).trans (by simp [variablesOf])
      · exact (ih1 b hb).trans (by simp [variablesOf])
  | Diamond step g ih =>
      intro b hb
      simp only [subformulas, List.mem_cons] at hb
      rcases hb with hb | hb
      · simp [hb]
      · exact (ih b hb).trans (by simp [variablesOf])
  | Box step g ih =>
      intro b hb
      simp only [subformulas, List.mem_cons] at hb
      rcases hb with hb | hb
      · simp [hb]
      · exact (ih b hb).trans (by simp [variablesOf])
  | Mu var g ih =>
      intro b hb
      simp only [subformulas, List.mem_cons] at hb
      rcases hb with hb | hb
      · simp [hb]
      · exact (ih b hb).trans (by simp [variablesOf])
  | Nu var g ih =>
      intro b hb
      simp only [subformulas, List.mem_cons] at hb
      rcases hb with hb | hb
      · simp [hb]
      · exact (ih b hb).trans (by simp [variablesOf])

/-- The bound variable of a binder node, if any. -/
def bvarOf : Formula → Option Char
  | .Mu var _ => some var
  | .Nu var _ => some var
  | _ => none

theorem bvar_mem_binderList :
    ∀ (h b : Formula) (X : Char), b ∈ subformulas h → bvarOf b = some X →
      X ∈ binderList h := by
  intro h
  induction h with
  | False => intro b X hb hx; simp [subformulas] at hb; subst hb; simp [bvarOf] at hx
  | True => intro b X hb hx; simp [subformulas] at hb; subst hb; simp [bvarOf] at hx
  | Var name =>
      intro b X hb hx; simp [subformulas] at hb; subst hb; simp [bvarOf] at hx
  | And f1 f2 ih1 ih2 =>
      intro b X hb hx
      simp only [subformulas, List.mem_cons, List.mem_append] at hb
      rcases hb with hb | hb | hb
      · subst hb; simp [bvarOf] at hx
      · simp [binderList, ih2 b X hb hx]
      · simp [binderList, ih1 b X hb hx]
  | Or f1 f2 ih1 ih2 =>
      intro b X hb hx
      simp only [subformulas, List.mem_cons, List.mem_append] at hb
      rcases hb with hb | hb | hb
      · subst hb; simp [bvarOf] at hx
      · simp [binderList, ih2 b X hb hx]
      · simp [binderList, ih1 b X hb hx]
  | Diamond step g ih =>
      intro b X hb hx
      simp only [subformulas, List.mem_cons] at hb
      rcases hb with hb | hb
      · subst hb; simp [bvarOf] at hx
      · simp [binderList, ih b X hb hx]
  | Box step g ih =>
      intro b X hb hx
      simp only [subformulas, List.mem_cons] at hb
      rcases hb with hb | hb
      · subst hb; simp [bvarOf] at hx
      · simp [binderList, ih b X hb hx]
  | Mu var g ih =>
      intro b X hb hx
      simp only [subformulas, List.mem_cons] at hb
      rcases hb with hb | hb
      · subst hb; simp [bvarOf] at hx; simp [binderList, hx]
      · simp [binderList, ih b X hb hx]
  | Nu var g ih =>
      intro b X hb hx
      simp only [subformulas, List.mem_cons] at hb
      rcases hb with hb | hb
      · subst hb; simp [bvarOf] at hx; simp [binderList, hx]
      · simp [binderList, ih b X hb hx]

/-- Under the no-shadowing discipline, a binder variable determines its
binder node. -/
theorem binder_unique :
    ∀ (h : Formula), (binderList h).Nodup →
      ∀ (X : Char) (b1 b2 : Formula), b1 ∈ subformulas h →
        b2 ∈ subformulas h → bvarOf b1 = some X → bvarOf b2 = some X →
        b1 = b2 := by
  intro h
  induction h with
  | False =>
      intro _ X b1 b2 h1 h2 hx1 hx2
      simp [subformulas] at h1 h2; subst h1; subst h2; rfl
  | True =>
      intro _ X b1 b2 h1 h2 hx1 hx2
      simp [subformulas] at h1 h2; subst h1; subst h2; rfl
  | Var name =>
      intro _ X b1 b2 h1 h2 hx1 hx2
      simp [subformulas] at h1 h2; subst h1; subst h2; rfl
  | And f1 f2 ih1 ih2 =>
      intro hnd X b1 b2 h1 h2 hx1 hx2
      have hnd' := hnd
      simp only [binderList] at hnd'
      rw [List.nodup_append] at hnd'
      simp only [subformulas, List.mem_cons, List.mem_append] at h1 h2
      rcases h1 with h1 | h1 | h1
      · subst h1; simp [bvarOf] at hx1
      all_goals rcases h2 with h2 | h2 | h2
      · subst h2; simp [bvarOf] at hx2
      · exact ih2 hnd'.2.1 X b1 b2 h1 h2 hx1 hx2
      · exact absurd (bvar_mem_binderList f2 b1 X h1 hx1)
          (fun hm => hnd'.2.2 (bvar_mem_binderList f1 b2 X h2 hx2) hm)
      · subst h2; simp [bvarOf] at hx2
      · exact absurd (bvar_mem_binderList f1 b1 X h1 hx1)
          (fun hm => hnd'.2.2 hm (bvar_mem_binderList f2 b2 X h2 hx2))
      · exact ih1 hnd'.1 X b1 b2 h1 h2 hx1 hx2
  | Or f1 f2 ih1 ih2 =>
      intro hnd X b1 b2 h1 h2 hx1 hx2
      have hnd' := hnd
      simp only [binderList] at hnd'
      rw [List.nodup_append] at hnd'
      simp only [subformulas, List.mem_cons, List.mem_append] at h1 h2
      rcases h1 with h1 | h1 | h1
      · subst h1; simp [bvarOf] at hx1
      all_goals rcases h2 with h2 | h2 | h2
      · subst h2; simp [bvarOf] at hx2
      · exact ih2 hnd'.2.1 X b1 b2 h1 h2 hx1 hx2
      · exact absurd (bvar_mem_binderList f2 b1 X h1 hx1)
          (fun hm => hnd'.2.2 (bvar_mem_binderList f1 b2 X h2 hx2) hm)
      · subst h2; simp [bvarOf] at hx2
      · exact absurd (bvar_mem_binderList f1 b1 X h1 hx1)
          (fun hm => hnd'.2.2 hm (bvar_mem_binderList f2 b2 X h2 hx2))
      · exact ih1 hnd'.1 X b1 b2 h1 h2 hx1 hx2
  | Diamond step g ih =>
      intro hnd X b1 b2 h1 h2 hx1 hx2
      simp only [binderList] at hnd
      simp only [subformulas, List.mem_cons] at h1 h2
      rcases h1 with h1 | h1
      · subst h1; simp [bvarOf] at hx1
      rcases h2 with h2 | h2
      · subst h2; simp [bvarOf] at hx2
      exact ih hnd X b1 b2 h1 h2 hx1 hx2
  | Box step g ih =>
      intro hnd X b1 b2 h1 h2 hx1 hx2
      simp only [binderList] at hnd
      simp only [subformulas, List.mem_cons] at h1 h2
      rcases h1 with h1 | h1
      · subst h1; simp [bvarOf] at hx1
      rcases h2 with h2 | h2
      · subst h2; simp [bvarOf] at hx2
      exact ih hnd X b1 b2 h1 h2 hx1 hx2
  | Mu var g ih =>
      intro hnd X b1 b2 h1 h2 hx1 hx2
      simp only [binderList, List.nodup_cons] at hnd
      simp only [subformulas, List.mem_cons] at h1 h2
      rcases h1 with h1 | h1
      all_goals rcases h2 with h2 | h2
      · rw [h1, h2]
      · subst h1
        simp [bvarOf] at hx1
        rw [← hx1] at hx2
        exact absurd (bvar_mem_binderList g b2 var h2 hx2) hnd.1
      · subst h2
        simp [bvarOf] at hx2
        rw [← hx2] at hx1
        exact absurd (bvar_mem_binderList g b1 var h1 hx1) hnd.1
      · exact ih hnd.2 X b1 b2 h1 h2 hx1 hx2
  | Nu var g ih =>
      intro hnd X b1 b2 h1 h2 hx1 hx2
      simp only [binderList, List.nodup_cons] at hnd
      simp only [subformulas, List.mem_cons] at h1 h2
      rcases h1 with h1 | h1
      all_goals rcases h2 with h2 | h2
      · rw [h1, h2]
      · subst h1
        simp [bvarOf] at hx1
        rw [← hx1] at hx2
        exact absurd (bvar_mem_binderList g b2 var h2 hx2) hnd.1
      · subst h2
        simp [bvarOf] at hx2
        rw [← hx2] at hx1
        exact absurd (bvar_mem_binderList g b1 var h1 hx1) hnd.1
      · exact ih hnd.2 X b1 b2 h1 h2 hx1 hx2

/-! ### Semantic lemmas: congruence, monotonicity, boundedness -/

theorem upd_self (σ : TEnv) (var : Char) : upd σ var (σ var) = σ := by
  funext y
  unfold upd
  by_cases h : y = var <;> simp [h]

theorem readE_updE (env : Env) (x : Char) (v : Finset State) :
    readE (updE env x v) = upd (readE env) x v := by
  funext y
  unfold readE updE upd
  by_cases h : y = x <;> simp [h]

theorem readE_subset {lts : Lts} {env : Env} (h : EnvVS lts env) :
    ∀ x, readE env x ⊆ lts.states := by
  intro x
  unfold readE
  cases he : env x with
  | none => simp
  | some v => simpa using h x v he

theorem diamondSet_mono {lts : Lts} {step : Label} {s1 s2 : Finset State}
    (h : s1 ⊆ s2) : diamondSet lts step s1 ⊆ diamondSet lts step s2 := by
  intro x hx
  simp only [diamondSet, Finset.mem_filter] at hx ⊢
  obtain ⟨hx1, t, ht, hts⟩ := hx
  exact ⟨hx1, t, ht, h hts⟩

theorem boxSet_mono {lts : Lts} {step : Label} {s1 s2 : Finset State}
    (h : s1 ⊆ s2) : boxSet lts step s1 ⊆ boxSet lts step s2 := by
  intro x hx
  simp only [boxSet, Finset.mem_filter] at hx ⊢
  exact ⟨hx.1, fun t ht => h (hx.2 t ht)⟩

theorem sem_congr (lts : Lts) :
    ∀ (f : Formula) (σ σ' : TEnv),
      (∀ x ∈ (variablesOf f).used, σ x = σ' x) →
      sem lts f σ = sem lts f σ' := by
  intro f
  induction f with
  | False => intro σ σ' h; rfl
  | True => intro σ σ' h; rfl
  | Var name =>
      intro σ σ' h
      exact h name (by simp [variablesOf])
  | And f1 f2 ih1 ih2 =>
      intro σ σ' h
      simp only [sem]
      rw [ih1 σ σ' (fun x hx => h x (by simp [variablesOf]; exact Or.inl hx)),
        ih2 σ σ' (fun x hx => h x (by simp [variablesOf]; exact Or.inr hx))]
  | Or f1 f2 ih1 ih2 =>
      intro σ σ' h
      simp only [sem]
      rw [ih1 σ σ' (fun x hx => h x (by simp [variablesOf]; exact Or.inl hx)),
        ih2 σ σ' (fun x hx => h x (by simp [variablesOf]; exact Or.inr hx))]
  | Diamond step g ih =>
      intro σ σ' h
      simp only [sem]
      rw [ih σ σ' (fun x hx => h x (by simpa [variablesOf] using hx))]
  | Box step g ih =>
      intro σ σ' h
      simp only [sem]
      rw [ih σ σ' (fun x hx => h x (by simpa [variablesOf] using hx))]
  | Mu var g ih =>
      intro σ σ' h
      simp only [sem]
      have hfun : (fun v => sem lts g (upd σ var v)) =
          (fun v => sem lts g (upd σ' var v)) := by
        funext v
        refine ih _ _ (fun x hx => ?_)
        unfold upd
        by_cases hxv : x = var
        · simp [hxv]
        · simp only [if_neg hxv]
          exact h x (by simpa [variablesOf] using hx)
      rw [hfun]
  | Nu var g ih =>
      intro σ σ' h
      simp only [sem]
      have hfun : (fun v => sem lts g (upd σ var v)) =
          (fun v => sem lts g (upd σ' var v)) := by
        funext v
        refine ih _ _ (fun x hx => ?_)
        unfold upd
        by_cases hxv : x = var
        · simp [hxv]
        · simp only [if_neg hxv]
          exact h x (by simpa [variablesOf] using hx)
      rw [hfun]

theorem sem_mono (lts : Lts) :
    ∀ (f : Formula) (σ σ' : TEnv), (∀ x, σ x ⊆ σ' x) →
      sem lts f σ ⊆ sem lts f σ' := by
  intro f
  induction f with
  | False => intro σ σ' h; simp [sem]
  | True => intro σ σ' h; simp [sem]
  | Var name => intro σ σ' h; exact h name
  | And f1 f2 ih1 ih2 =>
      intro σ σ' h
      simp only [sem]
      exact Finset.inter_subset_inter (ih1 σ σ' h) (ih2 σ σ' h)
  | Or f1 f2 ih1 ih2 =>
      intro σ σ' h
      simp only [sem]
      exact Finset.union_subset_union (ih1 σ σ' h) (ih2 σ σ' h)
  | Diamond step g ih =>
      intro σ σ' h
      simp only [sem]
      exact diamondSet_mono (ih σ σ' h)
  | Box step g ih =>
      intro σ σ' h
      simp only [sem]
      exact boxSet_mono (ih σ σ' h)
  | Mu var g ih =>
      intro σ σ' h
      simp only [sem]
      unfold muIter
      have key : ∀ n, (fun v => sem lts g (upd σ var v))^[n] ∅ ⊆
          (fun v => sem lts g (upd σ' var v))^[n] ∅ := by
        intro n
        induction n with
        | zero => simp
        | succ n ihn =>
            rw [Function.iterate_succ_apply', Function.iterate_succ_apply']
            refine ih _ _ (fun x => ?_)
            unfold upd
            by_cases hxv : x = var
            · simp only [if_pos hxv]; exact ihn
            · simp only [if_neg hxv]; exact h x
      exact key _
  | Nu var g ih =>
      intro σ σ' h
      simp only [sem]
      unfold nuIter
      have key : ∀ n, (fun v => sem lts g (upd σ var v))^[n] lts.states ⊆
          (fun v => sem lts g (upd σ' var v))^[n] lts.states := by
        intro n
        induction n with
        | zero => simp
        | succ n ihn =>
            rw [Function.iterate_succ_apply', Function.iterate_succ_apply']
            refine ih _ _ (fun x => ?_)
            unfold upd
            by_cases hxv : x = var
            · simp only [if_pos hxv]; exact ihn
            · simp only [if_neg hxv]; exact h x
      exact key _

theorem sem_subset (lts : Lts) :
    ∀ (f : Formula) (σ : TEnv), (∀ x, σ x ⊆ lts.states) →
      sem lts f σ ⊆ lts.states := by
  intro f
  induction f with
  | False => intro σ h; simp [sem]
  | True => intro σ h; simp [sem]
  | Var name => intro σ h; exact h name
  | And f1 f2 ih1 ih2 =>
      intro σ h
      simp only [sem]
      exact Finset.inter_subset_left.trans (ih1 σ h)
  | Or f1 f2 ih1 ih2 =>
      intro σ h
      simp only [sem]
      exact Finset.union_subset (ih1 σ h) (ih2 σ h)
  | Diamond step g ih =>
      intro σ h
      simp only [sem, diamondSet]
      exact Finset.filter_subset _ _
  | Box step g ih =>
      intro σ h
      simp only [sem, boxSet]
      exact Finset.filter_subset _ _
  | Mu var g ih =>
      intro σ h
      simp only [sem]
      refine muIter_subset_S (fun a ha => ?_)
      refine ih _ (fun x => ?_)
      unfold upd
      by_cases hxv : x = var
      · simp only [if_pos hxv]; exact ha
      · simp only [if_neg hxv]; exact h x
  | Nu var g ih =>
      intro σ h
      simp only [sem]
      refine nuIter_subset_S (fun a ha => ?_)
      refine ih _ (fun x => ?_)
      unfold upd
      by_cases hxv : x = var
      · simp only [if_pos hxv]; exact ha
      · simp only [if_neg hxv]; exact h x

/-- Monotonicity of the body functional of a binder (spec §8, property 3),
in the form the loop lemmas consume. -/
theorem semF_mono (lts : Lts) (g : Formula) (σ : TEnv) (var : Char) :
    ∀ a b : Finset State, a ⊆ b →
      sem lts g (upd σ var a) ⊆ sem lts g (upd σ var b) := by
  intro a b hab
  refine sem_mono lts g _ _ (fun x => ?_)
  unfold upd
  by_cases hxv : x = var
  · simp only [if_pos hxv]; exact hab
  · simp only [if_neg hxv]; exact Finset.Subset.refl _

theorem semF_S (lts : Lts) (g : Formula) (σ : TEnv) (var : Char)
    (hσ : ∀ x, σ x ⊆ lts.states) :
    ∀ a : Finset State, a ⊆ lts.states →
      sem lts g (upd σ var a) ⊆ lts.states := by
  intro a ha
  refine sem_subset lts g _ (fun x => ?_)
  unfold upd
  by_cases hxv : x = var
  · simp only [if_pos hxv]; exact ha
  · simp only [if_neg hxv]; exact hσ x

/-- A fuel budget sufficient for evaluation: one unit per descent step, and
`|S| + 1` loop iterations per binder (the fixed-point bound). -/
def needFuel (c : Nat) : Formula → Nat
  | .And f1 f2 => 1 + max (needFuel c f1) (needFuel c f2)
  | .Or f1 f2 => 1 + max (needFuel c f1) (needFuel c f2)
  | .Diamond _ g => 1 + needFuel c g
  | .Box _ g => 1 + needFuel c g
  | .Mu _ g => 1 + max (c + 1) (needFuel c g)
  | .Nu _ g => 1 + max (c + 1) (needFuel c g)
  | _ => 1

theorem needFuel_pos (c : Nat) (f : Formula) : 0 < needFuel c f := by
  cases f <;> simp [needFuel]

/-- Congruence of `sem` for well-scoped formulas: only the ambient bound
variables matter. -/
theorem sem_congr_scoped (lts : Lts) :
    ∀ (f : Formula) (bv : Finset Char) (σ σ' : TEnv),
      wellScoped bv f = true → (∀ x ∈ bv, σ x = σ' x) →
      sem lts f σ = sem lts f σ' := by
  intro f
  induction f with
  | False => intro bv σ σ' hws h; rfl
  | True => intro bv σ σ' hws h; rfl
  | Var name =>
      intro bv σ σ' hws h
      simp [wellScoped] at hws
      exact h name hws
  | And f1 f2 ih1 ih2 =>
      intro bv σ σ' hws h
      simp [wellScoped] at hws
      simp only [sem]
      rw [ih1 bv σ σ' hws.1 h, ih2 bv σ σ' hws.2 h]
  | Or f1 f2 ih1 ih2 =>
      intro bv σ σ' hws h
      simp [wellScoped] at hws
      simp only [sem]
      rw [ih1 bv σ σ' hws.1 h, ih2 bv σ σ' hws.2 h]
  | Diamond step g ih =>
      intro bv σ σ' hws h
      simp only [wellScoped] at hws
      simp only [sem]
      rw [ih bv σ σ' hws h]
  | Box step g ih =>
      intro bv σ σ' hws h
      simp only [wellScoped] at hws
      simp only [sem]
      rw [ih bv σ σ' hws h]
  | Mu var g ih =>
      intro bv σ σ' hws h
      simp only [wellScoped] at hws
      simp only [sem]
      have hfun : (fun v => sem lts g (upd σ var v)) =
          (fun v => sem lts g (upd σ' var v)) := by
        funext v
        refine ih (insert var bv) _ _ hws (fun x hx => ?_)
        unfold upd
        by_cases hxv : x = var
        · simp [hxv]
        · simp only [if_neg hxv]
          exact h x (Finset.mem_of_mem_insert_of_ne hx hxv)
      rw [hfun]
  | Nu var g ih =>
      intro bv σ σ' hws h
      simp only [wellScoped] at hws
      simp only [sem]
      have hfun : (fun v => sem lts g (upd σ var v)) =
          (fun v => sem lts g (upd σ' var v)) := by
        funext v
        refine ih (insert var bv) _ _ hws (fun x hx => ?_)
        unfold upd
        by_cases hxv : x = var
        · simp [hxv]
        · simp only [if_neg hxv]
          exact h x (Finset.mem_of_mem_insert_of_ne hx hxv)
      rw [hfun]

theorem updE_same (e : Env) (x : Char) (v : Finset State) :
    updE e x v x = some v := by simp [updE]

theorem updE_other (e : Env) (x : Char) (v : Finset State) (y : Char)
    (h : y ≠ x) : updE e x v y = e y := by simp [updE, h]

theorem declared_disj_of_nodup {f1 f2 : Formula}
    (h : (binderList f1 ++ binderList f2).Nodup) :
    ∀ x, x ∈ (variablesOf f1).declared → x ∉ (variablesOf f2).declared := by
  intro x h1 h2
  rw [← mem_binderList_iff] at h1 h2
  exact (List.nodup_append.1 h).2.2 h1 h2

/-- Correctness and totality of the naive evaluator: with enough fuel, on a
well-scoped unshadowed formula and an environment defined on the ambient
variables, `eval_inner` returns exactly the denotational value, modifying
the environment only at variables bound in the formula. -/
theorem naive_correct (lts : Lts) :
    ∀ (f : Formula) (bv : Finset Char) (env : Env) (st : PState) (fuel : Nat),
      needFuel lts.states.card f ≤ fuel →
      wellScoped bv f = true →
      (binderList f).Nodup →
      Disjoint bv (variablesOf f).declared →
      (∀ x ∈ bv, (env x).isSome) →
      EnvVS lts env →
      ∃ env' st',
        Naive.eval_inner lts fuel f env st =
          some (sem lts f (readE env), env', st') ∧
        (∀ y, y ∉ (variablesOf f).declared → env' y = env y) ∧
        (∀ x ∈ (variablesOf f).declared, (env' x).isSome) ∧
        EnvVS lts env' := by
  intro f
  induction f with
  | False =>
      intro bv env st fuel hfuel hws hnd hdisj hbv hvs
      cases fuel with
      | zero => simp [needFuel] at hfuel
      | succ n =>
          exact ⟨env, st, rfl, fun y _ => rfl, fun x hx => by
            simp [variablesOf] at hx, hvs⟩
  | True =>
      intro bv env st fuel hfuel hws hnd hdisj hbv hvs
      cases fuel with
      | zero => simp [needFuel] at hfuel
      | succ n =>
          exact ⟨env, st, rfl, fun y _ => rfl, fun x hx => by
            simp [variablesOf] at hx, hvs⟩
  | Var name =>
      intro bv env st fuel hfuel hws hnd hdisj hbv hvs
      cases fuel with
      | zero => simp [needFuel] at hfuel
      | succ n =>
          simp [wellScoped] at hws
          have hsome := hbv name hws
          cases he : env name with
          | none => rw [he] at hsome; simp at hsome
          | some v =>
              refine ⟨env, st, ?_, fun y _ => rfl, fun x hx => by
                simp [variablesOf] at hx, hvs⟩
              simp only [Naive.eval_inner]
              rw [he]
              have : sem lts (.Var name) (readE env) = v := by
                simp [sem, readE, he]
              rw [this]
  | And f1 f2 ih1 ih2 =>
      intro bv env st fuel hfuel hws hnd hdisj hbv hvs
      cases fuel with
      | zero => simp [needFuel] at hfuel
      | succ n =>
          simp only [needFuel] at hfuel
          simp [wellScoped] at hws
          simp only [binderList] at hnd
          have hnd1 := (List.nodup_append.1 hnd).1
          have hnd2 := (List.nodup_append.1 hnd).2.1
          have hd12 := declared_disj_of_nodup hnd
          have hdisj1 : Disjoint bv (variablesOf f1).declared := by
            refine Finset.disjoint_left.2 (fun x hx h1 => ?_)
            exact Finset.disjoint_left.1 hdisj hx (by simp [variablesOf, h1])
          have hdisj2 : Disjoint bv (variablesOf f2).declared := by
            refine Finset.disjoint_left.2 (fun x hx h1 => ?_)
            exact Finset.disjoint_left.1 hdisj hx (by simp [variablesOf, h1])
          obtain ⟨env1, st1, heval1, hframe1, hdecl1, hvs1⟩ :=
            ih1 bv env st n (by omega) hws.1 hnd1 hdisj1 hbv hvs
          have hbv1 : ∀ x ∈ bv, (env1 x).isSome := by
            intro x hx
            rw [hframe1 x (Finset.disjoint_left.1 hdisj1 hx)]
            exact hbv x hx
          obtain ⟨env2, st2, heval2, hframe2, hdecl2, hvs2⟩ :=
            ih2 bv env1 st1 n (by omega) hws.2 hnd2 hdisj2 hbv1 hvs1
          have hsem2 : sem lts f2 (readE env1) = sem lts f2 (readE env) := by
            refine sem_congr_scoped lts f2 bv _ _ hws.2 (fun x hx => ?_)
            unfold readE
            rw [hframe1 x (Finset.disjoint_left.1 hdisj1 hx)]
          refine ⟨env2, st2, ?_, ?_, ?_, hvs2⟩
          · simp only [Naive.eval_inner]
            rw [heval1]
            dsimp only
            rw [heval2]
            simp only [sem]
            rw [hsem2]
          · intro y hy
            simp [variablesOf] at hy
            rw [hframe2 y hy.2, hframe1 y hy.1]
          · intro x hx
            simp [variablesOf] at hx
            rcases hx with hx | hx
            · rw [hframe2 x (hd12 x hx)]
              exact hdecl1 x hx
            · exact hdecl2 x hx
  | Or f1 f2 ih1 ih2 =>
      intro bv env st fuel hfuel hws hnd hdisj hbv hvs
      cases fuel with
      | zero => simp [needFuel] at hfuel
      | succ n =>
          simp only [needFuel] at hfuel
          simp [wellScoped] at hws
          simp only [binderList] at hnd
          have hnd1 := (List.nodup_append.1 hnd).1
          have hnd2 := (List.nodup_append.1 hnd).2.1
          have hd12 := declared_disj_of_nodup hnd
          have hdisj1 : Disjoint bv (variablesOf f1).declared := by
            refine Finset.disjoint_left.2 (fun x hx h1 => ?_)
            exact Finset.disjoint_left.1 hdisj hx (by simp [variablesOf, h1])
          have hdisj2 : Disjoint bv (variablesOf f2).declared := by
            refine Finset.disjoint_left.2 (fun x hx h1 => ?_)
            exact Finset.disjoint_left.1 hdisj hx (by simp [variablesOf, h1])
          obtain ⟨env1, st1, heval1, hframe1, hdecl1, hvs1⟩ :=
            ih1 bv env st n (by omega) hws.1 hnd1 hdisj1 hbv hvs
          have hbv1 : ∀ x ∈ bv, (env1 x).isSome := by
            intro x hx
            rw [hframe1 x (Finset.disjoint_left.1 hdisj1 hx)]
            exact hbv x hx
          obtain ⟨env2, st2, heval2, hframe2, hdecl2, hvs2⟩ :=
            ih2 bv env1 st1 n (by omega) hws.2 hnd2 hdisj2 hbv1 hvs1
          have hsem2 : sem lts f2 (readE env1) = sem lts f2 (readE env) := by
            refine sem_congr_scoped lts f2 bv _ _ hws.2 (fun x hx => ?_)
            unfold readE
            rw [hframe1 x (Finset.disjoint_left.1 hdisj1 hx)]
          refine ⟨env2, st2, ?_, ?_, ?_, hvs2⟩
          · simp only [Naive.eval_inner]
            rw [heval1]
            dsimp only
            rw [heval2]
            simp only [sem]
            rw [hsem2]
          · intro y hy
            simp [variablesOf] at hy
            rw [hframe2 y hy.2, hframe1 y hy.1]
          · intro x hx
            simp [variablesOf] at hx
            rcases hx with hx | hx
            · rw [hframe2 x (hd12 x hx)]
              exact hdecl1 x hx
            · exact hdecl2 x hx
  | Diamond step g ih =>
      intro bv env st fuel hfuel hws hnd hdisj hbv hvs
      cases fuel with
      | zero => simp [needFuel] at hfuel
      | succ n =>
          simp only [needFuel] at hfuel
          simp only [wellScoped] at hws
          simp only [binderList] at hnd
          have hdisj' : Disjoint bv (variablesOf g).declared := by
            refine Finset.disjoint_left.2 (fun x hx h1 => ?_)
            exact Finset.disjoint_left.1 hdisj hx (by simp [variablesOf, h1])
          obtain ⟨env1, st1, heval1, hframe1, hdecl1, hvs1⟩ :=
            ih bv env st n (by omega) hws hnd hdisj' hbv hvs
          refine ⟨env1, st1, ?_, ?_, ?_, hvs1⟩
          · simp only [Naive.eval_inner]
            rw [heval1]
            dsimp only
            simp only [sem]
          · intro y hy
            exact hframe1 y (by simpa [variablesOf] using hy)
          · intro x hx
            exact hdecl1 x (by simpa [variablesOf] using hx)
  | Box step g ih =>
      intro bv env st fuel hfuel hws hnd hdisj hbv hvs
      cases fuel with
      | zero => simp [needFuel] at hfuel
      | succ n =>
          simp only [needFuel] at hfuel
          simp only [wellScoped] at hws
          simp only [binderList] at hnd
          have hdisj' : Disjoint bv (variablesOf g).declared := by
            refine Finset.disjoint_left.2 (fun x hx h1 => ?_)
            exact Finset.disjoint_left.1 hdisj hx (by simp [variablesOf, h1])
          obtain ⟨env1, st1, heval1, hframe1, hdecl1, hvs1⟩ :=
            ih bv env st n (by omega) hws hnd hdisj' hbv hvs
          refine ⟨env1, st1, ?_, ?_, ?_, hvs1⟩
          · simp only [Naive.eval_inner]
            rw [heval1]
            dsimp only
            simp only [sem]
          · intro y hy
            exact hframe1 y (by simpa [variablesOf] using hy)
          · intro x hx
            exact hdecl1 x (by simpa [variablesOf] using hx)
  | Mu var g ih =>
      intro bv env st fuel hfuel hws hnd hdisj hbv hvs
      cases fuel with
      | zero => simp [needFuel] at hfuel
      | succ n =>
          simp only [needFuel] at hfuel
          simp only [wellScoped] at hws
          simp only [binderList, List.nodup_cons] at hnd
          have hvarbv : var ∉ bv := by
            intro hv
            exact Finset.disjoint_left.1 hdisj hv (by simp [variablesOf])
          have hvardecl : var ∉ (variablesOf g).declared := by
            rw [← mem_binderList_iff]; exact hnd.1
          have hdisj' : Disjoint (insert var bv) (variablesOf g).declared := by
            refine Finset.disjoint_left.2 (fun x hx h1 => ?_)
            rcases Finset.mem_insert.1 hx with rfl | hx
            · exact hvardecl h1
            · exact Finset.disjoint_left.1 hdisj hx
                (by simp [variablesOf, h1])
          set σ : TEnv := readE env with hσ
          set F : Finset State → Finset State :=
            fun v => sem lts g (upd σ var v) with hF
          have hmono := semF_mono lts g σ var
          have hSb := semF_S lts g σ var (readE_subset hvs)
          set P : Env → Prop := fun e =>
            (∀ x ∈ bv, (e x).isSome) ∧ EnvVS lts e ∧
            (∀ y, y ∉ (variablesOf g).declared → y ≠ var → e y = env y)
            with hP
          set Q : Env → Prop := fun e =>
            ∀ x ∈ (variablesOf g).declared, (e x).isSome with hQ
          have hQupd : ∀ e v, Q e → Q (updE e var v) := by
            intro e v hq x hx
            by_cases hxv : x = var
            · subst hxv; rw [updE_same]; rfl
            · rw [updE_other _ _ _ _ hxv]; exact hq x hx
          have hbody : ∀ e s vX, P e → e var = some vX → vX ⊆ lts.states →
              vX ⊆ F vX → vX ⊆ muIter F lts.states →
              ∃ e' s', Naive.eval_inner lts n g e s = some (F vX, e', s') ∧
                e' var = some vX ∧ P (updE e' var (F vX)) ∧ Q e' := by
            intro e s vX hPe hev hvXS _ _
            obtain ⟨hbve, hvse, hfre⟩ := hPe
            have hbv' : ∀ x ∈ insert var bv, (e x).isSome := by
              intro x hx
              rcases Finset.mem_insert.1 hx with rfl | hx
              · rw [hev]; rfl
              · exact hbve x hx
            obtain ⟨e', s', heval, hframe, hdecl, hvs'⟩ :=
              ih (insert var bv) e s n (by omega) hws hnd.2 hdisj' hbv' hvse
            have hsemeq : sem lts g (readE e) = F vX := by
              refine sem_congr_scoped lts g (insert var bv) _ _ hws
                (fun x hx => ?_)
              rcases Finset.mem_insert.1 hx with rfl | hx
              · unfold readE upd
                rw [hev]
                simp
              · have hxvar : x ≠ var := fun hh => hvarbv (hh ▸ hx)
                unfold readE upd
                rw [if_neg hxvar, hfre x (fun hd => Finset.disjoint_left.1
                  hdisj' (Finset.mem_insert_of_mem hx) hd) hxvar]
                rfl
            rw [hsemeq] at heval
            refine ⟨e', s', heval, ?_, ?_, hdecl⟩
            · rw [hframe var hvardecl, hev]
            · refine ⟨?_, EnvVS_updE hvs' (hSb vX hvXS), ?_⟩
              · intro x hx
                have hxvar : x ≠ var := fun hh => hvarbv (hh ▸ hx)
                rw [updE_other _ _ _ _ hxvar,
                  hframe x (fun hd => Finset.disjoint_left.1 hdisj'
                    (Finset.mem_insert_of_mem hx) hd)]
                exact hbve x hx
              · intro y hyd hyv
                rw [updE_other _ _ _ _ hyv, hframe y hyd]
                exact hfre y hyd hyv
          have hP0 : P (updE env var ∅) := by
            refine ⟨?_, EnvVS_updE hvs (Finset.empty_subset _), ?_⟩
            · intro x hx
              have hxvar : x ≠ var := fun hh => hvarbv (hh ▸ hx)
              rw [updE_other _ _ _ _ hxvar]
              exact hbv x hx
            · intro y _ hyv
              exact updE_other _ _ _ _ hyv
          obtain ⟨eF, sF, heq, hPF, hQF, hvF⟩ :=
            fixIter_mu_spec lts Naive.tick
              (fun e s => Naive.eval_inner lts n g e s) var F P Q hmono hSb
              hQupd hbody n (updE env var ∅) st ∅ hP0 (updE_same _ _ _)
              (Finset.empty_subset _) (Finset.empty_subset _)
              (Finset.empty_subset _) (by simp; omega)
          refine ⟨eF, sF, ?_, ?_, ?_, hPF.2.1⟩
          · simp only [Naive.eval_inner]
            rw [heq]
            simp only [sem]
          · intro y hy
            simp [variablesOf] at hy
            exact hPF.2.2 y hy.2 hy.1
          · intro x hx
            simp [variablesOf] at hx
            rcases hx with rfl | hx
            · rw [hvF]; rfl
            · exact hQF x hx
  | Nu var g ih =>
      intro bv env st fuel hfuel hws hnd hdisj hbv hvs
      cases fuel with
      | zero => simp [needFuel] at hfuel
      | succ n =>
          simp only [needFuel] at hfuel
          simp only [wellScoped] at hws
          simp only [binderList, List.nodup_cons] at hnd
          have hvarbv : var ∉ bv := by
            intro hv
            exact Finset.disjoint_left.1 hdisj hv (by simp [variablesOf])
          have hvardecl : var ∉ (variablesOf g).declared := by
            rw [← mem_binderList_iff]; exact hnd.1
          have hdisj' : Disjoint (insert var bv) (variablesOf g).declared := by
            refine Finset.disjoint_left.2 (fun x hx h1 => ?_)
            rcases Finset.mem_insert.1 hx with rfl | hx
            · exact hvardecl h1
            · exact Finset.disjoint_left.1 hdisj hx
                (by simp [variablesOf, h1])
          set σ : TEnv := readE env with hσ
          set F : Finset State → Finset State :=
            fun v => sem lts g (upd σ var v) with hF
          have hmono := semF_mono lts g σ var
          have hSb := semF_S lts g σ var (readE_subset hvs)
          set P : Env → Prop := fun e =>
            (∀ x ∈ bv, (e x).isSome) ∧ EnvVS lts e ∧
            (∀ y, y ∉ (variablesOf g).declared → y ≠ var → e y = env y)
            with hP
          set Q : Env → Prop := fun e =>
            ∀ x ∈ (variablesOf g).declared, (e x).isSome with hQ
          have hQupd : ∀ e v, Q e → Q (updE e var v) := by
            intro e v hq x hx
            by_cases hxv : x = var
            · subst hxv; rw [updE_same]; rfl
            · rw [updE_other _ _ _ _ hxv]; exact hq x hx
          have hbody : ∀ e s vX, P e → e var = some vX → vX ⊆ lts.states →
              F vX ⊆ vX → nuIter F lts.states ⊆ vX →
              ∃ e' s', Naive.eval_inner lts n g e s = some (F vX, e', s') ∧
                e' var = some vX ∧ P (updE e' var (F vX)) ∧ Q e' := by
            intro e s vX hPe hev hvXS _ _
            obtain ⟨hbve, hvse, hfre⟩ := hPe
            have hbv' : ∀ x ∈ insert var bv, (e x).isSome := by
              intro x hx
              rcases Finset.mem_insert.1 hx with rfl | hx
              · rw [hev]; rfl
              · exact hbve x hx
            obtain ⟨e', s', heval, hframe, hdecl, hvs'⟩ :=
              ih (insert var bv) e s n (by omega) hws hnd.2 hdisj' hbv' hvse
            have hsemeq : sem lts g (readE e) = F vX := by
              refine sem_congr_scoped lts g (insert var bv) _ _ hws
                (fun x hx => ?_)
              rcases Finset.mem_insert.1 hx with rfl | hx
              · unfold readE upd
                rw [hev]
                simp
              · have hxvar : x ≠ var := fun hh => hvarbv (hh ▸ hx)
                unfold readE upd
                rw [if_neg hxvar, hfre x (fun hd => Finset.disjoint_left.1
                  hdisj' (Finset.mem_insert_of_mem hx) hd) hxvar]
                rfl
            rw [hsemeq] at heval
            refine ⟨e', s', heval, ?_, ?_, hdecl⟩
            · rw [hframe var hvardecl, hev]
            · refine ⟨?_, EnvVS_updE hvs' (hSb vX hvXS), ?_⟩
              · intro x hx
                have hxvar : x ≠ var := fun hh => hvarbv (hh ▸ hx)
                rw [updE_other _ _ _ _ hxvar,
                  hframe x (fun hd => Finset.disjoint_left.1 hdisj'
                    (Finset.mem_insert_of_mem hx) hd)]
                exact hbve x hx
              · intro y hyd hyv
                rw [updE_other _ _ _ _ hyv, hframe y hyd]
                exact hfre y hyd hyv
          have hP0 : P (updE env var lts.states) := by
            refine ⟨?_, EnvVS_updE hvs (Finset.Subset.refl _), ?_⟩
            · intro x hx
              have hxvar : x ≠ var := fun hh => hvarbv (hh ▸ hx)
              rw [updE_other _ _ _ _ hxvar]
              exact hbv x hx
            · intro y _ hyv
              exact updE_other _ _ _ _ hyv
          obtain ⟨eF, sF, heq, hPF, hQF, hvF⟩ :=
            fixIter_nu_spec lts Naive.tick
              (fun e s => Naive.eval_inner lts n g e s) var F P Q hmono hSb
              hQupd hbody n (updE env var lts.states) st lts.states hP0
              (updE_same _ _ _) (Finset.Subset.refl _)
              (hSb lts.states (Finset.Subset.refl _))
              (nuIter_subset_S hSb)
              (by
                have hns : nuIter F lts.states ⊆ lts.states :=
                  nuIter_subset_S hSb
                have := Finset.card_le_card hns
                omega)
          refine ⟨eF, sF, ?_, ?_, ?_, hPF.2.1⟩
          · simp only [Naive.eval_inner]
            rw [heq]
            simp only [sem]
          · intro y hy
            simp [variablesOf] at hy
            exact hPF.2.2 y hy.2 hy.1
          · intro x hx
            simp [variablesOf] at hx
            rcases hx with rfl | hx
            · rw [hvF]; rfl
            · exact hQF x hx

/-- **C6.** A fixed-point loop started from the initial binding — `∅` for a
μ-binder, the full state set for a ν-binder, exactly how the naive
evaluator enters every loop — stabilizes within at most `|S| + 1`
iterations: the loop run with iteration budget `|S| + 1` returns a result
(each executed iteration consumes one unit of budget). -/
theorem C6_fixpoint_loop_bound (lts : Lts) (var : Char) (g : Formula)
    (bv : Finset Char) (env : Env) (st st2 : PState) (fuel : Nat)
    (hfuel : needFuel lts.states.card g ≤ fuel)
    (hws : wellScoped (insert var bv) g = true)
    (hnd : (binderList (.Mu var g)).Nodup)
    (hdisj : Disjoint bv (variablesOf (.Mu var g)).declared)
    (hbv : ∀ x ∈ bv, (env x).isSome)
    (hvs : EnvVS lts env) :
    (fixIter Naive.tick (fun e s => Naive.eval_inner lts fuel g e s) var
        (lts.states.card + 1) (updE env var ∅) st).isSome ∧
    (fixIter Naive.tick (fun e s => Naive.eval_inner lts fuel g e s) var
        (lts.states.card + 1) (updE env var lts.states) st2).isSome := by
  simp only [binderList, List.nodup_cons] at hnd
  have hvarbv : var ∉ bv := by
    intro hv
    exact Finset.disjoint_left.1 hdisj hv (by simp [variablesOf])
  have hvardecl : var ∉ (variablesOf g).declared := by
    rw [← mem_binderList_iff]; exact hnd.1
  have hdisj' : Disjoint (insert var bv) (variablesOf g).declared := by
    refine Finset.disjoint_left.2 (fun x hx h1 => ?_)
    rcases Finset.mem_insert.1 hx with rfl | hx
    · exact hvardecl h1
    · exact Finset.disjoint_left.1 hdisj hx (by simp [variablesOf, h1])
  set σ : TEnv := readE env with hσ
  set F : Finset State → Finset State :=
    fun v => sem lts g (upd σ var v) with hF
  have hmono := semF_mono lts g σ var
  have hSb := semF_S lts g σ var (readE_subset hvs)
  set P : Env → Prop := fun e =>
    (∀ x ∈ bv, (e x).isSome) ∧ EnvVS lts e ∧
    (∀ y, y ∉ (variablesOf g).declared → y ≠ var → e y = env y) with hP
  set Q : Env → Prop := fun e =>
    ∀ x ∈ (variablesOf g).declared, (e x).isSome with hQ
  have hQupd : ∀ e v, Q e → Q (updE e var v) := by
    intro e v hq x hx
    by_cases hxv : x = var
    · subst hxv; rw [updE_same]; rfl
    · rw [updE_other _ _ _ _ hxv]; exact hq x hx
  have hbodyCore : ∀ e s vX, P e → e var = some vX → vX ⊆ lts.states →
      ∃ e' s', Naive.eval_inner lts fuel g e s = some (F vX, e', s') ∧
        e' var = some vX ∧ P (updE e' var (F vX)) ∧ Q e' := by
    intro e s vX hPe hev hvXS
    obtain ⟨hbve, hvse, hfre⟩ := hPe
    have hbv' : ∀ x ∈ insert var bv, (e x).isSome := by
      intro x hx
      rcases Finset.mem_insert.1 hx with rfl | hx
      · rw [hev]; rfl
      · exact hbve x hx
    obtain ⟨e', s', heval, hframe, hdecl, hvs'⟩ :=
      naive_correct lts g (insert var bv) e s fuel hfuel hws hnd.2 hdisj'
        hbv' hvse
    have hsemeq : sem lts g (readE e) = F vX := by
      refine sem_congr_scoped lts g (insert var bv) _ _ hws (fun x hx => ?_)
      rcases Finset.mem_insert.1 hx with rfl | hx
      · unfold readE upd
        rw [hev]
        simp
      · have hxvar : x ≠ var := fun hh => hvarbv (hh ▸ hx)
        unfold readE upd
        rw [if_neg hxvar, hfre x (fun hd => Finset.disjoint_left.1
          hdisj' (Finset.mem_insert_of_mem hx) hd) hxvar]
        rfl
    rw [hsemeq] at heval
    refine ⟨e', s', heval, ?_, ?_, hdecl⟩
    · rw [hframe var hvardecl, hev]
    · refine ⟨?_, EnvVS_updE hvs' (hSb vX hvXS), ?_⟩
      · intro x hx
        have hxvar : x ≠ var := fun hh => hvarbv (hh ▸ hx)
        rw [updE_other _ _ _ _ hxvar,
          hframe x (fun hd => Finset.disjoint_left.1 hdisj'
            (Finset.mem_insert_of_mem hx) hd)]
        exact hbve x hx
      · intro y hyd hyv
        rw [updE_other _ _ _ _ hyv, hframe y hyd]
        exact hfre y hyd hyv
  have hPmu : P (updE env var ∅) := by
    refine ⟨?_, EnvVS_updE hvs (Finset.empty_subset _), ?_⟩
    · intro x hx
      have hxvar : x ≠ var := fun hh => hvarbv (hh ▸ hx)
      rw [updE_other _ _ _ _ hxvar]
      exact hbv x hx
    · intro y _ hyv
      exact updE_other _ _ _ _ hyv
  have hPnu : P (updE env var lts.states) := by
    refine ⟨?_, EnvVS_updE hvs (Finset.Subset.refl _), ?_⟩
    · intro x hx
      have hxvar : x ≠ var := fun hh => hvarbv (hh ▸ hx)
      rw [updE_other _ _ _ _ hxvar]
      exact hbv x hx
    · intro y _ hyv
      exact updE_other _ _ _ _ hyv
  constructor
  · obtain ⟨eF, sF, heq, _⟩ :=
      fixIter_mu_spec lts Naive.tick
        (fun e s => Naive.eval_inner lts fuel g e s) var F P Q hmono hSb
        hQupd (fun e s vX hPe hev hvXS _ _ => hbodyCore e s vX hPe hev hvXS)
        (lts.states.card + 1) (updE env var ∅) st ∅ hPmu (updE_same _ _ _)
        (Finset.empty_subset _) (Finset.empty_subset _)
        (Finset.empty_subset _) (by simp)
    rw [heq]
    rfl
  · obtain ⟨eF, sF, heq, _⟩ :=
      fixIter_nu_spec lts Naive.tick
        (fun e s => Naive.eval_inner lts fuel g e s) var F P Q hmono hSb
        hQupd (fun e s vX hPe hev hvXS _ _ => hbodyCore e s vX hPe hev hvXS)
        (lts.states.card + 1) (updE env var lts.states) st2 lts.states hPnu
        (updE_same _ _ _) (Finset.Subset.refl _)
        (hSb lts.states (Finset.Subset.refl _)) (nuIter_subset_S hSb)
        (by omega)
    rw [heq]
    rfl

theorem C6_fixpoint_loop_bound_witness :
    (fixIter Naive.tick
        (fun e s => Naive.eval_inner L0 10 (.Var 'X') e s) 'X'
        (L0.states.card + 1) (updE emptyEnv 'X' ∅) ⟨0, 0⟩).isSome ∧
    (fixIter Naive.tick
        (fun e s => Naive.eval_inner L0 10 (.Var 'X') e s) 'X'
        (L0.states.card + 1) (updE emptyEnv 'X' L0.states) ⟨0, 0⟩).isSome :=
  C6_fixpoint_loop_bound L0 'X' (.Var 'X') ∅ emptyEnv ⟨0, 0⟩ ⟨0, 0⟩ 10
    (by decide) (by decide) (by decide) (by decide)
    (fun x hx => by simp at hx) (fun X v h => by simp [emptyEnv] at h)

/-! ## Emerson–Lei invariants

The improved evaluator's correctness rests on two facts about stored
binder values: for a μ-variable the stored set is below both one
application of its body functional and the fixed point itself (`GoodMu`),
dually for ν (`GoodNu`).  `Reaches p b h` states that `b` occurs in `h`
with every fixed-point node strictly above it (inside `h`) of polarity `p`
(`true` = μ): exactly the binders whose stored value survives to their next
entry without an intervening reset. -/

def GoodMu (lts : Lts) (env : Env) (X : Char) (gX : Formula) : Prop :=
  readE env X ⊆ sem lts gX (readE env) ∧
  readE env X ⊆ sem lts (.Mu X gX) (readE env)

def GoodNu (lts : Lts) (env : Env) (X : Char) (gX : Formula) : Prop :=
  sem lts gX (readE env) ⊆ readE env X ∧
  sem lts (.Nu X gX) (readE env) ⊆ readE env X

def Reaches (p : Bool) (b : Formula) : Formula → Prop
  | .False => .False = b
  | .True => .True = b
  | .Var n => .Var n = b
  | .And f1 f2 => .And f1 f2 = b ∨ Reaches p b f1 ∨ Reaches p b f2
  | .Or f1 f2 => .Or f1 f2 = b ∨ Reaches p b f1 ∨ Reaches p b f2
  | .Diamond step g => .Diamond step g = b ∨ Reaches p b g
  | .Box step g => .Box step g = b ∨ Reaches p b g
  | .Mu v g => .Mu v g = b ∨ (p = true ∧ Reaches p b g)
  | .Nu v g => .Nu v g = b ∨ (p = false ∧ Reaches p b g)

theorem Reaches_mem {p : Bool} {b : Formula} :
    ∀ h : Formula, Reaches p b h → b ∈ subformulas h := by
  intro h
  induction h with
  | False => intro hr; rw [← hr]; exact self_mem_subformulas _
  | True => intro hr; rw [← hr]; exact self_mem_subformulas _
  | Var n => intro hr; rw [← hr]; exact self_mem_subformulas _
  | And f1 f2 ih1 ih2 =>
      intro hr
      rcases hr with hr | hr | hr
      · rw [← hr]; exact self_mem_subformulas _
      · simp [subformulas]; tauto
      · simp [subformulas]; tauto
  | Or f1 f2 ih1 ih2 =>
      intro hr
      rcases hr with hr | hr | hr
      · rw [← hr]; exact self_mem_subformulas _
      · simp [subformulas]; tauto
      · simp [subformulas]; tauto
  | Diamond step g ih =>
      intro hr
      rcases hr with hr | hr
      · rw [← hr]; exact self_mem_subformulas _
      · simp [subformulas]; tauto
  | Box step g ih =>
      intro hr
      rcases hr with hr | hr
      · rw [← hr]; exact self_mem_subformulas _
      · simp [subformulas]; tauto
  | Mu v g ih =>
      intro hr
      rcases hr with hr | ⟨_, hr⟩
      · rw [← hr]; exact self_mem_subformulas _
      · simp [subformulas]; tauto
  | Nu v g ih =>
      intro hr
      rcases hr with hr | ⟨_, hr⟩
      · rw [← hr]; exact self_mem_subformulas _
      · simp [subformulas]; tauto

def prevOk : Option Formula → Prop
  | none => True
  | some pf => pf.is_mu = true ∨ pf.is_nu = true

/-- `GoodMu` depends only on the environment's reading at `X` and the used
variables of the body. -/
theorem GoodMu_congr {lts : Lts} {env env' : Env} {X : Char} {gX : Formula}
    (hag : ∀ x ∈ insert X (variablesOf gX).used, readE env x = readE env' x)
    (h : GoodMu lts env X gX) : GoodMu lts env' X gX := by
  have hgx : sem lts gX (readE env) = sem lts gX (readE env') :=
    sem_congr lts gX _ _ (fun x hx => hag x (Finset.mem_insert_of_mem hx))
  have hmu : sem lts (.Mu X gX) (readE env) =
      sem lts (.Mu X gX) (readE env') :=
    sem_congr lts _ _ _ (fun x hx => hag x (by
      simpa [variablesOf] using Finset.mem_insert_of_mem hx))
  have hX : readE env X = readE env' X := hag X (Finset.mem_insert_self _ _)
  exact ⟨hX ▸ hgx ▸ h.1, hX ▸ hmu ▸ h.2⟩

theorem GoodNu_congr {lts : Lts} {env env' : Env} {X : Char} {gX : Formula}
    (hag : ∀ x ∈ insert X (variablesOf gX).used, readE env x = readE env' x)
    (h : GoodNu lts env X gX) : GoodNu lts env' X gX := by
  have hgx : sem lts gX (readE env) = sem lts gX (readE env') :=
    sem_congr lts gX _ _ (fun x hx => hag x (Finset.mem_insert_of_mem hx))
  have hmu : sem lts (.Nu X gX) (readE env) =
      sem lts (.Nu X gX) (readE env') :=
    sem_congr lts _ _ _ (fun x hx => hag x (by
      simpa [variablesOf] using Finset.mem_insert_of_mem hx))
  have hX : readE env X = readE env' X := hag X (Finset.mem_insert_self _ _)
  exact ⟨hX ▸ hgx ▸ h.1, hX ▸ hmu ▸ h.2⟩

/-- `GoodMu` is preserved when the environment grows pointwise while the
value at `X` is unchanged. -/
theorem GoodMu_mono {lts : Lts} {env env' : Env} {X : Char} {gX : Formula}
    (hX : readE env X = readE env' X)
    (hgrow : ∀ x, readE env x ⊆ readE env' x)
    (h : GoodMu lts env X gX) : GoodMu lts env' X gX := by
  constructor
  · rw [← hX]
    exact h.1.trans (sem_mono lts gX _ _ hgrow)
  · rw [← hX]
    exact h.2.trans (sem_mono lts _ _ _ hgrow)

/-- Dually, `GoodNu` is preserved under pointwise shrinking. -/
theorem GoodNu_anti {lts : Lts} {env env' : Env} {X : Char} {gX : Formula}
    (hX : readE env X = readE env' X)
    (hshrink : ∀ x, readE env' x ⊆ readE env x)
    (h : GoodNu lts env X gX) : GoodNu lts env' X gX := by
  constructor
  · rw [← hX]
    exact (sem_mono lts gX _ _ hshrink).trans h.1
  · rw [← hX]
    exact (sem_mono lts _ _ _ hshrink).trans h.2

/-- Scoping can be strengthened to any ambient set containing the used
ambient variables. -/
theorem wellScoped_anti :
    ∀ (f : Formula) (bv bv' : Finset Char), wellScoped bv f = true →
      (∀ x ∈ (variablesOf f).used, x ∈ bv → x ∈ bv') →
      wellScoped bv' f = true := by
  intro f
  induction f with
  | False => intro bv bv' h hsub; rfl
  | True => intro bv bv' h hsub; rfl
  | Var name =>
      intro bv bv' h hsub
      simp [wellScoped] at h ⊢
      exact hsub name (by simp [variablesOf]) h
  | And f1 f2 ih1 ih2 =>
      intro bv bv' h hsub
      simp [wellScoped] at h ⊢
      exact ⟨ih1 bv bv' h.1 (fun x hx => hsub x (by simp [variablesOf]; tauto)),
        ih2 bv bv' h.2 (fun x hx => hsub x (by simp [variablesOf]; tauto))⟩
  | Or f1 f2 ih1 ih2 =>
      intro bv bv' h hsub
      simp [wellScoped] at h ⊢
      exact ⟨ih1 bv bv' h.1 (fun x hx => hsub x (by simp [variablesOf]; tauto)),
        ih2 bv bv' h.2 (fun x hx => hsub x (by simp [variablesOf]; tauto))⟩
  | Diamond step g ih =>
      intro bv bv' h hsub
      simp only [wellScoped] at h ⊢
      exact ih bv bv' h (fun x hx => hsub x (by simpa [variablesOf] using hx))
  | Box step g ih =>
      intro bv bv' h hsub
      simp only [wellScoped] at h ⊢
      exact ih bv bv' h (fun x hx => hsub x (by simpa [variablesOf] using hx))
  | Mu var g ih =>
      intro bv bv' h hsub
      simp only [wellScoped] at h ⊢
      refine ih (insert var bv) (insert var bv') h (fun x hx hxb => ?_)
      rcases Finset.mem_insert.1 hxb with rfl | hxb
      · exact Finset.mem_insert_self _ _
      · exact Finset.mem_insert_of_mem
          (hsub x (by simpa [variablesOf] using hx) hxb)
  | Nu var g ih =>
      intro bv bv' h hsub
      simp only [wellScoped] at h ⊢
      refine ih (insert var bv) (insert var bv') h (fun x hx hxb => ?_)
      rcases Finset.mem_insert.1 hxb with rfl | hxb
      · exact Finset.mem_insert_self _ _
      · exact Finset.mem_insert_of_mem
          (hsub x (by simpa [variablesOf] using hx) hxb)

/-- A formula that is closed and sits inside a well-scoped, unshadowed
context is itself well-scoped with empty ambient set. -/
theorem closed_self_scoped {b : Formula} {bv : Finset Char}
    (hws : wellScoped bv b = true)
    (hdisj : Disjoint bv (variablesOf b).declared)
    (hcl : (variablesOf b).used ⊆ (variablesOf b).declared) :
    wellScoped ∅ b = true :=
  wellScoped_anti b bv ∅ hws (fun x hx hxbv =>
    absurd (hcl hx) (Finset.disjoint_left.1 hdisj hxbv))

theorem closed_scoped :
    ∀ (h : Formula) (bv : Finset Char), wellScoped bv h = true →
      (binderList h).Nodup → Disjoint bv (variablesOf h).declared →
      ∀ b ∈ subformulas h,
        (variablesOf b).used ⊆ (variablesOf b).declared →
        wellScoped ∅ b = true := by
  intro h
  induction h with
  | False =>
      intro bv hws hnd hdisj b hb hcl
      simp [subformulas] at hb; subst hb; rfl
  | True =>
      intro bv hws hnd hdisj b hb hcl
      simp [subformulas] at hb; subst hb; rfl
  | Var name =>
      intro bv hws hnd hdisj b hb hcl
      simp [subformulas] at hb; subst hb
      simp [variablesOf] at hcl
  | And f1 f2 ih1 ih2 =>
      intro bv hws hnd hdisj b hb hcl
      simp only [wellScoped, Bool.and_eq_true] at hws
      have hnd1 : (binderList f1).Nodup := (List.nodup_append.1 hnd).1
      have hnd2 : (binderList f2).Nodup := (List.nodup_append.1 hnd).2.1
      have hd1 : Disjoint bv (variablesOf f1).declared :=
        Finset.disjoint_of_subset_right Finset.subset_union_left hdisj
      have hd2 : Disjoint bv (variablesOf f2).declared :=
        Finset.disjoint_of_subset_right Finset.subset_union_right hdisj
      rcases (by simpa [subformulas] using hb :
          b = Formula.And f1 f2 ∨ b ∈ subformulas f2 ∨ b ∈ subformulas f1) with
        rfl | hb' | hb'
      · exact closed_self_scoped (by simp [wellScoped, hws.1, hws.2]) hdisj hcl
      · exact ih2 bv hws.2 hnd2 hd2 b hb' hcl
      · exact ih1 bv hws.1 hnd1 hd1 b hb' hcl
  | Or f1 f2 ih1 ih2 =>
      intro bv hws hnd hdisj b hb hcl
      simp only [wellScoped, Bool.and_eq_true] at hws
      have hnd1 : (binderList f1).Nodup := (List.nodup_append.1 hnd).1
      have hnd2 : (binderList f2).Nodup := (List.nodup_append.1 hnd).2.1
      have hd1 : Disjoint bv (variablesOf f1).declared :=
        Finset.disjoint_of_subset_right Finset.subset_union_left hdisj
      have hd2 : Disjoint bv (variablesOf f2).declared :=
        Finset.disjoint_of_subset_right Finset.subset_union_right hdisj
      rcases (by simpa [subformulas] using hb :
          b = Formula.Or f1 f2 ∨ b ∈ subformulas f2 ∨ b ∈ subformulas f1) with
        rfl | hb' | hb'
      · exact closed_self_scoped (by simp [wellScoped, hws.1, hws.2]) hdisj hcl
      · exact ih2 bv hws.2 hnd2 hd2 b hb' hcl
      · exact ih1 bv hws.1 hnd1 hd1 b hb' hcl
  | Diamond step g ih =>
      intro bv hws hnd hdisj b hb hcl
      simp only [wellScoped] at hws
      rcases (by simpa [subformulas] using hb :
          b = Formula.Diamond step g ∨ b ∈ subformulas g) with rfl | hb'
      · exact closed_self_scoped (by simpa [wellScoped] using hws) hdisj hcl
      · exact ih bv hws hnd hdisj b hb' hcl
  | Box step g ih =>
      intro bv hws hnd hdisj b hb hcl
      simp only [wellScoped] at hws
      rcases (by simpa [subformulas] using hb :
          b = Formula.Box step g ∨ b ∈ subformulas g) with rfl | hb'
      · exact closed_self_scoped (by simpa [wellScoped] using hws) hdisj hcl
      · exact ih bv hws hnd hdisj b hb' hcl
  | Mu var g ih =>
      intro bv hws hnd hdisj b hb hcl
      simp only [wellScoped] at hws
      have hnd' : (binderList g).Nodup := (List.nodup_cons.1 hnd).2
      have hvg : var ∉ binderList g := (List.nodup_cons.1 hnd).1
      have hdisj' : Disjoint (insert var bv) (variablesOf g).declared := by
        rw [Finset.disjoint_left]
        intro x hx hxd
        rcases Finset.mem_insert.1 hx with rfl | hx
        · exact hvg ((mem_binderList_iff g x).2 hxd)
        · exact Finset.disjoint_left.1 hdisj hx
            (Finset.mem_insert_of_mem hxd)
      rcases (by simpa [subformulas] using hb :
          b = Formula.Mu var g ∨ b ∈ subformulas g) with rfl | hb'
      · exact closed_self_scoped (show wellScoped bv (.Mu var g) = true from hws)
          hdisj hcl
      · exact ih (insert var bv) hws hnd' hdisj' b hb' hcl
  | Nu var g ih =>
      intro bv hws hnd hdisj b hb hcl
      simp only [wellScoped] at hws
      have hnd' : (binderList g).Nodup := (List.nodup_cons.1 hnd).2
      have hvg : var ∉ binderList g := (List.nodup_cons.1 hnd).1
      have hdisj' : Disjoint (insert var bv) (variablesOf g).declared := by
        rw [Finset.disjoint_left]
        intro x hx hxd
        rcases Finset.mem_insert.1 hx with rfl | hx
        · exact hvg ((mem_binderList_iff g x).2 hxd)
        · exact Finset.disjoint_left.1 hdisj hx
            (Finset.mem_insert_of_mem hxd)
      rcases (by simpa [subformulas] using hb :
          b = Formula.Nu var g ∨ b ∈ subformulas g) with rfl | hb'
      · exact closed_self_scoped (show wellScoped bv (.Nu var g) = true from hws)
          hdisj hcl
      · exact ih (insert var bv) hws hnd' hdisj' b hb' hcl

/-- For a closed binder, `GoodMu` depends only on the value at its own
variable. -/
theorem GoodMu_closed_congr {lts : Lts} {env env' : Env} {X : Char}
    {gX : Formula} (hws : wellScoped ∅ (.Mu X gX) = true)
    (hX : readE env X = readE env' X)
    (h : GoodMu lts env X gX) : GoodMu lts env' X gX := by
  have hwg : wellScoped (insert X ∅) gX = true := hws
  have hgx : sem lts gX (readE env) = sem lts gX (readE env') :=
    sem_congr_scoped lts gX (insert X ∅) _ _ hwg (fun x hx => by
      rcases Finset.mem_insert.1 hx with rfl | hx
      · exact hX
      · exact absurd hx (Finset.not_mem_empty x))
  have hmu : sem lts (.Mu X gX) (readE env) =
      sem lts (.Mu X gX) (readE env') :=
    sem_congr_scoped lts _ ∅ _ _ hws
      (fun x hx => absurd hx (Finset.not_mem_empty x))
  exact ⟨hX ▸ hgx ▸ h.1, hX ▸ hmu ▸ h.2⟩

theorem GoodNu_closed_congr {lts : Lts} {env env' : Env} {X : Char}
    {gX : Formula} (hws : wellScoped ∅ (.Nu X gX) = true)
    (hX : readE env X = readE env' X)
    (h : GoodNu lts env X gX) : GoodNu lts env' X gX := by
  have hwg : wellScoped (insert X ∅) gX = true := hws
  have hgx : sem lts gX (readE env) = sem lts gX (readE env') :=
    sem_congr_scoped lts gX (insert X ∅) _ _ hwg (fun x hx => by
      rcases Finset.mem_insert.1 hx with rfl | hx
      · exact hX
      · exact absurd hx (Finset.not_mem_empty x))
  have hmu : sem lts (.Nu X gX) (readE env) =
      sem lts (.Nu X gX) (readE env') :=
    sem_congr_scoped lts _ ∅ _ _ hws
      (fun x hx => absurd hx (Finset.not_mem_empty x))
  exact ⟨hX ▸ hgx ▸ h.1, hX ▸ hmu ▸ h.2⟩

/-- Pre-condition of `Improved.eval_inner lts fuel h prev env`: every open
binder of `h` that is reachable through same-polarity binders only carries a
good stored value, provided `prev` does not force a reset of its polarity;
closed binders carry good values unconditionally. -/
structure PreG (lts : Lts) (h : Formula) (prev : Option Formula)
    (env : Env) : Prop where
  mu_open : ∀ X gX, Formula.Mu X gX ∈ subformulas h →
    (Formula.Mu X gX).is_open = true → Reaches true (.Mu X gX) h →
    (prev = none ∨ ∃ pf, prev = some pf ∧ pf.is_mu = true) →
    GoodMu lts env X gX
  nu_open : ∀ X gX, Formula.Nu X gX ∈ subformulas h →
    (Formula.Nu X gX).is_open = true → Reaches false (.Nu X gX) h →
    (prev = none ∨ ∃ pf, prev = some pf ∧ pf.is_nu = true) →
    GoodNu lts env X gX
  mu_closed : ∀ X gX, Formula.Mu X gX ∈ subformulas h →
    (Formula.Mu X gX).is_open = false → GoodMu lts env X gX
  nu_closed : ∀ X gX, Formula.Nu X gX ∈ subformulas h →
    (Formula.Nu X gX).is_open = false → GoodNu lts env X gX

/-- Post-condition: same-polarity-reachable binders and closed binders carry
good stored values, with no condition on `prev`. -/
structure PostG (lts : Lts) (h : Formula) (env : Env) : Prop where
  mu_reach : ∀ X gX, Formula.Mu X gX ∈ subformulas h →
    Reaches true (.Mu X gX) h → GoodMu lts env X gX
  nu_reach : ∀ X gX, Formula.Nu X gX ∈ subformulas h →
    Reaches false (.Nu X gX) h → GoodNu lts env X gX
  mu_closed : ∀ X gX, Formula.Mu X gX ∈ subformulas h →
    (Formula.Mu X gX).is_open = false → GoodMu lts env X gX
  nu_closed : ∀ X gX, Formula.Nu X gX ∈ subformulas h →
    (Formula.Nu X gX).is_open = false → GoodNu lts env X gX

theorem PreG_And_left {lts : Lts} {f1 f2 : Formula} {prev : Option Formula}
    {env : Env} (h : PreG lts (.And f1 f2) prev env) : PreG lts f1 prev env := by
  refine ⟨?_, ?_, ?_, ?_⟩
  · intro X gX hm ho hr hc
    exact h.mu_open X gX (by simp [subformulas]; tauto) ho
      (by simp only [Reaches]; tauto) hc
  · intro X gX hm ho hr hc
    exact h.nu_open X gX (by simp [subformulas]; tauto) ho
      (by simp only [Reaches]; tauto) hc
  · intro X gX hm ho
    exact h.mu_closed X gX (by simp [subformulas]; tauto) ho
  · intro X gX hm ho
    exact h.nu_closed X gX (by simp [subformulas]; tauto) ho

theorem PreG_And_right {lts : Lts} {f1 f2 : Formula} {prev : Option Formula}
    {env : Env} (h : PreG lts (.And f1 f2) prev env) : PreG lts f2 prev env := by
  refine ⟨?_, ?_, ?_, ?_⟩
  · intro X gX hm ho hr hc
    exact h.mu_open X gX (by simp [subformulas]; tauto) ho
      (by simp only [Reaches]; tauto) hc
  · intro X gX hm ho hr hc
    exact h.nu_open X gX (by simp [subformulas]; tauto) ho
      (by simp only [Reaches]; tauto) hc
  · intro X gX hm ho
    exact h.mu_closed X gX (by simp [subformulas]; tauto) ho
  · intro X gX hm ho
    exact h.nu_closed X gX (by simp [subformulas]; tauto) ho

theorem PreG_Or_left {lts : Lts} {f1 f2 : Formula} {prev : Option Formula}
    {env : Env} (h : PreG lts (.Or f1 f2) prev env) : PreG lts f1 prev env := by
  refine ⟨?_, ?_, ?_, ?_⟩
  · intro X gX hm ho hr hc
    exact h.mu_open X gX (by simp [subformulas]; tauto) ho
      (by simp only [Reaches]; tauto) hc
  · intro X gX hm ho hr hc
    exact h.nu_open X gX (by simp [subformulas]; tauto) ho
      (by simp only [Reaches]; tauto) hc
  · intro X gX hm ho
    exact h.mu_closed X gX (by simp [subformulas]; tauto) ho
  · intro X gX hm ho
    exact h.nu_closed X gX (by simp [subformulas]; tauto) ho

theorem PreG_Or_right {lts : Lts} {f1 f2 : Formula} {prev : Option Formula}
    {env : Env} (h : PreG lts (.Or f1 f2) prev env) : PreG lts f2 prev env := by
  refine ⟨?_, ?_, ?_, ?_⟩
  · intro X gX hm ho hr hc
    exact h.mu_open X gX (by simp [subformulas]; tauto) ho
      (by simp only [Reaches]; tauto) hc
  · intro X gX hm ho hr hc
    exact h.nu_open X gX (by simp [subformulas]; tauto) ho
      (by simp only [Reaches]; tauto) hc
  · intro X gX hm ho
    exact h.mu_closed X gX (by simp [subformulas]; tauto) ho
  · intro X gX hm ho
    exact h.nu_closed X gX (by simp [subformulas]; tauto) ho

theorem PreG_Diamond {lts : Lts} {step : Label} {g : Formula}
    {prev : Option Formula} {env : Env}
    (h : PreG lts (.Diamond step g) prev env) : PreG lts g prev env := by
  refine ⟨?_, ?_, ?_, ?_⟩
  · intro X gX hm ho hr hc
    exact h.mu_open X gX (by simp [subformulas]; tauto) ho
      (by simp only [Reaches]; tauto) hc
  · intro X gX hm ho hr hc
    exact h.nu_open X gX (by simp [subformulas]; tauto) ho
      (by simp only [Reaches]; tauto) hc
  · intro X gX hm ho
    exact h.mu_closed X gX (by simp [subformulas]; tauto) ho
  · intro X gX hm ho
    exact h.nu_closed X gX (by simp [subformulas]; tauto) ho

theorem PreG_Box {lts : Lts} {step : Label} {g : Formula}
    {prev : Option Formula} {env : Env}
    (h : PreG lts (.Box step g) prev env) : PreG lts g prev env := by
  refine ⟨?_, ?_, ?_, ?_⟩
  · intro X gX hm ho hr hc
    exact h.mu_open X gX (by simp [subformulas]; tauto) ho
      (by simp only [Reaches]; tauto) hc
  · intro X gX hm ho hr hc
    exact h.nu_open X gX (by simp [subformulas]; tauto) ho
      (by simp only [Reaches]; tauto) hc
  · intro X gX hm ho
    exact h.mu_closed X gX (by simp [subformulas]; tauto) ho
  · intro X gX hm ho
    exact h.nu_closed X gX (by simp [subformulas]; tauto) ho

theorem PostG_And {lts : Lts} {env : Env} {f1 f2 : Formula}
    (h1 : PostG lts f1 env) (h2 : PostG lts f2 env) :
    PostG lts (.And f1 f2) env := by
  refine ⟨?_, ?_, ?_, ?_⟩
  · intro X gX hm hr
    rcases hr with hr | hr | hr
    · simp at hr
    · exact h1.mu_reach X gX (Reaches_mem f1 hr) hr
    · exact h2.mu_reach X gX (Reaches_mem f2 hr) hr
  · intro X gX hm hr
    rcases hr with hr | hr | hr
    · simp at hr
    · exact h1.nu_reach X gX (Reaches_mem f1 hr) hr
    · exact h2.nu_reach X gX (Reaches_mem f2 hr) hr
  · intro X gX hm ho
    rcases (by simpa [subformulas] using hm :
        Formula.Mu X gX ∈ subformulas f2 ∨ Formula.Mu X gX ∈ subformulas f1)
      with hm' | hm'
    · exact h2.mu_closed X gX hm' ho
    · exact h1.mu_closed X gX hm' ho
  · intro X gX hm ho
    rcases (by simpa [subformulas] using hm :
        Formula.Nu X gX ∈ subformulas f2 ∨ Formula.Nu X gX ∈ subformulas f1)
      with hm' | hm'
    · exact h2.nu_closed X gX hm' ho
    · exact h1.nu_closed X gX hm' ho

theorem PostG_Or {lts : Lts} {env : Env} {f1 f2 : Formula}
    (h1 : PostG lts f1 env) (h2 : PostG lts f2 env) :
    PostG lts (.Or f1 f2) env := by
  refine ⟨?_, ?_, ?_, ?_⟩
  · intro X gX hm hr
    rcases hr with hr | hr | hr
    · simp at hr
    · exact h1.mu_reach X gX (Reaches_mem f1 hr) hr
    · exact h2.mu_reach X gX (Reaches_mem f2 hr) hr
  · intro X gX hm hr
    rcases hr with hr | hr | hr
    · simp at hr
    · exact h1.nu_reach X gX (Reaches_mem f1 hr) hr
    · exact h2.nu_reach X gX (Reaches_mem f2 hr) hr
  · intro X gX hm ho
    rcases (by simpa [subformulas] using hm :
        Formula.Mu X gX ∈ subformulas f2 ∨ Formula.Mu X gX ∈ subformulas f1)
      with hm' | hm'
    · exact h2.mu_closed X gX hm' ho
    · exact h1.mu_closed X gX hm' ho
  · intro X gX hm ho
    rcases (by simpa [subformulas] using hm :
        Formula.Nu X gX ∈ subformulas f2 ∨ Formula.Nu X gX ∈ subformulas f1)
      with hm' | hm'
    · exact h2.nu_closed X gX hm' ho
    · exact h1.nu_closed X gX hm' ho

theorem PostG_Diamond {lts : Lts} {env : Env} {step : Label} {g : Formula}
    (h1 : PostG lts g env) : PostG lts (.Diamond step g) env := by
  refine ⟨?_, ?_, ?_, ?_⟩
  · intro X gX hm hr
    rcases hr with hr | hr
    · simp at hr
    · exact h1.mu_reach X gX (Reaches_mem g hr) hr
  · intro X gX hm hr
    rcases hr with hr | hr
    · simp at hr
    · exact h1.nu_reach X gX (Reaches_mem g hr) hr
  · intro X gX hm ho
    exact h1.mu_closed X gX (by simpa [subformulas] using hm) ho
  · intro X gX hm ho
    exact h1.nu_closed X gX (by simpa [subformulas] using hm) ho

theorem PostG_Box {lts : Lts} {env : Env} {step : Label} {g : Formula}
    (h1 : PostG lts g env) : PostG lts (.Box step g) env := by
  refine ⟨?_, ?_, ?_, ?_⟩
  · intro X gX hm hr
    rcases hr with hr | hr
    · simp at hr
    · exact h1.mu_reach X gX (Reaches_mem g hr) hr
  · intro X gX hm hr
    rcases hr with hr | hr
    · simp at hr
    · exact h1.nu_reach X gX (Reaches_mem g hr) hr
  · intro X gX hm ho
    exact h1.mu_closed X gX (by simpa [subformulas] using hm) ho
  · intro X gX hm ho
    exact h1.nu_closed X gX (by simpa [subformulas] using hm) ho

/-- `PreG` transfers between environments agreeing on the ambient and
declared variables of `h`. -/
theorem PreG_congr {lts : Lts} {h : Formula} {prev : Option Formula}
    {env env' : Env} {bv : Finset Char}
    (hws : wellScoped bv h = true)
    (hag : ∀ x, x ∈ bv ∪ (variablesOf h).declared →
      readE env x = readE env' x)
    (hpg : PreG lts h prev env) : PreG lts h prev env' := by
  have key : ∀ (X : Char) (gX b : Formula), b ∈ subformulas h →
      (variablesOf b).used = (variablesOf gX).used →
      X ∈ (variablesOf b).declared →
      ∀ x ∈ insert X (variablesOf gX).used, readE env x = readE env' x := by
    intro X gX b hb hused hX x hx
    apply hag
    rcases Finset.mem_insert.1 hx with rfl | hx
    · exact Finset.mem_union_right _ (declared_sub_of_mem h b hb hX)
    · have hx' : x ∈ (variablesOf b).used := by rw [hused]; exact hx
      exact used_subset_scoped h bv hws (used_sub_of_mem h b hb hx')
  refine ⟨?_, ?_, ?_, ?_⟩
  · intro X gX hm ho hr hc
    exact GoodMu_congr
      (key X gX _ hm rfl (Finset.mem_insert_self _ _))
      (hpg.mu_open X gX hm ho hr hc)
  · intro X gX hm ho hr hc
    exact GoodNu_congr
      (key X gX _ hm rfl (Finset.mem_insert_self _ _))
      (hpg.nu_open X gX hm ho hr hc)
  · intro X gX hm ho
    exact GoodMu_congr
      (key X gX _ hm rfl (Finset.mem_insert_self _ _))
      (hpg.mu_closed X gX hm ho)
  · intro X gX hm ho
    exact GoodNu_congr
      (key X gX _ hm rfl (Finset.mem_insert_self _ _))
      (hpg.nu_closed X gX hm ho)

theorem PostG_congr {lts : Lts} {h : Formula} {env env' : Env}
    {bv : Finset Char} (hws : wellScoped bv h = true)
    (hag : ∀ x, x ∈ bv ∪ (variablesOf h).declared →
      readE env x = readE env' x)
    (hpg : PostG lts h env) : PostG lts h env' := by
  have key : ∀ (X : Char) (gX b : Formula), b ∈ subformulas h →
      (variablesOf b).used = (variablesOf gX).used →
      X ∈ (variablesOf b).declared →
      ∀ x ∈ insert X (variablesOf gX).used, readE env x = readE env' x := by
    intro X gX b hb hused hX x hx
    apply hag
    rcases Finset.mem_insert.1 hx with rfl | hx
    · exact Finset.mem_union_right _ (declared_sub_of_mem h b hb hX)
    · have hx' : x ∈ (variablesOf b).used := by rw [hused]; exact hx
      exact used_subset_scoped h bv hws (used_sub_of_mem h b hb hx')
  refine ⟨?_, ?_, ?_, ?_⟩
  · intro X gX hm hr
    exact GoodMu_congr
      (key X gX _ hm rfl (Finset.mem_insert_self _ _))
      (hpg.mu_reach X gX hm hr)
  · intro X gX hm hr
    exact GoodNu_congr
      (key X gX _ hm rfl (Finset.mem_insert_self _ _))
      (hpg.nu_reach X gX hm hr)
  · intro X gX hm ho
    exact GoodMu_congr
      (key X gX _ hm rfl (Finset.mem_insert_self _ _))
      (hpg.mu_closed X gX hm ho)
  · intro X gX hm ho
    exact GoodNu_congr
      (key X gX _ hm rfl (Finset.mem_insert_self _ _))
      (hpg.nu_closed X gX hm ho)

/-! ## Environment walks of `improved.rs` (`reset_fixpoints`, pre-seeding)

Both walks fold an environment update over a subformula list; each list
element either writes one variable or leaves the environment unchanged,
captured by a selector function. -/

def selStep (sel : Formula → Option (Char × Finset State)) :
    Env → Formula → Env :=
  fun e b =>
    match sel b with
    | none => e
    | some yv => updE e yv.1 yv.2

theorem foldl_sel_frame (sel : Formula → Option (Char × Finset State))
    (step : Env → Formula → Env)
    (hstep : ∀ e a, step e a = selStep sel e a) :
    ∀ (l : List Formula) (env : Env) (x : Char),
      (∀ a ∈ l, ∀ v, sel a ≠ some (x, v)) →
      (List.foldl step env l) x = env x := by
  intro l
  induction l with
  | nil => intro env x _; rfl
  | cons a l ih =>
      intro env x h
      rw [List.foldl_cons,
        ih (step env a) x (fun b hb v => h b (List.mem_cons_of_mem a hb) v),
        hstep]
      unfold selStep
      cases hsel : sel a with
      | none => rfl
      | some yv =>
          refine updE_other env yv.1 yv.2 x (fun hx => ?_)
          exact h a (List.mem_cons_self a l) yv.2 (by rw [hsel, hx])

theorem foldl_sel_write (sel : Formula → Option (Char × Finset State))
    (step : Env → Formula → Env)
    (hstep : ∀ e a, step e a = selStep sel e a) :
    ∀ (l : List Formula) (env : Env) (x : Char) (v : Finset State),
      (∀ a ∈ l, ∀ w, sel a = some (x, w) → w = v) →
      (∃ a ∈ l, sel a = some (x, v)) →
      (List.foldl step env l) x = some v := by
  intro l
  induction l with
  | nil => intro env x v _ hex; simp at hex
  | cons a l ih =>
      intro env x v huniq hex
      rw [List.foldl_cons]
      by_cases hl : ∃ b ∈ l, sel b = some (x, v)
      · exact ih (step env a) x v
          (fun b hb => huniq b (List.mem_cons_of_mem a hb)) hl
      · obtain ⟨b, hb, hsb⟩ := hex
        rcases List.mem_cons.1 hb with heq | hb'
        · subst heq
          have hnol : ∀ c ∈ l, ∀ w, sel c ≠ some (x, w) := by
            intro c hc w hw
            exact hl ⟨c, hc, by
              rw [hw, huniq c (List.mem_cons_of_mem b hc) w hw]⟩
          rw [foldl_sel_frame sel step hstep l (step env b) x hnol, hstep]
          unfold selStep
          rw [hsb]
          simp [updE]
        · exact absurd ⟨b, hb', hsb⟩ hl

theorem foldl_sel_isSome (sel : Formula → Option (Char × Finset State))
    (step : Env → Formula → Env)
    (hstep : ∀ e a, step e a = selStep sel e a) :
    ∀ (l : List Formula) (env : Env) (x : Char),
      (env x).isSome = true → ((List.foldl step env l) x).isSome = true := by
  intro l
  induction l with
  | nil => intro env x h; exact h
  | cons a l ih =>
      intro env x h
      rw [List.foldl_cons]
      apply ih
      rw [hstep]
      unfold selStep
      cases hsel : sel a with
      | none => exact h
      | some yv =>
          dsimp only
          by_cases hx : x = yv.1
          · simp [updE, hx]
          · rw [updE_other env yv.1 yv.2 x hx]; exact h

theorem foldl_sel_some_of_write (sel : Formula → Option (Char × Finset State))
    (step : Env → Formula → Env)
    (hstep : ∀ e a, step e a = selStep sel e a) :
    ∀ (l : List Formula) (env : Env) (x : Char),
      (∃ a ∈ l, ∃ v, sel a = some (x, v)) →
      ((List.foldl step env l) x).isSome = true := by
  intro l
  induction l with
  | nil => intro env x h; simp at h
  | cons a l ih =>
      intro env x hex
      obtain ⟨b, hb, v, hsb⟩ := hex
      rw [List.foldl_cons]
      rcases List.mem_cons.1 hb with heq | hb'
      · subst heq
        apply foldl_sel_isSome sel step hstep l (step env b) x
        rw [hstep]
        unfold selStep
        rw [hsb]
        simp [updE]
      · exact ih (step env a) x ⟨b, hb', v, hsb⟩

theorem foldl_sel_EnvVS (lts : Lts)
    (sel : Formula → Option (Char × Finset State))
    (step : Env → Formula → Env)
    (hstep : ∀ e a, step e a = selStep sel e a)
    (hselS : ∀ a y v, sel a = some (y, v) → v ⊆ lts.states) :
    ∀ (l : List Formula) (env : Env),
      EnvVS lts env → EnvVS lts (List.foldl step env l) := by
  refine fun l env h => foldl_EnvVS lts step ?_ l env h
  intro e a he
  rw [hstep]
  unfold selStep
  cases hsel : sel a with
  | none => exact he
  | some yv => exact EnvVS_updE he (hselS a yv.1 yv.2 (by rw [hsel]))

theorem binder_declared {h b : Formula} {X : Char}
    (hb : b ∈ subformulas h) (hx : bvarOf b = some X) :
    X ∈ (variablesOf h).declared :=
  (mem_binderList_iff h X).1 (bvar_mem_binderList h b X hb hx)

theorem declared_iff_binder :
    ∀ (f : Formula) (X : Char), X ∈ (variablesOf f).declared ↔
      ∃ gX, Formula.Mu X gX ∈ subformulas f ∨
        Formula.Nu X gX ∈ subformulas f := by
  intro f
  induction f with
  | False => intro X; simp [variablesOf, subformulas]
  | True => intro X; simp [variablesOf, subformulas]
  | Var name => intro X; simp [variablesOf, subformulas]
  | And f1 f2 ih1 ih2 =>
      intro X
      simp only [variablesOf, Finset.mem_union]
      constructor
      · rintro (h | h)
        · obtain ⟨gX, hg | hg⟩ := (ih1 X).1 h
          · exact ⟨gX, Or.inl (by simp [subformulas]; tauto)⟩
          · exact ⟨gX, Or.inr (by simp [subformulas]; tauto)⟩
        · obtain ⟨gX, hg | hg⟩ := (ih2 X).1 h
          · exact ⟨gX, Or.inl (by simp [subformulas]; tauto)⟩
          · exact ⟨gX, Or.inr (by simp [subformulas]; tauto)⟩
      · rintro ⟨gX, hg | hg⟩
        · rcases (by simpa [subformulas] using hg :
              Formula.Mu X gX ∈ subformulas f2 ∨
                Formula.Mu X gX ∈ subformulas f1) with h | h
          · exact Or.inr ((ih2 X).2 ⟨gX, Or.inl h⟩)
          · exact Or.inl ((ih1 X).2 ⟨gX, Or.inl h⟩)
        · rcases (by simpa [subformulas] using hg :
              Formula.Nu X gX ∈ subformulas f2 ∨
                Formula.Nu X gX ∈ subformulas f1) with h | h
          · exact Or.inr ((ih2 X).2 ⟨gX, Or.inr h⟩)
          · exact Or.inl ((ih1 X).2 ⟨gX, Or.inr h⟩)
  | Or f1 f2 ih1 ih2 =>
      intro X
      simp only [variablesOf, Finset.mem_union]
      constructor
      · rintro (h | h)
        · obtain ⟨gX, hg | hg⟩ := (ih1 X).1 h
          · exact ⟨gX, Or.inl (by simp [subformulas]; tauto)⟩
          · exact ⟨gX, Or.inr (by simp [subformulas]; tauto)⟩
        · obtain ⟨gX, hg | hg⟩ := (ih2 X).1 h
          · exact ⟨gX, Or.inl (by simp [subformulas]; tauto)⟩
          · exact ⟨gX, Or.inr (by simp [subformulas]; tauto)⟩
      · rintro ⟨gX, hg | hg⟩
        · rcases (by simpa [subformulas] using hg :
              Formula.Mu X gX ∈ subformulas f2 ∨
                Formula.Mu X gX ∈ subformulas f1) with h | h
          · exact Or.inr ((ih2 X).2 ⟨gX, Or.inl h⟩)
          · exact Or.inl ((ih1 X).2 ⟨gX, Or.inl h⟩)
        · rcases (by simpa [subformulas] using hg :
              Formula.Nu X gX ∈ subformulas f2 ∨
                Formula.Nu X gX ∈ subformulas f1) with h | h
          · exact Or.inr ((ih2 X).2 ⟨gX, Or.inr h⟩)
          · exact Or.inl ((ih1 X).2 ⟨gX, Or.inr h⟩)
  | Diamond step g ih =>
      intro X
      simp only [variablesOf]
      constructor
      · intro h
        obtain ⟨gX, hg | hg⟩ := (ih X).1 h
        · exact ⟨gX, Or.inl (by simp [subformulas]; tauto)⟩
        · exact ⟨gX, Or.inr (by simp [subformulas]; tauto)⟩
      · rintro ⟨gX, hg | hg⟩
        · exact (ih X).2 ⟨gX, Or.inl (by simpa [subformulas] using hg)⟩
        · exact (ih X).2 ⟨gX, Or.inr (by simpa [subformulas] using hg)⟩
  | Box step g ih =>
      intro X
      simp only [variablesOf]
      constructor
      · intro h
        obtain ⟨gX, hg | hg⟩ := (ih X).1 h
        · exact ⟨gX, Or.inl (by simp [subformulas]; tauto)⟩
        · exact ⟨gX, Or.inr (by simp [subformulas]; tauto)⟩
      · rintro ⟨gX, hg | hg⟩
        · exact (ih X).2 ⟨gX, Or.inl (by simpa [subformulas] using hg)⟩
        · exact (ih X).2 ⟨gX, Or.inr (by simpa [subformulas] using hg)⟩
  | Mu var g ih =>
      intro X
      simp only [variablesOf, Finset.mem_insert]
      constructor
      · rintro (rfl | h)
        · exact ⟨g, Or.inl (self_mem_subformulas _)⟩
        · obtain ⟨gX, hg | hg⟩ := (ih X).1 h
          · exact ⟨gX, Or.inl (by simp [subformulas]; tauto)⟩
          · exact ⟨gX, Or.inr (by simp [subformulas]; tauto)⟩
      · rintro ⟨gX, hg | hg⟩
        · rcases (by simpa [subformulas] using hg :
              (X = var ∧ gX = g) ∨ Formula.Mu X gX ∈ subformulas g) with
            ⟨rfl, rfl⟩ | h
          · left; rfl
          · right; exact (ih X).2 ⟨gX, Or.inl h⟩
        · have h : Formula.Nu X gX ∈ subformulas g := by
            simpa [subformulas] using hg
          right; exact (ih X).2 ⟨gX, Or.inr h⟩
  | Nu var g ih =>
      intro X
      simp only [variablesOf, Finset.mem_insert]
      constructor
      · rintro (rfl | h)
        · exact ⟨g, Or.inr (self_mem_subformulas _)⟩
        · obtain ⟨gX, hg | hg⟩ := (ih X).1 h
          · exact ⟨gX, Or.inl (by simp [subformulas]; tauto)⟩
          · exact ⟨gX, Or.inr (by simp [subformulas]; tauto)⟩
      · rintro ⟨gX, hg | hg⟩
        · have h : Formula.Mu X gX ∈ subformulas g := by
            simpa [subformulas] using hg
          right; exact (ih X).2 ⟨gX, Or.inl h⟩
        · rcases (by simpa [subformulas] using hg :
              (X = var ∧ gX = g) ∨ Formula.Nu X gX ∈ subformulas g) with
            ⟨rfl, rfl⟩ | h
          · left; rfl
          · right; exact (ih X).2 ⟨gX, Or.inr h⟩

/-- Selector of the μ-reset walk: open μ-binders are written to `∅`. -/
def selResetMu : Formula → Option (Char × Finset State)
  | .Mu v g => if (Formula.Mu v g).is_open then some (v, ∅) else none
  | _ => none

/-- Selector of the ν-reset walk: open ν-binders are written to `S`. -/
def selResetNu (lts : Lts) : Formula → Option (Char × Finset State)
  | .Nu v g => if (Formula.Nu v g).is_open then some (v, lts.states) else none
  | _ => none

/-- Selector of the pre-seeding walk: μ-binders to `∅`, ν-binders to `S`. -/
def selSeed (lts : Lts) : Formula → Option (Char × Finset State)
  | .Mu v _ => some (v, ∅)
  | .Nu v _ => some (v, lts.states)
  | _ => none

theorem selResetMu_eq_some {a : Formula} {y : Char} {v : Finset State} :
    selResetMu a = some (y, v) ↔
      ∃ gy, a = Formula.Mu y gy ∧ (Formula.Mu y gy).is_open = true ∧
        v = ∅ := by
  cases a with
  | Mu v' bg =>
      simp only [selResetMu]
      constructor
      · intro hsel
        split at hsel
        next ho =>
          simp only [Option.some.injEq, Prod.mk.injEq] at hsel
          obtain ⟨rfl, rfl⟩ := hsel
          exact ⟨bg, rfl, ho, rfl⟩
        next => exact Option.noConfusion hsel
      · rintro ⟨gy, heq, ho, rfl⟩
        obtain ⟨rfl, rfl⟩ := Formula.Mu.inj heq
        rw [if_pos ho]
  | False => simp [selResetMu]
  | True => simp [selResetMu]
  | Var name => simp [selResetMu]
  | And f1 f2 => simp [selResetMu]
  | Or f1 f2 => simp [selResetMu]
  | Diamond step g => simp [selResetMu]
  | Box step g => simp [selResetMu]
  | Nu v' bg => simp [selResetMu]

theorem selResetNu_eq_some {lts : Lts} {a : Formula} {y : Char}
    {v : Finset State} :
    selResetNu lts a = some (y, v) ↔
      ∃ gy, a = Formula.Nu y gy ∧ (Formula.Nu y gy).is_open = true ∧
        v = lts.states := by
  cases a with
  | Nu v' bg =>
      simp only [selResetNu]
      constructor
      · intro hsel
        split at hsel
        next ho =>
          simp only [Option.some.injEq, Prod.mk.injEq] at hsel
          obtain ⟨rfl, rfl⟩ := hsel
          exact ⟨bg, rfl, ho, rfl⟩
        next => exact Option.noConfusion hsel
      · rintro ⟨gy, heq, ho, rfl⟩
        obtain ⟨rfl, rfl⟩ := Formula.Nu.inj heq
        rw [if_pos ho]
  | False => simp [selResetNu]
  | True => simp [selResetNu]
  | Var name => simp [selResetNu]
  | And f1 f2 => simp [selResetNu]
  | Or f1 f2 => simp [selResetNu]
  | Diamond step g => simp [selResetNu]
  | Box step g => simp [selResetNu]
  | Mu v' bg => simp [selResetNu]

theorem selSeed_eq_some {lts : Lts} {a : Formula} {y : Char}
    {v : Finset State} :
    selSeed lts a = some (y, v) ↔
      (∃ gy, a = Formula.Mu y gy ∧ v = ∅) ∨
      (∃ gy, a = Formula.Nu y gy ∧ v = lts.states) := by
  cases a with
  | Mu v' bg =>
      simp only [selSeed, Option.some.injEq, Prod.mk.injEq]
      constructor
      · rintro ⟨rfl, rfl⟩
        exact Or.inl ⟨bg, rfl, rfl⟩
      · rintro (⟨gy, heq, rfl⟩ | ⟨gy, heq, rfl⟩)
        · obtain ⟨rfl, rfl⟩ := Formula.Mu.inj heq
          exact ⟨rfl, rfl⟩
        · exact Formula.noConfusion heq
  | Nu v' bg =>
      simp only [selSeed, Option.some.injEq, Prod.mk.injEq]
      constructor
      · rintro ⟨rfl, rfl⟩
        exact Or.inr ⟨bg, rfl, rfl⟩
      · rintro (⟨gy, heq, rfl⟩ | ⟨gy, heq, rfl⟩)
        · exact Formula.noConfusion heq
        · obtain ⟨rfl, rfl⟩ := Formula.Nu.inj heq
          exact ⟨rfl, rfl⟩
  | False => simp [selSeed]
  | True => simp [selSeed]
  | Var name => simp [selSeed]
  | And f1 f2 => simp [selSeed]
  | Or f1 f2 => simp [selSeed]
  | Diamond step g => simp [selSeed]
  | Box step g => simp [selSeed]

theorem foldl_ext (f1 f2 : Env → Formula → Env)
    (hpt : ∀ e a, f1 e a = f2 e a) :
    ∀ (l : List Formula) (env : Env),
      List.foldl f1 env l = List.foldl f2 env l := by
  intro l
  induction l with
  | nil => intro env; rfl
  | cons a t ih =>
      intro env
      rw [List.foldl_cons, List.foldl_cons, hpt]
      exact ih _

theorem resetMu_foldl (lts : Lts) (var : Char) (g : Formula) (env : Env) :
    Improved.reset_fixpoints lts (.Mu var g) env =
      some (List.foldl (selStep selResetMu) env
        (subformulas (.Mu var g))) := by
  simp only [Improved.reset_fixpoints, Option.some.injEq]
  refine foldl_ext _ _ ?_ _ _
  intro e b
  cases b with
  | Mu v bg =>
      cases ho : (Formula.Mu v bg).is_open <;>
        simp [selStep, selResetMu, ho]
  | False => rfl
  | True => rfl
  | Var name => rfl
  | And f1 f2 => rfl
  | Or f1 f2 => rfl
  | Diamond step g' => rfl
  | Box step g' => rfl
  | Nu v bg => rfl

theorem resetNu_foldl (lts : Lts) (var : Char) (g : Formula) (env : Env) :
    Improved.reset_fixpoints lts (.Nu var g) env =
      some (List.foldl (selStep (selResetNu lts)) env
        (subformulas (.Nu var g))) := by
  simp only [Improved.reset_fixpoints, Option.some.injEq]
  refine foldl_ext _ _ ?_ _ _
  intro e b
  cases b with
  | Nu v bg =>
      cases ho : (Formula.Nu v bg).is_open <;>
        simp [selStep, selResetNu, ho]
  | False => rfl
  | True => rfl
  | Var name => rfl
  | And f1 f2 => rfl
  | Or f1 f2 => rfl
  | Diamond step g' => rfl
  | Box step g' => rfl
  | Mu v bg => rfl

/-- What the μ-reset walk does: open μ-binder variables of the subtree go
to `∅`; variables that are not the variable of any open μ-binder of the
subtree are untouched; definedness and the value-subset invariant are
preserved. -/
theorem resetMu_spec (lts : Lts) (var : Char) (g : Formula) (env : Env) :
    ∃ env1, Improved.reset_fixpoints lts (.Mu var g) env = some env1 ∧
      (∀ y, (∀ gy, Formula.Mu y gy ∈ subformulas (.Mu var g) →
          (Formula.Mu y gy).is_open = false) → env1 y = env y) ∧
      (∀ y gy, Formula.Mu y gy ∈ subformulas (.Mu var g) →
          (Formula.Mu y gy).is_open = true → env1 y = some ∅) ∧
      (∀ y, (env y).isSome = true → (env1 y).isSome = true) ∧
      (EnvVS lts env → EnvVS lts env1) := by
  refine ⟨_, resetMu_foldl lts var g env, ?_, ?_, ?_, ?_⟩
  · intro y hno
    refine foldl_sel_frame selResetMu _ (fun _ _ => rfl) _ env y ?_
    intro a ha v hsel
    obtain ⟨gy, rfl, ho, rfl⟩ := selResetMu_eq_some.1 hsel
    exact absurd ho (by simp [hno gy ha])
  · intro y gy hmem ho
    refine foldl_sel_write selResetMu _ (fun _ _ => rfl) _ env y ∅ ?_
      ⟨Formula.Mu y gy, hmem, selResetMu_eq_some.2 ⟨gy, rfl, ho, rfl⟩⟩
    intro a ha w hsel
    obtain ⟨gy', rfl, ho', rfl⟩ := selResetMu_eq_some.1 hsel
    rfl
  · intro y h
    exact foldl_sel_isSome selResetMu _ (fun _ _ => rfl) _ env y h
  · intro hvs
    refine foldl_sel_EnvVS lts selResetMu _ (fun _ _ => rfl) ?_ _ env hvs
    intro a y v hsel
    obtain ⟨gy, rfl, ho, rfl⟩ := selResetMu_eq_some.1 hsel
    exact Finset.empty_subset _

/-- Dual of `resetMu_spec` for the ν-reset walk. -/
theorem resetNu_spec (lts : Lts) (var : Char) (g : Formula) (env : Env) :
    ∃ env1, Improved.reset_fixpoints lts (.Nu var g) env = some env1 ∧
      (∀ y, (∀ gy, Formula.Nu y gy ∈ subformulas (.Nu var g) →
          (Formula.Nu y gy).is_open = false) → env1 y = env y) ∧
      (∀ y gy, Formula.Nu y gy ∈ subformulas (.Nu var g) →
          (Formula.Nu y gy).is_open = true → env1 y = some lts.states) ∧
      (∀ y, (env y).isSome = true → (env1 y).isSome = true) ∧
      (EnvVS lts env → EnvVS lts env1) := by
  refine ⟨_, resetNu_foldl lts var g env, ?_, ?_, ?_, ?_⟩
  · intro y hno
    refine foldl_sel_frame (selResetNu lts) _ (fun _ _ => rfl) _ env y ?_
    intro a ha v hsel
    obtain ⟨gy, rfl, ho, rfl⟩ := selResetNu_eq_some.1 hsel
    exact absurd ho (by simp [hno gy ha])
  · intro y gy hmem ho
    refine foldl_sel_write (selResetNu lts) _ (fun _ _ => rfl) _ env y
      lts.states ?_
      ⟨Formula.Nu y gy, hmem, selResetNu_eq_some.2 ⟨gy, rfl, ho, rfl⟩⟩
    intro a ha w hsel
    obtain ⟨gy', rfl, ho', rfl⟩ := selResetNu_eq_some.1 hsel
    rfl
  · intro y h
    exact foldl_sel_isSome (selResetNu lts) _ (fun _ _ => rfl) _ env y h
  · intro hvs
    refine foldl_sel_EnvVS lts (selResetNu lts) _ (fun _ _ => rfl) ?_ _ env hvs
    intro a y v hsel
    obtain ⟨gy, rfl, ho, rfl⟩ := selResetNu_eq_some.1 hsel
    exact Finset.Subset.refl _

/-- What the pre-seeding walk of `improved::eval` produces: every declared
variable is bound; under no-shadowing, μ-variables are bound to `∅` and
ν-variables to the full state set; everything else is unbound. -/
theorem preSeed_spec (lts : Lts) (f : Formula)
    (hnd : (binderList f).Nodup) :
    (∀ X, X ∈ (variablesOf f).declared →
        (Improved.preSeed lts f X).isSome = true) ∧
    (∀ X gX, Formula.Mu X gX ∈ subformulas f →
        Improved.preSeed lts f X = some ∅) ∧
    (∀ X gX, Formula.Nu X gX ∈ subformulas f →
        Improved.preSeed lts f X = some lts.states) ∧
    EnvVS lts (Improved.preSeed lts f) ∧
    (∀ X, X ∉ (variablesOf f).declared → Improved.preSeed lts f X = none) := by
  have hps : Improved.preSeed lts f =
      List.foldl (selStep (selSeed lts)) emptyEnv (subformulas f) := by
    simp only [Improved.preSeed]
    refine foldl_ext _ _ ?_ _ _
    intro e b
    cases b with
    | Mu v bg => simp [selStep, selSeed]
    | Nu v bg => simp [selStep, selSeed]
    | False => rfl
    | True => rfl
    | Var name => rfl
    | And f1 f2 => rfl
    | Or f1 f2 => rfl
    | Diamond step g' => rfl
    | Box step g' => rfl
  rw [hps]
  refine ⟨?_, ?_, ?_, ?_, ?_⟩
  · intro X hX
    obtain ⟨gX, hb | hb⟩ := (declared_iff_binder f X).1 hX
    · exact foldl_sel_some_of_write (selSeed lts) _ (fun _ _ => rfl) _
        emptyEnv X ⟨Formula.Mu X gX, hb, ∅,
          selSeed_eq_some.2 (Or.inl ⟨gX, rfl, rfl⟩)⟩
    · exact foldl_sel_some_of_write (selSeed lts) _ (fun _ _ => rfl) _
        emptyEnv X ⟨Formula.Nu X gX, hb, lts.states,
          selSeed_eq_some.2 (Or.inr ⟨gX, rfl, rfl⟩)⟩
  · intro X gX hmem
    refine foldl_sel_write (selSeed lts) _ (fun _ _ => rfl) _ emptyEnv X ∅ ?_
      ⟨Formula.Mu X gX, hmem, selSeed_eq_some.2 (Or.inl ⟨gX, rfl, rfl⟩)⟩
    intro a ha w hsel
    rcases selSeed_eq_some.1 hsel with ⟨gy, rfl, rfl⟩ | ⟨gy, rfl, rfl⟩
    · rfl
    · exact Formula.noConfusion
        (binder_unique f hnd X (Formula.Nu X gy) (Formula.Mu X gX)
          ha hmem rfl rfl)
  · intro X gX hmem
    refine foldl_sel_write (selSeed lts) _ (fun _ _ => rfl) _ emptyEnv X
      lts.states ?_
      ⟨Formula.Nu X gX, hmem, selSeed_eq_some.2 (Or.inr ⟨gX, rfl, rfl⟩)⟩
    intro a ha w hsel
    rcases selSeed_eq_some.1 hsel with ⟨gy, rfl, rfl⟩ | ⟨gy, rfl, rfl⟩
    · exact Formula.noConfusion
        (binder_unique f hnd X (Formula.Mu X gy) (Formula.Nu X gX)
          ha hmem rfl rfl)
    · rfl
  · refine foldl_sel_EnvVS lts (selSeed lts) _ (fun _ _ => rfl) ?_ _
      emptyEnv ?_
    · intro a y v hsel
      rcases selSeed_eq_some.1 hsel with ⟨gy, rfl, rfl⟩ | ⟨gy, rfl, rfl⟩
      · exact Finset.empty_subset _
      · exact Finset.Subset.refl _
    · intro X v hv
      exact absurd hv (by simp [emptyEnv])
  · intro X hX
    have hc : ∀ a ∈ subformulas f, ∀ v, selSeed lts a ≠ some (X, v) := by
      intro a ha v hsel
      rcases selSeed_eq_some.1 hsel with ⟨gy, rfl, rfl⟩ | ⟨gy, rfl, rfl⟩
      · exact hX ((declared_iff_binder f X).2 ⟨gy, Or.inl ha⟩)
      · exact hX ((declared_iff_binder f X).2 ⟨gy, Or.inr ha⟩)
    rw [foldl_sel_frame (selSeed lts) _ (fun _ _ => rfl) _ emptyEnv X hc]
    rfl

/-- Correctness and totality of the improved (Emerson–Lei) evaluator: with
enough fuel, on a well-scoped unshadowed formula and an environment defined
on the ambient and declared variables, whose stored binder values satisfy
the `PreG` invariant for the enclosing fixed point `prev`, `eval_inner`
returns exactly the denotational value. -/
theorem improved_correct (lts : Lts) :
    ∀ (f : Formula) (bv : Finset Char) (prev : Option Formula) (env : Env)
      (st : PState) (fuel : Nat),
      needFuel lts.states.card f ≤ fuel →
      wellScoped bv f = true →
      (binderList f).Nodup →
      Disjoint bv (variablesOf f).declared →
      (∀ x ∈ bv, (env x).isSome) →
      (∀ x ∈ (variablesOf f).declared, (env x).isSome) →
      EnvVS lts env →
      prevOk prev →
      PreG lts f prev env →
      ∃ env' st',
        Improved.eval_inner lts fuel f prev env st =
          some (sem lts f (readE env), env', st') ∧
        (∀ y, y ∉ (variablesOf f).declared → env' y = env y) ∧
        (∀ x, (env x).isSome = true → (env' x).isSome = true) ∧
        EnvVS lts env' ∧
        PostG lts f env' := by
  intro f
  induction f with
  | False =>
      intro bv prev env st fuel hfuel hws hnd hdisj hbv hdecl hvs hpok hpre
      cases fuel with
      | zero => simp [needFuel] at hfuel
      | succ n =>
          refine ⟨env, st, rfl, fun y _ => rfl, fun x hx => hx, hvs, ?_⟩
          refine ⟨?_, ?_, ?_, ?_⟩ <;>
            (intro X gX hm; simp [subformulas] at hm)
  | True =>
      intro bv prev env st fuel hfuel hws hnd hdisj hbv hdecl hvs hpok hpre
      cases fuel with
      | zero => simp [needFuel] at hfuel
      | succ n =>
          refine ⟨env, st, rfl, fun y _ => rfl, fun x hx => hx, hvs, ?_⟩
          refine ⟨?_, ?_, ?_, ?_⟩ <;>
            (intro X gX hm; simp [subformulas] at hm)
  | Var name =>
      intro bv prev env st fuel hfuel hws hnd hdisj hbv hdecl hvs hpok hpre
      cases fuel with
      | zero => simp [needFuel] at hfuel
      | succ n =>
          simp [wellScoped] at hws
          have hsome := hbv name hws
          cases he : env name with
          | none => rw [he] at hsome; simp at hsome
          | some v =>
              refine ⟨env, st, ?_, fun y _ => rfl, fun x hx => hx, hvs, ?_⟩
              · simp only [Improved.eval_inner]
                rw [he]
                have : sem lts (.Var name) (readE env) = v := by
                  simp [sem, readE, he]
                rw [this]
              · refine ⟨?_, ?_, ?_, ?_⟩ <;>
                  (intro X gX hm; simp [subformulas] at hm)
  | And f1 f2 ih1 ih2 =>
      intro bv prev env st fuel hfuel hws hnd hdisj hbv hdecl hvs hpok hpre
      cases fuel with
      | zero => simp [needFuel] at hfuel
      | succ n =>
          simp only [needFuel] at hfuel
          simp [wellScoped] at hws
          simp only [binderList] at hnd
          have hnd1 := (List.nodup_append.1 hnd).1
          have hnd2 := (List.nodup_append.1 hnd).2.1
          have hd12 := declared_disj_of_nodup hnd
          have hdisj1 : Disjoint bv (variablesOf f1).declared := by
            refine Finset.disjoint_left.2 (fun x hx h1 => ?_)
            exact Finset.disjoint_left.1 hdisj hx (by simp [variablesOf, h1])
          have hdisj2 : Disjoint bv (variablesOf f2).declared := by
            refine Finset.disjoint_left.2 (fun x hx h1 => ?_)
            exact Finset.disjoint_left.1 hdisj hx (by simp [variablesOf, h1])
          have hdecl1 : ∀ x ∈ (variablesOf f1).declared, (env x).isSome := by
            intro x hx
            exact hdecl x (by simp [variablesOf, hx])
          have hdecl2 : ∀ x ∈ (variablesOf f2).declared, (env x).isSome := by
            intro x hx
            exact hdecl x (by simp [variablesOf, hx])
          obtain ⟨env1, st1, heval1, hframe1, hsome1, hvs1, hpost1⟩ :=
            ih1 bv prev env st n (by omega) hws.1 hnd1 hdisj1 hbv hdecl1 hvs
              hpok (PreG_And_left hpre)
          have hbv1 : ∀ x ∈ bv, (env1 x).isSome :=
            fun x hx => hsome1 x (hbv x hx)
          have hdecl2' : ∀ x ∈ (variablesOf f2).declared, (env1 x).isSome :=
            fun x hx => hsome1 x (hdecl2 x hx)
          have hfr2cond : ∀ x, x ∈ bv ∪ (variablesOf f2).declared →
              x ∉ (variablesOf f1).declared := by
            intro x hx
            rcases Finset.mem_union.1 hx with hx | hx
            · exact Finset.disjoint_left.1 hdisj1 hx
            · exact fun h1 => hd12 x h1 hx
          have hag2 : ∀ x, x ∈ bv ∪ (variablesOf f2).declared →
              readE env x = readE env1 x := by
            intro x hx
            unfold readE
            rw [hframe1 x (hfr2cond x hx)]
          obtain ⟨env2, st2, heval2, hframe2, hsome2, hvs2, hpost2⟩ :=
            ih2 bv prev env1 st1 n (by omega) hws.2 hnd2 hdisj2 hbv1 hdecl2'
              hvs1 hpok (PreG_congr hws.2 hag2 (PreG_And_right hpre))
          have hsem2 : sem lts f2 (readE env1) = sem lts f2 (readE env) := by
            refine sem_congr_scoped lts f2 bv _ _ hws.2 (fun x hx => ?_)
            exact (hag2 x (Finset.mem_union_left _ hx)).symm
          have hfr1cond : ∀ x, x ∈ bv ∪ (variablesOf f1).declared →
              x ∉ (variablesOf f2).declared := by
            intro x hx
            rcases Finset.mem_union.1 hx with hx | hx
            · exact Finset.disjoint_left.1 hdisj2 hx
            · exact hd12 x hx
          have hag1 : ∀ x, x ∈ bv ∪ (variablesOf f1).declared →
              readE env1 x = readE env2 x := by
            intro x hx
            unfold readE
            rw [hframe2 x (hfr1cond x hx)]
          have hpost1' : PostG lts f1 env2 := PostG_congr hws.1 hag1 hpost1
          refine ⟨env2, st2, ?_, ?_, fun x hx => hsome2 x (hsome1 x hx), hvs2,
            PostG_And hpost1' hpost2⟩
          · simp only [Improved.eval_inner]
            rw [heval1]
            dsimp only
            rw [heval2]
            simp only [sem]
            rw [hsem2]
          · intro y hy
            simp [variablesOf] at hy
            rw [hframe2 y hy.2, hframe1 y hy.1]
  | Or f1 f2 ih1 ih2 =>
      intro bv prev env st fuel hfuel hws hnd hdisj hbv hdecl hvs hpok hpre
      cases fuel with
      | zero => simp [needFuel] at hfuel
      | succ n =>
          simp only [needFuel] at hfuel
          simp [wellScoped] at hws
          simp only [binderList] at hnd
          have hnd1 := (List.nodup_append.1 hnd).1
          have hnd2 := (List.nodup_append.1 hnd).2.1
          have hd12 := declared_disj_of_nodup hnd
          have hdisj1 : Disjoint bv (variablesOf f1).declared := by
            refine Finset.disjoint_left.2 (fun x hx h1 => ?_)
            exact Finset.disjoint_left.1 hdisj hx (by simp [variablesOf, h1])
          have hdisj2 : Disjoint bv (variablesOf f2).declared := by
            refine Finset.disjoint_left.2 (fun x hx h1 => ?_)
            exact Finset.disjoint_left.1 hdisj hx (by simp [variablesOf, h1])
          have hdecl1 : ∀ x ∈ (variablesOf f1).declared, (env x).isSome := by
            intro x hx
            exact hdecl x (by simp [variablesOf, hx])
          have hdecl2 : ∀ x ∈ (variablesOf f2).declared, (env x).isSome := by
            intro x hx
            exact hdecl x (by simp [variablesOf, hx])
          obtain ⟨env1, st1, heval1, hframe1, hsome1, hvs1, hpost1⟩ :=
            ih1 bv prev env st n (by omega) hws.1 hnd1 hdisj1 hbv hdecl1 hvs
              hpok (PreG_Or_left hpre)
          have hbv1 : ∀ x ∈ bv, (env1 x).isSome :=
            fun x hx => hsome1 x (hbv x hx)
          have hdecl2' : ∀ x ∈ (variablesOf f2).declared, (env1 x).isSome :=
            fun x hx => hsome1 x (hdecl2 x hx)
          have hfr2cond : ∀ x, x ∈ bv ∪ (variablesOf f2).declared →
              x ∉ (variablesOf f1).declared := by
            intro x hx
            rcases Finset.mem_union.1 hx with hx | hx
            · exact Finset.disjoint_left.1 hdisj1 hx
            · exact fun h1 => hd12 x h1 hx
          have hag2 : ∀ x, x ∈ bv ∪ (variablesOf f2).declared →
              readE env x = readE env1 x := by
            intro x hx
            unfold readE
            rw [hframe1 x (hfr2cond x hx)]
          obtain ⟨env2, st2, heval2, hframe2, hsome2, hvs2, hpost2⟩ :=
            ih2 bv prev env1 st1 n (by omega) hws.2 hnd2 hdisj2 hbv1 hdecl2'
              hvs1 hpok (PreG_congr hws.2 hag2 (PreG_Or_right hpre))
          have hsem2 : sem lts f2 (readE env1) = sem lts f2 (readE env) := by
            refine sem_congr_scoped lts f2 bv _ _ hws.2 (fun x hx => ?_)
            exact (hag2 x (Finset.mem_union_left _ hx)).symm
          have hfr1cond : ∀ x, x ∈ bv ∪ (variablesOf f1).declared →
              x ∉ (variablesOf f2).declared := by
            intro x hx
            rcases Finset.mem_union.1 hx with hx | hx
            · exact Finset.disjoint_left.1 hdisj2 hx
            · exact hd12 x hx
          have hag1 : ∀ x, x ∈ bv ∪ (variablesOf f1).declared →
              readE env1 x = readE env2 x := by
            intro x hx
            unfold readE
            rw [hframe2 x (hfr1cond x hx)]
          have hpost1' : PostG lts f1 env2 := PostG_congr hws.1 hag1 hpost1
          refine ⟨env2, st2, ?_, ?_, fun x hx => hsome2 x (hsome1 x hx), hvs2,
            PostG_Or hpost1' hpost2⟩
          · simp only [Improved.eval_inner]
            rw [heval1]
            dsimp only
            rw [heval2]
            simp only [sem]
            rw [hsem2]
          · intro y hy
            simp [variablesOf] at hy
            rw [hframe2 y hy.2, hframe1 y hy.1]
  | Diamond step g ih =>
      intro bv prev env st fuel hfuel hws hnd hdisj hbv hdecl hvs hpok hpre
      cases fuel with
      | zero => simp [needFuel] at hfuel
      | succ n =>
          simp only [needFuel] at hfuel
          simp only [wellScoped] at hws
          simp only [binderList] at hnd
          have hdisj' : Disjoint bv (variablesOf g).declared := by
            refine Finset.disjoint_left.2 (fun x hx h1 => ?_)
            exact Finset.disjoint_left.1 hdisj hx (by simp [variablesOf, h1])
          obtain ⟨env1, st1, heval1, hframe1, hsome1, hvs1, hpost1⟩ :=
            ih bv prev env st n (by omega) hws hnd hdisj' hbv hdecl hvs hpok
              (PreG_Diamond hpre)
          refine ⟨env1, st1, ?_, ?_, hsome1, hvs1, PostG_Diamond hpost1⟩
          · simp only [Improved.eval_inner]
            rw [heval1]
            dsimp only
            simp only [sem]
          · intro y hy
            exact hframe1 y (by simpa [variablesOf] using hy)
  | Box step g ih =>
      intro bv prev env st fuel hfuel hws hnd hdisj hbv hdecl hvs hpok hpre
      cases fuel with
      | zero => simp [needFuel] at hfuel
      | succ n =>
          simp only [needFuel] at hfuel
          simp only [wellScoped] at hws
          simp only [binderList] at hnd
          have hdisj' : Disjoint bv (variablesOf g).declared := by
            refine Finset.disjoint_left.2 (fun x hx h1 => ?_)
            exact Finset.disjoint_left.1 hdisj hx (by simp [variablesOf, h1])
          obtain ⟨env1, st1, heval1, hframe1, hsome1, hvs1, hpost1⟩ :=
            ih bv prev env st n (by omega) hws hnd hdisj' hbv hdecl hvs hpok
              (PreG_Box hpre)
          refine ⟨env1, st1, ?_, ?_, hsome1, hvs1, PostG_Box hpost1⟩
          · simp only [Improved.eval_inner]
            rw [heval1]
            dsimp only
            simp only [sem]
          · intro y hy
            exact hframe1 y (by simpa [variablesOf] using hy)
  | Mu var g ih =>
      intro bv prev env st fuel hfuel hws hnd hdisj hbv hdecl hvs hpok hpre
      cases fuel with
      | zero => simp [needFuel] at hfuel
      | succ n =>
          simp only [needFuel] at hfuel
          have hws0 := hws
          simp only [wellScoped] at hws
          have hnd0 := hnd
          simp only [binderList, List.nodup_cons] at hnd
          have hvarbv : var ∉ bv := by
            intro hv
            exact Finset.disjoint_left.1 hdisj hv (by simp [variablesOf])
          have hvardecl : var ∉ (variablesOf g).declared := by
            rw [← mem_binderList_iff]; exact hnd.1
          have hdisj' : Disjoint (insert var bv) (variablesOf g).declared := by
            refine Finset.disjoint_left.2 (fun x hx h1 => ?_)
            rcases Finset.mem_insert.1 hx with rfl | hx
            · exact hvardecl h1
            · exact Finset.disjoint_left.1 hdisj hx
                (by simp [variablesOf, h1])
          have main : ∀ env1,
              (∀ y, y ∉ (variablesOf (Formula.Mu var g)).declared →
                env1 y = env y) →
              (∀ y, (env y).isSome = true → (env1 y).isSome = true) →
              EnvVS lts env1 →
              PreG lts g (some (.Mu var g)) env1 →
              GoodMu lts env1 var g →
              ∃ env' st',
                fixIter Improved.tick
                  (fun e s =>
                    Improved.eval_inner lts n g (some (.Mu var g)) e s)
                  var n env1 st =
                  some (sem lts (.Mu var g) (readE env), env', st') ∧
                (∀ y, y ∉ (variablesOf (Formula.Mu var g)).declared →
                  env' y = env y) ∧
                (∀ x, (env x).isSome = true → (env' x).isSome = true) ∧
                EnvVS lts env' ∧
                PostG lts (.Mu var g) env' := by
            intro env1 hfr1 hsm1 hvs1 hpre1 hgood1
            set σ1 : TEnv := readE env1 with hσ1
            set F : Finset State → Finset State :=
              fun v => sem lts g (upd σ1 var v) with hF
            have hmono := semF_mono lts g σ1 var
            have hSb := semF_S lts g σ1 var (readE_subset hvs1)
            have hv0some : (env1 var).isSome :=
              hsm1 var (hdecl var (by simp [variablesOf]))
            obtain ⟨v0, hv0⟩ := Option.isSome_iff_exists.1 hv0some
            have hrv0 : σ1 var = v0 := by
              rw [hσ1]; unfold readE; rw [hv0]; rfl
            have hv0S : v0 ⊆ lts.states := hvs1 var v0 hv0
            have hsemg : F v0 = sem lts g σ1 := by
              rw [hF]
              dsimp only
              rw [← hrv0, upd_self]
            have hv0F : v0 ⊆ F v0 := by
              rw [hsemg]
              have h1 := hgood1.1
              rw [← hσ1, hrv0] at h1
              exact h1
            have hsemMu : sem lts (.Mu var g) σ1 = muIter F lts.states := by
              simp only [sem]
            have hv0mu : v0 ⊆ muIter F lts.states := by
              rw [← hsemMu]
              have h1 := hgood1.2
              rw [← hσ1, hrv0] at h1
              exact h1
            set P : Env → Prop := fun e =>
              (∀ x ∈ bv, (e x).isSome) ∧
              (∀ x ∈ (variablesOf g).declared, (e x).isSome) ∧
              EnvVS lts e ∧
              (∀ y, y ∉ (variablesOf g).declared → y ≠ var → e y = env1 y) ∧
              (∀ x, (env1 x).isSome = true → (e x).isSome = true) ∧
              PreG lts g (some (.Mu var g)) e
              with hP
            have hbody : ∀ e s vX, P e → e var = some vX →
                vX ⊆ lts.states → vX ⊆ F vX → vX ⊆ muIter F lts.states →
                ∃ e' s', Improved.eval_inner lts n g (some (.Mu var g)) e s =
                    some (F vX, e', s') ∧
                  e' var = some vX ∧ P (updE e' var (F vX)) ∧ True := by
              intro e s vX hPe hev hvXS hgrow hmu
              obtain ⟨hbve, hde, hvse, hfre, hsme, hpge⟩ := hPe
              have hbv' : ∀ x ∈ insert var bv, (e x).isSome := by
                intro x hx
                rcases Finset.mem_insert.1 hx with rfl | hx
                · rw [hev]; rfl
                · exact hbve x hx
              obtain ⟨e', s', heval, hframe, hsome', hvs', hpost'⟩ :=
                ih (insert var bv) (some (.Mu var g)) e s n (by omega) hws
                  hnd.2 hdisj' hbv' hde hvse (Or.inl rfl) hpge
              have hsemeq : sem lts g (readE e) = F vX := by
                rw [hF]
                dsimp only
                refine sem_congr_scoped lts g (insert var bv) _ _ hws
                  (fun x hx => ?_)
                rcases Finset.mem_insert.1 hx with rfl | hx
                · unfold readE upd
                  rw [hev]
                  simp
                · have hxvar : x ≠ var := fun hh => hvarbv (hh ▸ hx)
                  unfold readE upd
                  rw [if_neg hxvar, hfre x (fun hd => Finset.disjoint_left.1
                    hdisj' (Finset.mem_insert_of_mem hx) hd) hxvar]
                  rfl
              rw [hsemeq] at heval
              refine ⟨e', s', heval, ?_, ?_, trivial⟩
              · rw [hframe var hvardecl, hev]
              · refine ⟨?_, ?_, EnvVS_updE hvs' (hSb vX hvXS), ?_, ?_, ?_⟩
                · intro x hx
                  have hxvar : x ≠ var := fun hh => hvarbv (hh ▸ hx)
                  rw [updE_other _ _ _ _ hxvar]
                  exact hsome' x (hbve x hx)
                · intro x hx
                  have hxvar : x ≠ var := fun hh => hvardecl (hh ▸ hx)
                  rw [updE_other _ _ _ _ hxvar]
                  exact hsome' x (hde x hx)
                · intro y hyd hyv
                  rw [updE_other _ _ _ _ hyv, hframe y hyd]
                  exact hfre y hyd hyv
                · intro x hx
                  by_cases hxv : x = var
                  · subst hxv; rw [updE_same]; rfl
                  · rw [updE_other _ _ _ _ hxv]
                    exact hsome' x (hsme x hx)
                · refine ⟨?_, ?_, ?_, ?_⟩
                  · intro X gX hmem ho hr _
                    have hXg : X ∈ (variablesOf g).declared :=
                      binder_declared hmem rfl
                    have hXvar : X ≠ var := fun hh => hvardecl (hh ▸ hXg)
                    refine GoodMu_mono ?_ ?_ (hpost'.mu_reach X gX hmem hr)
                    · unfold readE
                      rw [updE_other _ _ _ _ hXvar]
                    · intro y
                      by_cases hyv : y = var
                      · rw [hyv]
                        unfold readE
                        rw [updE_same, hframe var hvardecl, hev]
                        simp only [Option.getD_some]
                        exact hgrow
                      · unfold readE
                        rw [updE_other _ _ _ _ hyv]
                  · intro X gX hmem ho hr hc
                    rcases hc with hc | ⟨pf, hpf, hnu⟩
                    · simp at hc
                    · cases Option.some.inj hpf
                      simp [Formula.is_nu] at hnu
                  · intro X gX hmem ho
                    have hXg : X ∈ (variablesOf g).declared :=
                      binder_declared hmem rfl
                    have hXvar : X ≠ var := fun hh => hvardecl (hh ▸ hXg)
                    have hclosed : (variablesOf (Formula.Mu X gX)).used ⊆
                        (variablesOf (Formula.Mu X gX)).declared := by
                      simpa [Formula.is_open] using ho
                    have hwsb : wellScoped ∅ (.Mu X gX) = true :=
                      closed_scoped g (insert var bv) hws hnd.2 hdisj' _
                        hmem hclosed
                    refine GoodMu_closed_congr hwsb ?_
                      (hpost'.mu_closed X gX hmem ho)
                    unfold readE
                    rw [updE_other _ _ _ _ hXvar]
                  · intro X gX hmem ho
                    have hXg : X ∈ (variablesOf g).declared :=
                      binder_declared hmem rfl
                    have hXvar : X ≠ var := fun hh => hvardecl (hh ▸ hXg)
                    have hclosed : (variablesOf (Formula.Nu X gX)).used ⊆
                        (variablesOf (Formula.Nu X gX)).declared := by
                      simpa [Formula.is_open] using ho
                    have hwsb : wellScoped ∅ (.Nu X gX) = true :=
                      closed_scoped g (insert var bv) hws hnd.2 hdisj' _
                        hmem hclosed
                    refine GoodNu_closed_congr hwsb ?_
                      (hpost'.nu_closed X gX hmem ho)
                    unfold readE
                    rw [updE_other _ _ _ _ hXvar]
            have hP0 : P env1 := by
              refine ⟨?_, ?_, hvs1, fun y _ _ => rfl, fun x h => h, hpre1⟩
              · intro x hx
                exact hsm1 x (hbv x hx)
              · intro x hx
                exact hsm1 x (hdecl x (by simp [variablesOf, hx]))
            obtain ⟨eF, sF, hloop, hPF, _, hvF⟩ :=
              fixIter_mu_spec lts Improved.tick
                (fun e s => Improved.eval_inner lts n g (some (.Mu var g)) e s)
                var F P (fun _ => True) hmono hSb (fun _ _ _ => trivial) hbody
                n env1 st v0 hP0 hv0 hv0S hv0F hv0mu
                (by
                  have hcard := Finset.card_le_card hv0S
                  omega)
            obtain ⟨hbvF, hdeF, hvsF, hfrF, hsmF, hpgF⟩ := hPF
            have hrF : readE eF var = muIter F lts.states := by
              unfold readE; rw [hvF]; rfl
            have hagbv : ∀ x ∈ bv, σ1 x = readE eF x := by
              intro x hx
              have hxvar : x ≠ var := fun hh => hvarbv (hh ▸ hx)
              rw [hσ1]
              unfold readE
              rw [hfrF x (fun hd => Finset.disjoint_left.1 hdisj'
                (Finset.mem_insert_of_mem hx) hd) hxvar]
            have hsemF : sem lts g (readE eF) = muIter F lts.states := by
              have h1 : sem lts g (readE eF) =
                  sem lts g (upd σ1 var (muIter F lts.states)) := by
                refine sem_congr_scoped lts g (insert var bv) _ _ hws
                  (fun x hx => ?_)
                rcases Finset.mem_insert.1 hx with hxv | hx
                · rw [hxv, hrF]
                  unfold upd
                  simp
                · have hxvar : x ≠ var := fun hh => hvarbv (hh ▸ hx)
                  unfold upd
                  rw [if_neg hxvar]
                  exact (hagbv x hx).symm
              have hfix : F (muIter F lts.states) = muIter F lts.states :=
                muIter_fixed hmono hSb
              rw [h1]
              show F (muIter F lts.states) = muIter F lts.states
              exact hfix
            have hnodeF : sem lts (.Mu var g) (readE eF) =
                muIter F lts.states := by
              have h2 : sem lts (.Mu var g) (readE eF) =
                  sem lts (.Mu var g) σ1 :=
                sem_congr_scoped lts _ bv _ _ hws0
                  (fun x hx => (hagbv x hx).symm)
              rw [h2, hsemMu]
            have hGnode : GoodMu lts eF var g := by
              refine ⟨?_, ?_⟩
              · exact le_of_eq (hrF.trans hsemF.symm)
              · exact le_of_eq (hrF.trans hnodeF.symm)
            have hsemenv : sem lts (.Mu var g) (readE env) =
                muIter F lts.states := by
              have h2 : sem lts (.Mu var g) (readE env) =
                  sem lts (.Mu var g) σ1 := by
                refine sem_congr_scoped lts _ bv _ _ hws0 (fun x hx => ?_)
                rw [hσ1]
                unfold readE
                rw [hfr1 x (Finset.disjoint_left.1 hdisj hx)]
              rw [h2, hsemMu]
            refine ⟨eF, sF, ?_, ?_, ?_, hvsF, ?_⟩
            · rw [hloop, hsemenv]
            · intro y hy
              have hyv : y ≠ var := by
                intro hh; subst hh; exact hy (by simp [variablesOf])
              have hyd : y ∉ (variablesOf g).declared := by
                intro hh; exact hy (by simp [variablesOf, hh])
              rw [hfrF y hyd hyv]
              exact hfr1 y hy
            · intro x hx
              exact hsmF x (hsm1 x hx)
            · refine ⟨?_, ?_, ?_, ?_⟩
              · intro X gX hmem hr
                rcases hr with hr | ⟨_, hr⟩
                · obtain ⟨rfl, rfl⟩ := Formula.Mu.inj hr
                  exact hGnode
                · cases ho : (Formula.Mu X gX).is_open with
                  | true =>
                      exact hpgF.mu_open X gX (Reaches_mem g hr) ho hr
                        (Or.inr ⟨Formula.Mu var g, rfl, rfl⟩)
                  | false =>
                      exact hpgF.mu_closed X gX (Reaches_mem g hr) ho
              · intro X gX hmem hr
                rcases hr with hr | ⟨hp, _⟩
                · exact Formula.noConfusion hr
                · exact Bool.noConfusion hp
              · intro X gX hmem ho
                rcases (by simpa [subformulas] using hmem :
                    (X = var ∧ gX = g) ∨
                      Formula.Mu X gX ∈ subformulas g) with ⟨rfl, rfl⟩ | hmem'
                · exact hGnode
                · exact hpgF.mu_closed X gX hmem' ho
              · intro X gX hmem ho
                have hmem' : Formula.Nu X gX ∈ subformulas g := by
                  simpa [subformulas] using hmem
                exact hpgF.nu_closed X gX hmem' ho
          have noreset :
              (prev = none ∨ ∃ pf, prev = some pf ∧ pf.is_mu = true) →
              PreG lts g (some (.Mu var g)) env ∧ GoodMu lts env var g := by
            intro hcond
            constructor
            · refine ⟨?_, ?_, ?_, ?_⟩
              · intro X gX hmem ho hr _
                exact hpre.mu_open X gX (by simp [subformulas]; tauto) ho
                  (Or.inr ⟨rfl, hr⟩) hcond
              · intro X gX hmem ho hr hc
                rcases hc with hc | ⟨pf, hpf, hnu⟩
                · simp at hc
                · cases Option.some.inj hpf
                  simp [Formula.is_nu] at hnu
              · intro X gX hmem ho
                exact hpre.mu_closed X gX (by simp [subformulas]; tauto) ho
              · intro X gX hmem ho
                exact hpre.nu_closed X gX (by simp [subformulas]; tauto) ho
            · cases ho : (Formula.Mu var g).is_open with
              | true =>
                  exact hpre.mu_open var g (self_mem_subformulas _) ho
                    (Or.inl rfl) hcond
              | false =>
                  exact hpre.mu_closed var g (self_mem_subformulas _) ho
          rcases prev with _ | pf
          · obtain ⟨hpre1, hgood1⟩ := noreset (Or.inl rfl)
            obtain ⟨env', st', h1, h2, h3, h4, h5⟩ :=
              main env (fun y _ => rfl) (fun y h => h) hvs hpre1 hgood1
            refine ⟨env', st', ?_, h2, h3, h4, h5⟩
            simp only [Improved.eval_inner]
            exact h1
          · cases pf with
            | Nu pn pg =>
                obtain ⟨env1, hre, hfrm, hopen, hsm, hvsr⟩ :=
                  resetMu_spec lts var g env
                have hfr1 : ∀ y,
                    y ∉ (variablesOf (Formula.Mu var g)).declared →
                    env1 y = env y := by
                  intro y hy
                  refine hfrm y (fun gy hgy => ?_)
                  exact absurd (binder_declared hgy rfl) hy
                have hvs1 : EnvVS lts env1 := hvsr hvs
                have hpre1 : PreG lts g (some (.Mu var g)) env1 := by
                  refine ⟨?_, ?_, ?_, ?_⟩
                  · intro X gX hmem ho hr _
                    have hX : env1 X = some ∅ :=
                      hopen X gX (by simp [subformulas]; tauto) ho
                    have hrX : readE env1 X = ∅ := by
                      unfold readE; rw [hX]; rfl
                    refine ⟨?_, ?_⟩ <;> (rw [hrX]; exact Finset.empty_subset _)
                  · intro X gX hmem ho hr hc
                    rcases hc with hc | ⟨pf', hpf, hnu⟩
                    · simp at hc
                    · cases Option.some.inj hpf
                      simp [Formula.is_nu] at hnu
                  · intro X gX hmem ho
                    have hclosed : (variablesOf (Formula.Mu X gX)).used ⊆
                        (variablesOf (Formula.Mu X gX)).declared := by
                      simpa [Formula.is_open] using ho
                    have hwsb : wellScoped ∅ (.Mu X gX) = true :=
                      closed_scoped (.Mu var g) bv hws0 hnd0 hdisj _
                        (by simp [subformulas]; tauto) hclosed
                    have hXeq : env1 X = env X := by
                      refine hfrm X (fun gy hgy => ?_)
                      have huniq := binder_unique (.Mu var g) hnd0 X
                        (Formula.Mu X gy) (Formula.Mu X gX) hgy
                        (by simp [subformulas]; tauto) rfl rfl
                      rw [(Formula.Mu.inj huniq).2]
                      exact ho
                    refine GoodMu_closed_congr hwsb ?_
                      (hpre.mu_closed X gX (by simp [subformulas]; tauto) ho)
                    unfold readE
                    rw [hXeq]
                  · intro X gX hmem ho
                    have hclosed : (variablesOf (Formula.Nu X gX)).used ⊆
                        (variablesOf (Formula.Nu X gX)).declared := by
                      simpa [Formula.is_open] using ho
                    have hwsb : wellScoped ∅ (.Nu X gX) = true :=
                      closed_scoped (.Mu var g) bv hws0 hnd0 hdisj _
                        (by simp [subformulas]; tauto) hclosed
                    have hXeq : env1 X = env X := by
                      refine hfrm X (fun gy hgy => ?_)
                      exact Formula.noConfusion
                        (binder_unique (.Mu var g) hnd0 X
                          (Formula.Mu X gy) (Formula.Nu X gX) hgy
                          (by simp [subformulas]; tauto) rfl rfl)
                    refine GoodNu_closed_congr hwsb ?_
                      (hpre.nu_closed X gX (by simp [subformulas]; tauto) ho)
                    unfold readE
                    rw [hXeq]
                have hgood1 : GoodMu lts env1 var g := by
                  cases ho : (Formula.Mu var g).is_open with
                  | true =>
                      have hX : env1 var = some ∅ :=
                        hopen var g (self_mem_subformulas _) ho
                      have hrX : readE env1 var = ∅ := by
                        unfold readE; rw [hX]; rfl
                      refine ⟨?_, ?_⟩ <;>
                        (rw [hrX]; exact Finset.empty_subset _)
                  | false =>
                      have hclosed : (variablesOf (Formula.Mu var g)).used ⊆
                          (variablesOf (Formula.Mu var g)).declared := by
                        simpa [Formula.is_open] using ho
                      have hwsb : wellScoped ∅ (.Mu var g) = true :=
                        closed_self_scoped hws0 hdisj hclosed
                      have hXeq : env1 var = env var := by
                        refine hfrm var (fun gy hgy => ?_)
                        have huniq := binder_unique (.Mu var g) hnd0 var
                          (Formula.Mu var gy) (Formula.Mu var g) hgy
                          (self_mem_subformulas _) rfl rfl
                        rw [(Formula.Mu.inj huniq).2]
                        exact ho
                      refine GoodMu_closed_congr hwsb ?_
                        (hpre.mu_closed var g (self_mem_subformulas _) ho)
                      unfold readE
                      rw [hXeq]
                obtain ⟨env', st', h1, h2, h3, h4, h5⟩ :=
                  main env1 hfr1 hsm hvs1 hpre1 hgood1
                refine ⟨env', st', ?_, h2, h3, h4, h5⟩
                simp only [Improved.eval_inner]
                rw [hre]
                exact h1
            | Mu pv pg =>
                obtain ⟨hpre1, hgood1⟩ :=
                  noreset (Or.inr ⟨Formula.Mu pv pg, rfl, rfl⟩)
                obtain ⟨env', st', h1, h2, h3, h4, h5⟩ :=
                  main env (fun y _ => rfl) (fun y h => h) hvs hpre1 hgood1
                refine ⟨env', st', ?_, h2, h3, h4, h5⟩
                simp only [Improved.eval_inner]
                exact h1
            | False => simp [prevOk, Formula.is_mu, Formula.is_nu] at hpok
            | True => simp [prevOk, Formula.is_mu, Formula.is_nu] at hpok
            | Var nm => simp [prevOk, Formula.is_mu, Formula.is_nu] at hpok
            | And p1 p2 => simp [prevOk, Formula.is_mu, Formula.is_nu] at hpok
            | Or p1 p2 => simp [prevOk, Formula.is_mu, Formula.is_nu] at hpok
            | Diamond ps pg =>
                simp [prevOk, Formula.is_mu, Formula.is_nu] at hpok
            | Box ps pg => simp [prevOk, Formula.is_mu, Formula.is_nu] at hpok
  | Nu var g ih =>
      intro bv prev env st fuel hfuel hws hnd hdisj hbv hdecl hvs hpok hpre
      cases fuel with
      | zero => simp [needFuel] at hfuel
      | succ n =>
          simp only [needFuel] at hfuel
          have hws0 := hws
          simp only [wellScoped] at hws
          have hnd0 := hnd
          simp only [binderList, List.nodup_cons] at hnd
          have hvarbv : var ∉ bv := by
            intro hv
            exact Finset.disjoint_left.1 hdisj hv (by simp [variablesOf])
          have hvardecl : var ∉ (variablesOf g).declared := by
            rw [← mem_binderList_iff]; exact hnd.1
          have hdisj' : Disjoint (insert var bv) (variablesOf g).declared := by
            refine Finset.disjoint_left.2 (fun x hx h1 => ?_)
            rcases Finset.mem_insert.1 hx with rfl | hx
            · exact hvardecl h1
            · exact Finset.disjoint_left.1 hdisj hx
                (by simp [variablesOf, h1])
          have main : ∀ env1,
              (∀ y, y ∉ (variablesOf (Formula.Nu var g)).declared →
                env1 y = env y) →
              (∀ y, (env y).isSome = true → (env1 y).isSome = true) →
              EnvVS lts env1 →
              PreG lts g (some (.Nu var g)) env1 →
              GoodNu lts env1 var g →
              ∃ env' st',
                fixIter Improved.tick
                  (fun e s =>
                    Improved.eval_inner lts n g (some (.Nu var g)) e s)
                  var n env1 st =
                  some (sem lts (.Nu var g) (readE env), env', st') ∧
                (∀ y, y ∉ (variablesOf (Formula.Nu var g)).declared →
                  env' y = env y) ∧
                (∀ x, (env x).isSome = true → (env' x).isSome = true) ∧
                EnvVS lts env' ∧
                PostG lts (.Nu var g) env' := by
            intro env1 hfr1 hsm1 hvs1 hpre1 hgood1
            set σ1 : TEnv := readE env1 with hσ1
            set F : Finset State → Finset State :=
              fun v => sem lts g (upd σ1 var v) with hF
            have hmono := semF_mono lts g σ1 var
            have hSb := semF_S lts g σ1 var (readE_subset hvs1)
            have hv0some : (env1 var).isSome :=
              hsm1 var (hdecl var (by simp [variablesOf]))
            obtain ⟨v0, hv0⟩ := Option.isSome_iff_exists.1 hv0some
            have hrv0 : σ1 var = v0 := by
              rw [hσ1]; unfold readE; rw [hv0]; rfl
            have hv0S : v0 ⊆ lts.states := hvs1 var v0 hv0
            have hsemg : F v0 = sem lts g σ1 := by
              rw [hF]
              dsimp only
              rw [← hrv0, upd_self]
            have hv0F : F v0 ⊆ v0 := by
              rw [hsemg]
              have h1 := hgood1.1
              rw [← hσ1, hrv0] at h1
              exact h1
            have hsemNu : sem lts (.Nu var g) σ1 = nuIter F lts.states := by
              simp only [sem]
            have hv0nu : nuIter F lts.states ⊆ v0 := by
              rw [← hsemNu]
              have h1 := hgood1.2
              rw [← hσ1, hrv0] at h1
              exact h1
            set P : Env → Prop := fun e =>
              (∀ x ∈ bv, (e x).isSome) ∧
              (∀ x ∈ (variablesOf g).declared, (e x).isSome) ∧
              EnvVS lts e ∧
              (∀ y, y ∉ (variablesOf g).declared → y ≠ var → e y = env1 y) ∧
              (∀ x, (env1 x).isSome = true → (e x).isSome = true) ∧
              PreG lts g (some (.Nu var g)) e
              with hP
            have hbody : ∀ e s vX, P e → e var = some vX →
                vX ⊆ lts.states → F vX ⊆ vX → nuIter F lts.states ⊆ vX →
                ∃ e' s', Improved.eval_inner lts n g (some (.Nu var g)) e s =
                    some (F vX, e', s') ∧
                  e' var = some vX ∧ P (updE e' var (F vX)) ∧ True := by
              intro e s vX hPe hev hvXS hshr hnu
              obtain ⟨hbve, hde, hvse, hfre, hsme, hpge⟩ := hPe
              have hbv' : ∀ x ∈ insert var bv, (e x).isSome := by
                intro x hx
                rcases Finset.mem_insert.1 hx with rfl | hx
                · rw [hev]; rfl
                · exact hbve x hx
              obtain ⟨e', s', heval, hframe, hsome', hvs', hpost'⟩ :=
                ih (insert var bv) (some (.Nu var g)) e s n (by omega) hws
                  hnd.2 hdisj' hbv' hde hvse (Or.inr rfl) hpge
              have hsemeq : sem lts g (readE e) = F vX := by
                rw [hF]
                dsimp only
                refine sem_congr_scoped lts g (insert var bv) _ _ hws
                  (fun x hx => ?_)
                rcases Finset.mem_insert.1 hx with rfl | hx
                · unfold readE upd
                  rw [hev]
                  simp
                · have hxvar : x ≠ var := fun hh => hvarbv (hh ▸ hx)
                  unfold readE upd
                  rw [if_neg hxvar, hfre x (fun hd => Finset.disjoint_left.1
                    hdisj' (Finset.mem_insert_of_mem hx) hd) hxvar]
                  rfl
              rw [hsemeq] at heval
              refine ⟨e', s', heval, ?_, ?_, trivial⟩
              · rw [hframe var hvardecl, hev]
              · refine ⟨?_, ?_, EnvVS_updE hvs' (hSb vX hvXS), ?_, ?_, ?_⟩
                · intro x hx
                  have hxvar : x ≠ var := fun hh => hvarbv (hh ▸ hx)
                  rw [updE_other _ _ _ _ hxvar]
                  exact hsome' x (hbve x hx)
                · intro x hx
                  have hxvar : x ≠ var := fun hh => hvardecl (hh ▸ hx)
                  rw [updE_other _ _ _ _ hxvar]
                  exact hsome' x (hde x hx)
                · intro y hyd hyv
                  rw [updE_other _ _ _ _ hyv, hframe y hyd]
                  exact hfre y hyd hyv
                · intro x hx
                  by_cases hxv : x = var
                  · subst hxv; rw [updE_same]; rfl
                  · rw [updE_other _ _ _ _ hxv]
                    exact hsome' x (hsme x hx)
                · refine ⟨?_, ?_, ?_, ?_⟩
                  · intro X gX hmem ho hr hc
                    rcases hc with hc | ⟨pf, hpf, hmu'⟩
                    · simp at hc
                    · cases Option.some.inj hpf
                      simp [Formula.is_mu] at hmu'
                  · intro X gX hmem ho hr _
                    have hXg : X ∈ (variablesOf g).declared :=
                      binder_declared hmem rfl
                    have hXvar : X ≠ var := fun hh => hvardecl (hh ▸ hXg)
                    refine GoodNu_anti ?_ ?_ (hpost'.nu_reach X gX hmem hr)
                    · unfold readE
                      rw [updE_other _ _ _ _ hXvar]
                    · intro y
                      by_cases hyv : y = var
                      · rw [hyv]
                        unfold readE
                        rw [updE_same, hframe var hvardecl, hev]
                        simp only [Option.getD_some]
                        exact hshr
                      · unfold readE
                        rw [updE_other _ _ _ _ hyv]
                  · intro X gX hmem ho
                    have hXg : X ∈ (variablesOf g).declared :=
                      binder_declared hmem rfl
                    have hXvar : X ≠ var := fun hh => hvardecl (hh ▸ hXg)
                    have hclosed : (variablesOf (Formula.Mu X gX)).used ⊆
                        (variablesOf (Formula.Mu X gX)).declared := by
                      simpa [Formula.is_open] using ho
                    have hwsb : wellScoped ∅ (.Mu X gX) = true :=
                      closed_scoped g (insert var bv) hws hnd.2 hdisj' _
                        hmem hclosed
                    refine GoodMu_closed_congr hwsb ?_
                      (hpost'.mu_closed X gX hmem ho)
                    unfold readE
                    rw [updE_other _ _ _ _ hXvar]
                  · intro X gX hmem ho
                    have hXg : X ∈ (variablesOf g).declared :=
                      binder_declared hmem rfl
                    have hXvar : X ≠ var := fun hh => hvardecl (hh ▸ hXg)
                    have hclosed : (variablesOf (Formula.Nu X gX)).used ⊆
                        (variablesOf (Formula.Nu X gX)).declared := by
                      simpa [Formula.is_open] using ho
                    have hwsb : wellScoped ∅ (.Nu X gX) = true :=
                      closed_scoped g (insert var bv) hws hnd.2 hdisj' _
                        hmem hclosed
                    refine GoodNu_closed_congr hwsb ?_
                      (hpost'.nu_closed X gX hmem ho)
                    unfold readE
                    rw [updE_other _ _ _ _ hXvar]
            have hP0 : P env1 := by
              refine ⟨?_, ?_, hvs1, fun y _ _ => rfl, fun x h => h, hpre1⟩
              · intro x hx
                exact hsm1 x (hbv x hx)
              · intro x hx
                exact hsm1 x (hdecl x (by simp [variablesOf, hx]))
            obtain ⟨eF, sF, hloop, hPF, _, hvF⟩ :=
              fixIter_nu_spec lts Improved.tick
                (fun e s => Improved.eval_inner lts n g (some (.Nu var g)) e s)
                var F P (fun _ => True) hmono hSb (fun _ _ _ => trivial) hbody
                n env1 st v0 hP0 hv0 hv0S hv0F hv0nu
                (by
                  have hcard := Finset.card_le_card hv0S
                  omega)
            obtain ⟨hbvF, hdeF, hvsF, hfrF, hsmF, hpgF⟩ := hPF
            have hrF : readE eF var = nuIter F lts.states := by
              unfold readE; rw [hvF]; rfl
            have hagbv : ∀ x ∈ bv, σ1 x = readE eF x := by
              intro x hx
              have hxvar : x ≠ var := fun hh => hvarbv (hh ▸ hx)
              rw [hσ1]
              unfold readE
              rw [hfrF x (fun hd => Finset.disjoint_left.1 hdisj'
                (Finset.mem_insert_of_mem hx) hd) hxvar]
            have hsemF : sem lts g (readE eF) = nuIter F lts.states := by
              have h1 : sem lts g (readE eF) =
                  sem lts g (upd σ1 var (nuIter F lts.states)) := by
                refine sem_congr_scoped lts g (insert var bv) _ _ hws
                  (fun x hx => ?_)
                rcases Finset.mem_insert.1 hx with hxv | hx
                · rw [hxv, hrF]
                  unfold upd
                  simp
                · have hxvar : x ≠ var := fun hh => hvarbv (hh ▸ hx)
                  unfold upd
                  rw [if_neg hxvar]
                  exact (hagbv x hx).symm
              have hfix : F (nuIter F lts.states) = nuIter F lts.states :=
                nuIter_fixed hmono hSb
              rw [h1]
              show F (nuIter F lts.states) = nuIter F lts.states
              exact hfix
            have hnodeF : sem lts (.Nu var g) (readE eF) =
                nuIter F lts.states := by
              have h2 : sem lts (.Nu var g) (readE eF) =
                  sem lts (.Nu var g) σ1 :=
                sem_congr_scoped lts _ bv _ _ hws0
                  (fun x hx => (hagbv x hx).symm)
              rw [h2, hsemNu]
            have hGnode : GoodNu lts eF var g := by
              refine ⟨?_, ?_⟩
              · exact le_of_eq (hsemF.trans hrF.symm)
              · exact le_of_eq (hnodeF.trans hrF.symm)
            have hsemenv : sem lts (.Nu var g) (readE env) =
                nuIter F lts.states := by
              have h2 : sem lts (.Nu var g) (readE env) =
                  sem lts (.Nu var g) σ1 := by
                refine sem_congr_scoped lts _ bv _ _ hws0 (fun x hx => ?_)
                rw [hσ1]
                unfold readE
                rw [hfr1 x (Finset.disjoint_left.1 hdisj hx)]
              rw [h2, hsemNu]
            refine ⟨eF, sF, ?_, ?_, ?_, hvsF, ?_⟩
            · rw [hloop, hsemenv]
            · intro y hy
              have hyv : y ≠ var := by
                intro hh; subst hh; exact hy (by simp [variablesOf])
              have hyd : y ∉ (variablesOf g).declared := by
                intro hh; exact hy (by simp [variablesOf, hh])
              rw [hfrF y hyd hyv]
              exact hfr1 y hy
            · intro x hx
              exact hsmF x (hsm1 x hx)
            · refine ⟨?_, ?_, ?_, ?_⟩
              · intro X gX hmem hr
                rcases hr with hr | ⟨hp, _⟩
                · exact Formula.noConfusion hr
                · exact Bool.noConfusion hp
              · intro X gX hmem hr
                rcases hr with hr | ⟨_, hr⟩
                · obtain ⟨rfl, rfl⟩ := Formula.Nu.inj hr
                  exact hGnode
                · cases ho : (Formula.Nu X gX).is_open with
                  | true =>
                      exact hpgF.nu_open X gX (Reaches_mem g hr) ho hr
                        (Or.inr ⟨Formula.Nu var g, rfl, rfl⟩)
                  | false =>
                      exact hpgF.nu_closed X gX (Reaches_mem g hr) ho
              · intro X gX hmem ho
                have hmem' : Formula.Mu X gX ∈ subformulas g := by
                  simpa [subformulas] using hmem
                exact hpgF.mu_closed X gX hmem' ho
              · intro X gX hmem ho
                rcases (by simpa [subformulas] using hmem :
                    (X = var ∧ gX = g) ∨
                      Formula.Nu X gX ∈ subformulas g) with ⟨rfl, rfl⟩ | hmem'
                · exact hGnode
                · exact hpgF.nu_closed X gX hmem' ho
          have noreset :
              (prev = none ∨ ∃ pf, prev = some pf ∧ pf.is_nu = true) →
              PreG lts g (some (.Nu var g)) env ∧ GoodNu lts env var g := by
            intro hcond
            constructor
            · refine ⟨?_, ?_, ?_, ?_⟩
              · intro X gX hmem ho hr hc
                rcases hc with hc | ⟨pf, hpf, hmu'⟩
                · simp at hc
                · cases Option.some.inj hpf
                  simp [Formula.is_mu] at hmu'
              · intro X gX hmem ho hr _
                exact hpre.nu_open X gX (by simp [subformulas]; tauto) ho
                  (Or.inr ⟨rfl, hr⟩) hcond
              · intro X gX hmem ho
                exact hpre.mu_closed X gX (by simp [subformulas]; tauto) ho
              · intro X gX hmem ho
                exact hpre.nu_closed X gX (by simp [subformulas]; tauto) ho
            · cases ho : (Formula.Nu var g).is_open with
              | true =>
                  exact hpre.nu_open var g (self_mem_subformulas _) ho
                    (Or.inl rfl) hcond
              | false =>
                  exact hpre.nu_closed var g (self_mem_subformulas _) ho
          rcases prev with _ | pf
          · obtain ⟨hpre1, hgood1⟩ := noreset (Or.inl rfl)
            obtain ⟨env', st', h1, h2, h3, h4, h5⟩ :=
              main env (fun y _ => rfl) (fun y h => h) hvs hpre1 hgood1
            refine ⟨env', st', ?_, h2, h3, h4, h5⟩
            simp only [Improved.eval_inner]
            exact h1
          · cases pf with
            | Mu pm pg =>
                obtain ⟨env1, hre, hfrm, hopen, hsm, hvsr⟩ :=
                  resetNu_spec lts var g env
                have hfr1 : ∀ y,
                    y ∉ (variablesOf (Formula.Nu var g)).declared →
                    env1 y = env y := by
                  intro y hy
                  refine hfrm y (fun gy hgy => ?_)
                  exact absurd (binder_declared hgy rfl) hy
                have hvs1 : EnvVS lts env1 := hvsr hvs
                have hpre1 : PreG lts g (some (.Nu var g)) env1 := by
                  refine ⟨?_, ?_, ?_, ?_⟩
                  · intro X gX hmem ho hr hc
                    rcases hc with hc | ⟨pf', hpf, hmu'⟩
                    · simp at hc
                    · cases Option.some.inj hpf
                      simp [Formula.is_mu] at hmu'
                  · intro X gX hmem ho hr _
                    have hX : env1 X = some lts.states :=
                      hopen X gX (by simp [subformulas]; tauto) ho
                    have hrX : readE env1 X = lts.states := by
                      unfold readE; rw [hX]; rfl
                    refine ⟨?_, ?_⟩ <;>
                      (rw [hrX]; exact sem_subset lts _ _ (readE_subset hvs1))
                  · intro X gX hmem ho
                    have hclosed : (variablesOf (Formula.Mu X gX)).used ⊆
                        (variablesOf (Formula.Mu X gX)).declared := by
                      simpa [Formula.is_open] using ho
                    have hwsb : wellScoped ∅ (.Mu X gX) = true :=
                      closed_scoped (.Nu var g) bv hws0 hnd0 hdisj _
                        (by simp [subformulas]; tauto) hclosed
                    have hXeq : env1 X = env X := by
                      refine hfrm X (fun gy hgy => ?_)
                      exact Formula.noConfusion
                        (binder_unique (.Nu var g) hnd0 X
                          (Formula.Nu X gy) (Formula.Mu X gX) hgy
                          (by simp [subformulas]; tauto) rfl rfl)
                    refine GoodMu_closed_congr hwsb ?_
                      (hpre.mu_closed X gX (by simp [subformulas]; tauto) ho)
                    unfold readE
                    rw [hXeq]
                  · intro X gX hmem ho
                    have hclosed : (variablesOf (Formula.Nu X gX)).used ⊆
                        (variablesOf (Formula.Nu X gX)).declared := by
                      simpa [Formula.is_open] using ho
                    have hwsb : wellScoped ∅ (.Nu X gX) = true :=
                      closed_scoped (.Nu var g) bv hws0 hnd0 hdisj _
                        (by simp [subformulas]; tauto) hclosed
                    have hXeq : env1 X = env X := by
                      refine hfrm X (fun gy hgy => ?_)
                      have huniq := binder_unique (.Nu var g) hnd0 X
                        (Formula.Nu X gy) (Formula.Nu X gX) hgy
                        (by simp [subformulas]; tauto) rfl rfl
                      rw [(Formula.Nu.inj huniq).2]
                      exact ho
                    refine GoodNu_closed_congr hwsb ?_
                      (hpre.nu_closed X gX (by simp [subformulas]; tauto) ho)
                    unfold readE
                    rw [hXeq]
                have hgood1 : GoodNu lts env1 var g := by
                  cases ho : (Formula.Nu var g).is_open with
                  | true =>
                      have hX : env1 var = some lts.states :=
                        hopen var g (self_mem_subformulas _) ho
                      have hrX : readE env1 var = lts.states := by
                        unfold readE; rw [hX]; rfl
                      refine ⟨?_, ?_⟩ <;>
                        (rw [hrX];
                          exact sem_subset lts _ _ (readE_subset hvs1))
                  | false =>
                      have hclosed : (variablesOf (Formula.Nu var g)).used ⊆
                          (variablesOf (Formula.Nu var g)).declared := by
                        simpa [Formula.is_open] using ho
                      have hwsb : wellScoped ∅ (.Nu var g) = true :=
                        closed_self_scoped hws0 hdisj hclosed
                      have hXeq : env1 var = env var := by
                        refine hfrm var (fun gy hgy => ?_)
                        have huniq := binder_unique (.Nu var g) hnd0 var
                          (Formula.Nu var gy) (Formula.Nu var g) hgy
                          (self_mem_subformulas _) rfl rfl
                        rw [(Formula.Nu.inj huniq).2]
                        exact ho
                      refine GoodNu_closed_congr hwsb ?_
                        (hpre.nu_closed var g (self_mem_subformulas _) ho)
                      unfold readE
                      rw [hXeq]
                obtain ⟨env', st', h1, h2, h3, h4, h5⟩ :=
                  main env1 hfr1 hsm hvs1 hpre1 hgood1
                refine ⟨env', st', ?_, h2, h3, h4, h5⟩
                simp only [Improved.eval_inner]
                rw [hre]
                exact h1
            | Nu pn pg =>
                obtain ⟨hpre1, hgood1⟩ :=
                  noreset (Or.inr ⟨Formula.Nu pn pg, rfl, rfl⟩)
                obtain ⟨env', st', h1, h2, h3, h4, h5⟩ :=
                  main env (fun y _ => rfl) (fun y h => h) hvs hpre1 hgood1
                refine ⟨env', st', ?_, h2, h3, h4, h5⟩
                simp only [Improved.eval_inner]
                exact h1
            | False => simp [prevOk, Formula.is_mu, Formula.is_nu] at hpok
            | True => simp [prevOk, Formula.is_mu, Formula.is_nu] at hpok
            | Var nm => simp [prevOk, Formula.is_mu, Formula.is_nu] at hpok
            | And p1 p2 => simp [prevOk, Formula.is_mu, Formula.is_nu] at hpok
            | Or p1 p2 => simp [prevOk, Formula.is_mu, Formula.is_nu] at hpok
            | Diamond ps pg =>
                simp [prevOk, Formula.is_mu, Formula.is_nu] at hpok
            | Box ps pg => simp [prevOk, Formula.is_mu, Formula.is_nu] at hpok

/-- Shared top-level specification of the two entry points `naive::eval`
and `improved::eval` on a well-formed closed formula: with enough fuel,
both return the denotational value of the formula. -/
theorem evaluators_spec (lts : Lts) (f : Formula) (hwf : WF f)
    (st1 st2 : PState) (fuel : Nat)
    (hfuel : needFuel lts.states.card f ≤ fuel) :
    ∃ env1 st1' env2 st2',
      Naive.eval lts f st1 fuel =
        some (sem lts f (readE emptyEnv), env1, st1') ∧
      Improved.eval lts f st2 fuel =
        some (sem lts f (readE emptyEnv), env2, st2') := by
  obtain ⟨hws, hnd⟩ := hwf
  have hdisj : Disjoint (∅ : Finset Char) (variablesOf f).declared :=
    Finset.disjoint_left.2 (fun x hx => absurd hx (Finset.not_mem_empty x))
  have hbve : ∀ x ∈ (∅ : Finset Char), (emptyEnv x).isSome = true :=
    fun x hx => absurd hx (Finset.not_mem_empty x)
  have hvse : EnvVS lts emptyEnv := by
    intro X v hv
    simp [emptyEnv] at hv
  obtain ⟨e1, s1, h1, _, _, _⟩ :=
    naive_correct lts f ∅ emptyEnv st1 fuel hfuel hws hnd hdisj hbve hvse
  obtain ⟨hs1, hs2, hs3, hs4, hs5⟩ := preSeed_spec lts f hnd
  have hbvp : ∀ x ∈ (∅ : Finset Char),
      ((Improved.preSeed lts f) x).isSome = true :=
    fun x hx => absurd hx (Finset.not_mem_empty x)
  have hpre : PreG lts f none (Improved.preSeed lts f) := by
    have hmug : ∀ X gX, Formula.Mu X gX ∈ subformulas f →
        GoodMu lts (Improved.preSeed lts f) X gX := by
      intro X gX hm
      have hrX : readE (Improved.preSeed lts f) X = ∅ := by
        unfold readE; rw [hs2 X gX hm]; rfl
      refine ⟨?_, ?_⟩ <;> (rw [hrX]; exact Finset.empty_subset _)
    have hnug : ∀ X gX, Formula.Nu X gX ∈ subformulas f →
        GoodNu lts (Improved.preSeed lts f) X gX := by
      intro X gX hm
      have hrX : readE (Improved.preSeed lts f) X = lts.states := by
        unfold readE; rw [hs3 X gX hm]; rfl
      refine ⟨?_, ?_⟩ <;>
        (rw [hrX]; exact sem_subset lts _ _ (readE_subset hs4))
    exact ⟨fun X gX hm _ _ _ => hmug X gX hm,
      fun X gX hm _ _ _ => hnug X gX hm,
      fun X gX hm _ => hmug X gX hm,
      fun X gX hm _ => hnug X gX hm⟩
  obtain ⟨e2, s2, h2, _, _, _, _⟩ :=
    improved_correct lts f ∅ none (Improved.preSeed lts f) st2 fuel hfuel
      hws hnd hdisj hbvp hs1 hs4 trivial hpre
  have hveq : sem lts f (readE (Improved.preSeed lts f)) =
      sem lts f (readE emptyEnv) :=
    sem_congr_scoped lts f ∅ _ _ hws
      (fun x hx => absurd hx (Finset.not_mem_empty x))
  refine ⟨e1, s1, e2, s2, h1, ?_⟩
  rw [← hveq]
  exact h2

/-- C1: on every LTS and every well-formed closed formula, the naive and
the improved (Emerson–Lei) evaluator return equal satisfying sets (for
every fuel budget at least `needFuel`, both runs return `some` with the
same value). -/
theorem C1_naive_improved_equal (lts : Lts) (f : Formula) (hwf : WF f)
    (st1 st2 : PState) (fuel : Nat)
    (hfuel : needFuel lts.states.card f ≤ fuel) :
    ∃ v env1 st1' env2 st2',
      Naive.eval lts f st1 fuel = some (v, env1, st1') ∧
      Improved.eval lts f st2 fuel = some (v, env2, st2') := by
  obtain ⟨e1, s1, e2, s2, h1, h2⟩ :=
    evaluators_spec lts f hwf st1 st2 fuel hfuel
  exact ⟨sem lts f (readE emptyEnv), e1, s1, e2, s2, h1, h2⟩

theorem C1_naive_improved_equal_witness :
    WF (Formula.Mu 'X' (.Var 'X')) ∧
    needFuel L0.states.card (Formula.Mu 'X' (.Var 'X')) ≤ 20 ∧
    ∃ v env1 st1' env2 st2',
      Naive.eval L0 (Formula.Mu 'X' (.Var 'X')) ⟨0, 0⟩ 20 =
        some (v, env1, st1') ∧
      Improved.eval L0 (Formula.Mu 'X' (.Var 'X')) ⟨0, 0⟩ 20 =
        some (v, env2, st2') :=
  ⟨⟨by decide, by decide⟩, by decide,
    C1_naive_improved_equal L0 (Formula.Mu 'X' (.Var 'X'))
      ⟨by decide, by decide⟩ ⟨0, 0⟩ ⟨0, 0⟩ 20 (by decide)⟩

/-- C3: on every LTS and every well-formed closed formula, both evaluators
are total: with any fuel budget at least `needFuel` they return `some`
(no fuel exhaustion, so every fixed-point loop stabilizes) — in
particular no `none` from an unbound environment lookup (the Rust panic)
and no `none` from `reset_fixpoints` on a non-binder (the other panic) is
ever reached. -/
theorem C3_both_evaluators_total (lts : Lts) (f : Formula) (hwf : WF f)
    (st : PState) (fuel : Nat)
    (hfuel : needFuel lts.states.card f ≤ fuel) :
    (Naive.eval lts f st fuel).isSome = true ∧
    (Improved.eval lts f st fuel).isSome = true := by
  obtain ⟨e1, s1, e2, s2, h1, h2⟩ :=
    evaluators_spec lts f hwf st st fuel hfuel
  rw [h1, h2]
  exact ⟨rfl, rfl⟩

theorem C3_both_evaluators_total_witness :
    WF (Formula.Nu 'X' (.Diamond "tau" (.Var 'X'))) ∧
    needFuel L0.states.card (Formula.Nu 'X' (.Diamond "tau" (.Var 'X'))) ≤
      20 ∧
    (Naive.eval L0 (Formula.Nu 'X' (.Diamond "tau" (.Var 'X')))
        ⟨0, 0⟩ 20).isSome = true ∧
    (Improved.eval L0 (Formula.Nu 'X' (.Diamond "tau" (.Var 'X')))
        ⟨0, 0⟩ 20).isSome = true :=
  ⟨⟨by decide, by decide⟩, by decide,
    C3_both_evaluators_total L0 (Formula.Nu 'X' (.Diamond "tau" (.Var 'X')))
      ⟨by decide, by decide⟩ ⟨0, 0⟩ 20 (by decide)⟩
